import Mathlib

/-!
# Game tree search: N×N tic-tac-toe board and exhaustive minimax

A shallow embedding of `board.h` (class `Board<N>`) and `tic_tac_toe.h`
(class `TicTacToe<N>`), followed by theorems about the embedded code.

Conventions of the embedding.

* `char` cells are `Char`; the three marks are the constants `P1 = 'X'`,
  `P2 = 'O'`, `EMPTY = ' '` of the class.
* `std::array<std::array<char, N>, N> board_` is a function of two indices.
  Only indices below `N` are cells of the array; the loops of the source
  visit in-range cells only, and a write outside the array (undefined
  behaviour in the source) changes no cell of the array.  The loop indices
  are passed to `int` parameters; with `N ≤ INT_MAX` they pass unchanged and
  are natural numbers here.  The win tests read `board_[0][0]`, so they are
  meant for `N ≥ 1`.
* `std::size_t` values are `Nat` with explicit reduction modulo `2 ^ 64`;
  `int` values are `Int`, and every place where the code narrows to `int`
  wraps modulo `2 ^ 32` into `[-2 ^ 31, 2 ^ 31)`, as does `depth + 1`.
* The search mutates the board in place and undoes each placement.  The
  embedding passes the board through every call explicitly and returns the
  board that the call leaves behind.
* The recursion of `minimax` has no explicit bound in the source.  The
  embedding takes a fuel argument and returns `none` when it is exhausted;
  the theorems show that fuel above `N * N` always produces a result.
* The scores are `int`.  Theorems that compare scores assume
  `N * N < 2 ^ 31`: the number of cells, the largest score, fits an `int`.
* The overloads that take a linear index (`setField(int id, char)`,
  `setFieldForP1(int id)`, `setFieldForP2(int id)`) carry the suffix `Id`.
* `run(int, int)` is `runXY`; it can throw, and its result records whether it
  returned or threw together with the board at that point.
* `specValue` is the copy-based reference score in exact integer
  arithmetic; it is compared with the score `minimax` computes.
-/

namespace gtsa

/-! ## Machine arithmetic -/

/-- Number of values of `std::size_t` (64 bits). -/
def SIZE_MOD : Nat := 18446744073709551616

/-- The constant `std::numeric_limits<int>::max()`. -/
def INT_MAX : Int := 2147483647

/-- The constant `std::numeric_limits<int>::min()`. -/
def INT_MIN : Int := -2147483648

/-- Conversion `int → std::size_t` (value modulo `2 ^ 64`). -/
def sizeOfInt (z : Int) : Nat := (z % 18446744073709551616).toNat

/-- Conversion `std::size_t → int` (low 32 bits, two's complement). -/
def intOfSize (n : Nat) : Int :=
  if n % 4294967296 < 2147483648 then ((n % 4294967296 : Nat) : Int)
  else ((n % 4294967296 : Nat) : Int) - 4294967296

/-- Subtraction of two `std::size_t` values. -/
def sizeSub (a b : Nat) : Nat := (a % SIZE_MOD + (SIZE_MOD - b % SIZE_MOD)) % SIZE_MOD

/-- Unary minus on a `std::size_t` value. -/
def sizeNeg (a : Nat) : Nat := (SIZE_MOD - a % SIZE_MOD) % SIZE_MOD

/-- Addition of two `int` values, wrapping on overflow. -/
def intAdd (a b : Int) : Int := (a + b + 2147483648) % 4294967296 - 2147483648

/-! ## Board -/

/-- Class `Board<N>`: the cell array and the occupied-cell counter.
The constant member `fieldsCount_` is `N * N`, see `Board.getMaxDepth`. -/
structure Board (N : Nat) where
  /-- Member `board_`, addressed as `board_[x][y]`. -/
  board_ : Nat → Nat → Char
  /-- Member `checkedFieldsCount_`. -/
  checkedFieldsCount_ : Nat

namespace Board

variable {N : Nat}

/-- Mark of player one. -/
def P1 : Char := 'X'

/-- Mark of player two. -/
def P2 : Char := 'O'

/-- Mark of an empty cell. -/
def EMPTY : Char := ' '

/-- The board built by the constructor: every cell `EMPTY`, counter zero. -/
def empty (N : Nat) : Board N := ⟨fun _ _ => EMPTY, 0⟩

/-- Method `getField`. -/
def getField (b : Board N) (x y : Nat) : Char := b.board_ x y

/-- Method `getMaxDepth`: the member `fieldsCount_`, which is
`board_.size() * board_.front().size()`. -/
def getMaxDepth (_b : Board N) : Nat := N * N % SIZE_MOD

/-- Method `isFieldEmpty`. -/
def isFieldEmpty (b : Board N) (x y : Nat) : Bool :=
  b.getField x y != P1 && b.getField x y != P2

/-- Method `isFull`. -/
def isFull (b : Board N) : Bool := decide (b.getMaxDepth ≤ b.checkedFieldsCount_)

/-- Method `setField(int x, int y, char value)`. -/
def setField (b : Board N) (x y : Nat) (value : Char) : Board N :=
  ⟨fun i j => if i = x ∧ j = y then value else b.board_ i j, b.checkedFieldsCount_⟩

/-- Method `setFieldForP1(int x, int y)`. -/
def setFieldForP1 (b : Board N) (x y : Nat) : Board N :=
  ⟨(b.setField x y P1).board_, ((b.setField x y P1).checkedFieldsCount_ + 1) % SIZE_MOD⟩

/-- Method `setFieldForP2(int x, int y)`. -/
def setFieldForP2 (b : Board N) (x y : Nat) : Board N :=
  ⟨(b.setField x y P2).board_, ((b.setField x y P2).checkedFieldsCount_ + 1) % SIZE_MOD⟩

/-- Method `clearField`. -/
def clearField (b : Board N) (x y : Nat) : Board N :=
  ⟨(b.setField x y EMPTY).board_,
    ((b.setField x y EMPTY).checkedFieldsCount_ + (SIZE_MOD - 1)) % SIZE_MOD⟩

/-- Method `isWinInColumn`: for each `i`, the test that `board_[i][0]` is a
player's mark and that `board_[i][1 .. N-1]` all equal it. -/
def isWinInColumn (b : Board N) : Bool :=
  (List.range N).any fun i =>
    !b.isFieldEmpty i 0 &&
      (List.range' 1 (N - 1)).all fun j => b.board_ i j == b.board_ i 0

/-- Method `isWinInRow`: for each `i`, the test that `board_[0][i]` is a
player's mark and that `board_[1 .. N-1][i]` all equal it. -/
def isWinInRow (b : Board N) : Bool :=
  (List.range N).any fun i =>
    !b.isFieldEmpty 0 i &&
      (List.range' 1 (N - 1)).all fun j => b.board_ j i == b.board_ 0 i

/-- Method `isWinInDiagonal`: main diagonal first, then the anti-diagonal. -/
def isWinInDiagonal (b : Board N) : Bool :=
  (!b.isFieldEmpty 0 0 &&
      (List.range N).all fun i => b.board_ i i == b.board_ 0 0) ||
  (!b.isFieldEmpty 0 (N - 1) &&
      (List.range N).all fun i => b.board_ i (N - 1 - i) == b.board_ 0 (N - 1))

/-- Method `isGameEnd`. -/
def isGameEnd (b : Board N) : Bool :=
  b.isWinInColumn || b.isWinInRow || b.isWinInDiagonal

end Board

/-! ## Search engine -/

/-- The cells in the order of the nested loops `for i … for j …` of
`getBestMove` and `minimax`: `i` outer, `j` inner. -/
def scanOrder (N : Nat) : List (Nat × Nat) :=
  List.product (List.range N) (List.range N)

/-- Method `TicTacToe::minimax`, run on the board `b`; the result is the
score and the board the call leaves behind. -/
def minimax {N : Nat} : Nat → Int → Bool → Board N → Option (Int × Board N)
  | 0, _, _, _ => none
  | fuel + 1, depth, is_p1_turn, b =>
    if b.isGameEnd then
      if is_p1_turn then
        some (intOfSize (sizeSub b.getMaxDepth (sizeOfInt depth)), b)
      else
        some (intOfSize (sizeNeg (sizeSub b.getMaxDepth (sizeOfInt depth))), b)
    else if b.isFull then
      some (0, b)
    else if is_p1_turn then
      (scanOrder N).foldlM
        (fun (st : Int × Board N) (c : Nat × Nat) =>
          if st.2.isFieldEmpty c.1 c.2 then
            (minimax fuel (intAdd depth 1) (!is_p1_turn) (st.2.setFieldForP1 c.1 c.2)).bind
              fun r => some (min st.1 r.1, r.2.clearField c.1 c.2)
          else some st)
        (INT_MAX, b)
    else
      (scanOrder N).foldlM
        (fun (st : Int × Board N) (c : Nat × Nat) =>
          if st.2.isFieldEmpty c.1 c.2 then
            (minimax fuel (intAdd depth 1) (!is_p1_turn) (st.2.setFieldForP2 c.1 c.2)).bind
              fun r => some (max st.1 r.1, r.2.clearField c.1 c.2)
          else some st)
        (INT_MIN, b)

/-- Local variables of `getBestMove` together with the board. -/
structure BestState (N : Nat) where
  /-- Variable `best_x`. -/
  best_x : Int
  /-- Variable `best_y`. -/
  best_y : Int
  /-- Variable `best_score`. -/
  best_score : Int
  /-- The board member of the object. -/
  board : Board N

/-- Method `TicTacToe::getBestMove`; `fuel` is the fuel of each `minimax`
call.  The result is the returned pair and the board left behind. -/
def getBestMove {N : Nat} (fuel : Nat) (is_p1_turn : Bool) (b : Board N) :
    Option ((Int × Int) × Board N) :=
  ((scanOrder N).foldlM
    (fun (st : BestState N) (c : Nat × Nat) =>
      if st.board.isFieldEmpty c.1 c.2 then
        (minimax fuel 0 (!is_p1_turn)
            (if is_p1_turn then st.board.setFieldForP1 c.1 c.2
             else st.board.setFieldForP2 c.1 c.2)).bind
          fun r =>
            if r.1 > st.best_score then
              some ⟨intOfSize c.1, intOfSize c.2, r.1, r.2.clearField c.1 c.2⟩
            else
              some ⟨st.best_x, st.best_y, st.best_score, r.2.clearField c.1 c.2⟩
      else some st)
    (⟨-1, -1, INT_MIN, b⟩ : BestState N)).map
    fun st => ((st.best_x, st.best_y), st.board)

/-- Method `TicTacToe::run(bool)` without the printing: the game loop.
`steps` bounds the number of loop iterations, `fuel` is the search fuel. -/
def run {N : Nat} (fuel : Nat) : Nat → Bool → Board N → Option (Board N)
  | 0, _, _ => none
  | steps + 1, is_p1_turn, b =>
    if !b.isGameEnd && !b.isFull then
      (getBestMove fuel is_p1_turn b).bind fun r =>
        run fuel steps (!is_p1_turn)
          (if is_p1_turn then r.2.setFieldForP1 (sizeOfInt r.1.1) (sizeOfInt r.1.2)
           else r.2.setFieldForP2 (sizeOfInt r.1.1) (sizeOfInt r.1.2))
    else some b


/-! ## Pure counterparts used in the proofs -/

/-- The score `minimax` computes, as a function of an immutable board: the
same recursion with every child board built by one placement. -/
def value {N : Nat} : Nat → Int → Bool → Board N → Int
  | 0, _, _, _ => 0
  | fuel + 1, depth, is_p1_turn, b =>
    if b.isGameEnd then
      if is_p1_turn then intOfSize (sizeSub b.getMaxDepth (sizeOfInt depth))
      else intOfSize (sizeNeg (sizeSub b.getMaxDepth (sizeOfInt depth)))
    else if b.isFull then 0
    else if is_p1_turn then
      (scanOrder N).foldl
        (fun best c =>
          if b.isFieldEmpty c.1 c.2 then
            min best (value fuel (intAdd depth 1) (!is_p1_turn) (b.setFieldForP1 c.1 c.2))
          else best)
        INT_MAX
    else
      (scanOrder N).foldl
        (fun best c =>
          if b.isFieldEmpty c.1 c.2 then
            max best (value fuel (intAdd depth 1) (!is_p1_turn) (b.setFieldForP2 c.1 c.2))
          else best)
        INT_MIN

/-- The board after the player to move has marked the cell `(x, y)`. -/
def place {N : Nat} (is_p1_turn : Bool) (b : Board N) (x y : Nat) : Board N :=
  if is_p1_turn then b.setFieldForP1 x y else b.setFieldForP2 x y

/-- The score `getBestMove` assigns to the cell `(x, y)`: the value of
`minimax(0, !is_p1_turn)` with the mover's mark placed there. -/
def moveScore {N : Nat} (fuel : Nat) (is_p1_turn : Bool) (b : Board N) (x y : Nat) : Int :=
  value fuel 0 (!is_p1_turn) (place is_p1_turn b x y)

/-- One iteration of the scan of `getBestMove` on the triple
`(best_x, best_y, best_score)`, the board being `b` throughout. -/
def bestStep {N : Nat} (fuel : Nat) (is_p1_turn : Bool) (b : Board N)
    (st : Int × Int × Int) (c : Nat × Nat) : Int × Int × Int :=
  if b.isFieldEmpty c.1 c.2 then
    if moveScore fuel is_p1_turn b c.1 c.2 > st.2.2 then
      (intOfSize c.1, intOfSize c.2, moveScore fuel is_p1_turn b c.1 c.2)
    else st
  else st

/-- The pair `getBestMove` returns, as a function of an immutable board. -/
def bestMove {N : Nat} (fuel : Nat) (is_p1_turn : Bool) (b : Board N) : Int × Int :=
  (((scanOrder N).foldl (bestStep fuel is_p1_turn b) (-1, -1, INT_MIN)).1,
   ((scanOrder N).foldl (bestStep fuel is_p1_turn b) (-1, -1, INT_MIN)).2.1)

/-! ## Well-formedness predicates -/

/-- Every cell of the array holds one of the three marks. -/
def CellsValid {N : Nat} (b : Board N) : Prop :=
  ∀ x y, x < N → y < N →
    b.board_ x y = Board.P1 ∨ b.board_ x y = Board.P2 ∨ b.board_ x y = Board.EMPTY

/-- Number of empty cells of the array. -/
def emptyCount {N : Nat} (b : Board N) : Nat :=
  (scanOrder N).countP fun c => b.isFieldEmpty c.1 c.2

/-- Number of occupied cells of the array. -/
def occupiedCount {N : Nat} (b : Board N) : Nat :=
  (scanOrder N).countP fun c => !b.isFieldEmpty c.1 c.2

/-- The counter equals the number of occupied cells. -/
def Consistent {N : Nat} (b : Board N) : Prop :=
  b.checkedFieldsCount_ = occupiedCount b

/-- The lines of the board, as lists of cells: for each `i` the line
`board_[i][0 .. N-1]`, for each `i` the line `board_[0 .. N-1][i]`, the main
diagonal `board_[i][i]` and the anti-diagonal `board_[i][N-1-i]`. -/
def lines (N : Nat) : List (List (Nat × Nat)) :=
  (List.range N).map (fun i => (List.range N).map fun j => (i, j)) ++
  (List.range N).map (fun i => (List.range N).map fun j => (j, i)) ++
  [(List.range N).map (fun i => (i, i)), (List.range N).map (fun i => (i, N - 1 - i))]

/-- Some line of the board holds the same player's mark in all its `N` cells. -/
def HasCompletedLine {N : Nat} (b : Board N) : Prop :=
  ∃ line ∈ lines N, ∃ m, (m = Board.P1 ∨ m = Board.P2) ∧ ∀ c ∈ line, b.board_ c.1 c.2 = m

/-- The cell `a` is visited before the cell `c` by the nested loops
(`x` outer, `y` inner). -/
def scansBefore (a c : Nat × Nat) : Prop :=
  a.1 < c.1 ∨ (a.1 = c.1 ∧ a.2 < c.2)

/-- Boards reachable from the freshly constructed board by legal alternating
play, with the player whose turn it is: either player may start; a move is
made only while the game is not over (no completed line, board not full), on
an empty cell of the array, with the mover's mark, and passes the turn. -/
inductive Reachable {N : Nat} : Bool → Board N → Prop
  | start (p : Bool) : Reachable p (Board.empty N)
  | move (p : Bool) (b : Board N) (x y : Nat) :
      Reachable p b → b.isGameEnd = false → b.isFull = false →
      x < N → y < N → b.isFieldEmpty x y = true →
      Reachable (!p) (place p b x y)

/-- A board given by its rows `board_[0]`, `board_[1]`, … and its counter. -/
def Board.ofRows (N : Nat) (rows : List (List Char)) (count : Nat) : Board N :=
  ⟨fun x y => (rows.getD x []).getD y Board.EMPTY, count⟩

/-- Marking the cell `(x, y)` for the player to move completes a line: the
resulting board passes the win test `isGameEnd`. -/
def completesLine {N : Nat} (is_p1_turn : Bool) (b : Board N) (x y : Nat) : Bool :=
  (place is_p1_turn b x y).isGameEnd

/-! ## Sample boards -/

/-- Player two to move and able to complete `board_[1][0..2]` at `(1, 2)`. -/
def sampleP2 : Board 3 :=
  Board.ofRows 3 [['X', 'X', ' '], ['O', 'O', ' '], ['X', ' ', ' ']] 5

/-- A board with the completed line `board_[0][0..2]`. -/
def sampleWon : Board 3 :=
  Board.ofRows 3 [['X', 'X', 'X'], ['O', 'O', ' '], [' ', ' ', ' ']] 5

/-- A full board without a completed line. -/
def sampleDraw : Board 3 :=
  Board.ofRows 3 [['X', 'O', 'X'], ['X', 'O', 'O'], ['O', 'X', 'X']] 9

/-- Eight marks without a completed line and a counter that was never
incremented (the cells written through `setField`). -/
def sampleStuck : Board 3 :=
  Board.ofRows 3 [['X', 'O', 'X'], ['X', 'O', 'O'], ['O', 'X', ' ']] 0

/-- Player one to move and able to complete `board_[0][0..2]` at `(0, 2)`. -/
def sampleP1 : Board 3 :=
  Board.ofRows 3 [['X', 'X', ' '], ['O', 'O', 'X'], ['O', ' ', ' ']] 6


/-- A full 46341×46341 board with every cell P1; its size
`46341 * 46341 = 2147488281` is the first that exceeds `INT_MAX`. -/
def bigWon : Board 46341 :=
  ⟨fun _ _ => 'X', 2147488281⟩

/-- A 46341×46341 board with the two empty cells `(0, 0)` and `(1, 0)` and a
consistent counter: `board_[0][1..]` all P2, a checkerboard elsewhere (P1 on
the cells with `x + y` even).  No line is completed; player two completes
`board_[0][0..]` at `(0, 0)`. -/
def bigB : Board 46341 :=
  ⟨fun x y =>
    if x = 0 then (if y = 0 then ' ' else 'O')
    else if x = 1 ∧ y = 0 then ' '
    else if (x + y) % 2 = 0 then 'X' else 'O', 2147488279⟩

/-! ## Evaluator for 3×3 positions

The search tree of the empty 3×3 board has more than half a million nodes.
To evaluate the score of 3×3 positions inside the logic, the nine cells are
passed as nine arguments and the score is bounded from both sides by two
Boolean tests, which are proved sound for `value` below. -/

/-- Cell content in the 3×3 evaluator. -/
inductive Mark3 where
  | E | X | O
  deriving DecidableEq

/-- The cell is empty. -/
def Mark3.isE : Mark3 → Bool
  | .E => true
  | _ => false

/-- Three cells hold the same player's mark. -/
def line3 : Mark3 → Mark3 → Mark3 → Bool
  | .X, .X, .X => true
  | .O, .O, .O => true
  | _, _, _ => false

/-- Some line of the nine cells (`a00` is `board_[0][0]`, `a01` is `board_[0][1]`, …)
holds the same player's mark in its three cells. -/
def win9 (a00 a01 a02 a10 a11 a12 a20 a21 a22 : Mark3) : Bool :=
  line3 a00 a01 a02 || line3 a10 a11 a12 || line3 a20 a21 a22 ||
  line3 a00 a10 a20 || line3 a01 a11 a21 || line3 a02 a12 a22 ||
  line3 a00 a11 a22 || line3 a02 a11 a20

/-- A Boolean test on a 3×3 position given by its nine cells, its counter
`cnt`, the depth `d` and the player to move: when it returns `true` the
score of the position is at most `k` (theorem `scoreLe_sound`).  At a node of
player one, who takes the minimum, one child at most `k` is enough; at a node
of player two every child has to be at most `k`. -/
def scoreLe : Nat → Mark3 → Mark3 → Mark3 → Mark3 → Mark3 → Mark3 → Mark3 → Mark3 →
    Mark3 → Nat → Nat → Bool → Int → Bool
  | 0, _, _, _, _, _, _, _, _, _, _, _, _, _ => false
  | fuel + 1, a00, a01, a02, a10, a11, a12, a20, a21, a22, cnt, d, p, k =>
    Nat.ble d 9 &&
      (if win9 a00 a01 a02 a10 a11 a12 a20 a21 a22 then
        (if p then decide ((9 : Int) - d ≤ k) else decide (-((9 : Int) - d) ≤ k))
       else if Nat.ble 9 cnt then decide (0 ≤ k)
       else if p then
         ((a11.isE && scoreLe fuel a00 a01 a02 a10 .X a12 a20 a21 a22 (cnt + 1) (d + 1) false k) ||
          (a00.isE && scoreLe fuel .X a01 a02 a10 a11 a12 a20 a21 a22 (cnt + 1) (d + 1) false k) ||
          (a02.isE && scoreLe fuel a00 a01 .X a10 a11 a12 a20 a21 a22 (cnt + 1) (d + 1) false k) ||
          (a20.isE && scoreLe fuel a00 a01 a02 a10 a11 a12 .X a21 a22 (cnt + 1) (d + 1) false k) ||
          (a22.isE && scoreLe fuel a00 a01 a02 a10 a11 a12 a20 a21 .X (cnt + 1) (d + 1) false k) ||
          (a01.isE && scoreLe fuel a00 .X a02 a10 a11 a12 a20 a21 a22 (cnt + 1) (d + 1) false k) ||
          (a10.isE && scoreLe fuel a00 a01 a02 .X a11 a12 a20 a21 a22 (cnt + 1) (d + 1) false k) ||
          (a12.isE && scoreLe fuel a00 a01 a02 a10 a11 .X a20 a21 a22 (cnt + 1) (d + 1) false k) ||
          (a21.isE && scoreLe fuel a00 a01 a02 a10 a11 a12 a20 .X a22 (cnt + 1) (d + 1) false k))
       else
         decide (-2147483648 ≤ k) &&
         ((!a00.isE || scoreLe fuel .O a01 a02 a10 a11 a12 a20 a21 a22 (cnt + 1) (d + 1) true k) &&
          (!a01.isE || scoreLe fuel a00 .O a02 a10 a11 a12 a20 a21 a22 (cnt + 1) (d + 1) true k) &&
          (!a02.isE || scoreLe fuel a00 a01 .O a10 a11 a12 a20 a21 a22 (cnt + 1) (d + 1) true k) &&
          (!a10.isE || scoreLe fuel a00 a01 a02 .O a11 a12 a20 a21 a22 (cnt + 1) (d + 1) true k) &&
          (!a11.isE || scoreLe fuel a00 a01 a02 a10 .O a12 a20 a21 a22 (cnt + 1) (d + 1) true k) &&
          (!a12.isE || scoreLe fuel a00 a01 a02 a10 a11 .O a20 a21 a22 (cnt + 1) (d + 1) true k) &&
          (!a20.isE || scoreLe fuel a00 a01 a02 a10 a11 a12 .O a21 a22 (cnt + 1) (d + 1) true k) &&
          (!a21.isE || scoreLe fuel a00 a01 a02 a10 a11 a12 a20 .O a22 (cnt + 1) (d + 1) true k) &&
          (!a22.isE || scoreLe fuel a00 a01 a02 a10 a11 a12 a20 a21 .O (cnt + 1) (d + 1) true k)))

/-- The mirror image of `scoreLe`: when it returns `true` the score of the position is
at least `k` (theorem `scoreGe_sound`). -/
def scoreGe : Nat → Mark3 → Mark3 → Mark3 → Mark3 → Mark3 → Mark3 → Mark3 → Mark3 →
    Mark3 → Nat → Nat → Bool → Int → Bool
  | 0, _, _, _, _, _, _, _, _, _, _, _, _, _ => false
  | fuel + 1, a00, a01, a02, a10, a11, a12, a20, a21, a22, cnt, d, p, k =>
    Nat.ble d 9 &&
      (if win9 a00 a01 a02 a10 a11 a12 a20 a21 a22 then
        (if p then decide (k ≤ (9 : Int) - d) else decide (k ≤ -((9 : Int) - d)))
       else if Nat.ble 9 cnt then decide (k ≤ 0)
       else if p then
         decide (k ≤ 2147483647) &&
         ((!a00.isE || scoreGe fuel .X a01 a02 a10 a11 a12 a20 a21 a22 (cnt + 1) (d + 1) false k) &&
          (!a01.isE || scoreGe fuel a00 .X a02 a10 a11 a12 a20 a21 a22 (cnt + 1) (d + 1) false k) &&
          (!a02.isE || scoreGe fuel a00 a01 .X a10 a11 a12 a20 a21 a22 (cnt + 1) (d + 1) false k) &&
          (!a10.isE || scoreGe fuel a00 a01 a02 .X a11 a12 a20 a21 a22 (cnt + 1) (d + 1) false k) &&
          (!a11.isE || scoreGe fuel a00 a01 a02 a10 .X a12 a20 a21 a22 (cnt + 1) (d + 1) false k) &&
          (!a12.isE || scoreGe fuel a00 a01 a02 a10 a11 .X a20 a21 a22 (cnt + 1) (d + 1) false k) &&
          (!a20.isE || scoreGe fuel a00 a01 a02 a10 a11 a12 .X a21 a22 (cnt + 1) (d + 1) false k) &&
          (!a21.isE || scoreGe fuel a00 a01 a02 a10 a11 a12 a20 .X a22 (cnt + 1) (d + 1) false k) &&
          (!a22.isE || scoreGe fuel a00 a01 a02 a10 a11 a12 a20 a21 .X (cnt + 1) (d + 1) false k))
       else
         ((a11.isE && scoreGe fuel a00 a01 a02 a10 .O a12 a20 a21 a22 (cnt + 1) (d + 1) true k) ||
          (a00.isE && scoreGe fuel .O a01 a02 a10 a11 a12 a20 a21 a22 (cnt + 1) (d + 1) true k) ||
          (a02.isE && scoreGe fuel a00 a01 .O a10 a11 a12 a20 a21 a22 (cnt + 1) (d + 1) true k) ||
          (a20.isE && scoreGe fuel a00 a01 a02 a10 a11 a12 .O a21 a22 (cnt + 1) (d + 1) true k) ||
          (a22.isE && scoreGe fuel a00 a01 a02 a10 a11 a12 a20 a21 .O (cnt + 1) (d + 1) true k) ||
          (a01.isE && scoreGe fuel a00 .O a02 a10 a11 a12 a20 a21 a22 (cnt + 1) (d + 1) true k) ||
          (a10.isE && scoreGe fuel a00 a01 a02 .O a11 a12 a20 a21 a22 (cnt + 1) (d + 1) true k) ||
          (a12.isE && scoreGe fuel a00 a01 a02 a10 a11 .O a20 a21 a22 (cnt + 1) (d + 1) true k) ||
          (a21.isE && scoreGe fuel a00 a01 a02 a10 a11 a12 a20 .O a22 (cnt + 1) (d + 1) true k)))

/-- The `char` of a cell of the evaluator. -/
def Mark3.toChar : Mark3 → Char
  | .E => Board.EMPTY
  | .X => Board.P1
  | .O => Board.P2

/-- Nine cells, `cxy` being `board_[x][y]`. -/
structure Cells3 where
  /-- Cell `board_[0][0]`. -/
  c00 : Mark3
  /-- Cell `board_[0][1]`. -/
  c01 : Mark3
  /-- Cell `board_[0][2]`. -/
  c02 : Mark3
  /-- Cell `board_[1][0]`. -/
  c10 : Mark3
  /-- Cell `board_[1][1]`. -/
  c11 : Mark3
  /-- Cell `board_[1][2]`. -/
  c12 : Mark3
  /-- Cell `board_[2][0]`. -/
  c20 : Mark3
  /-- Cell `board_[2][1]`. -/
  c21 : Mark3
  /-- Cell `board_[2][2]`. -/
  c22 : Mark3

/-- Cell `(x, y)` of the nine cells. -/
def Cells3.get (c : Cells3) : Nat → Nat → Mark3
  | 0, 0 => c.c00
  | 0, 1 => c.c01
  | 0, 2 => c.c02
  | 1, 0 => c.c10
  | 1, 1 => c.c11
  | 1, 2 => c.c12
  | 2, 0 => c.c20
  | 2, 1 => c.c21
  | 2, 2 => c.c22
  | _, _ => .E

/-- The nine cells with cell `(x, y)` replaced by `m`. -/
def Cells3.set (c : Cells3) (x y : Nat) (m : Mark3) : Cells3 :=
  match x, y with
  | 0, 0 => ⟨m, c.c01, c.c02, c.c10, c.c11, c.c12, c.c20, c.c21, c.c22⟩
  | 0, 1 => ⟨c.c00, m, c.c02, c.c10, c.c11, c.c12, c.c20, c.c21, c.c22⟩
  | 0, 2 => ⟨c.c00, c.c01, m, c.c10, c.c11, c.c12, c.c20, c.c21, c.c22⟩
  | 1, 0 => ⟨c.c00, c.c01, c.c02, m, c.c11, c.c12, c.c20, c.c21, c.c22⟩
  | 1, 1 => ⟨c.c00, c.c01, c.c02, c.c10, m, c.c12, c.c20, c.c21, c.c22⟩
  | 1, 2 => ⟨c.c00, c.c01, c.c02, c.c10, c.c11, m, c.c20, c.c21, c.c22⟩
  | 2, 0 => ⟨c.c00, c.c01, c.c02, c.c10, c.c11, c.c12, m, c.c21, c.c22⟩
  | 2, 1 => ⟨c.c00, c.c01, c.c02, c.c10, c.c11, c.c12, c.c20, m, c.c22⟩
  | 2, 2 => ⟨c.c00, c.c01, c.c02, c.c10, c.c11, c.c12, c.c20, c.c21, m⟩
  | _, _ => c

/-- The board of `Board<3>` with the given nine cells and counter. -/
def Cells3.toBoard (c : Cells3) (count : Nat) : Board 3 :=
  ⟨fun x y => (c.get x y).toChar, count⟩

/-- The win test of the evaluator on nine cells. -/
def win3 (c : Cells3) : Bool :=
  win9 c.c00 c.c01 c.c02 c.c10 c.c11 c.c12 c.c20 c.c21 c.c22

/-- Mark of the mover in the evaluator. -/
def markOf (p : Bool) : Mark3 := if p then Mark3.X else Mark3.O

/-- The test `scoreLe` on nine cells. -/
def scoreLeC (fuel : Nat) (c : Cells3) (cnt d : Nat) (p : Bool) (k : Int) : Bool :=
  scoreLe fuel c.c00 c.c01 c.c02 c.c10 c.c11 c.c12 c.c20 c.c21 c.c22 cnt d p k

/-- The test `scoreGe` on nine cells. -/
def scoreGeC (fuel : Nat) (c : Cells3) (cnt d : Nat) (p : Bool) (k : Int) : Bool :=
  scoreGe fuel c.c00 c.c01 c.c02 c.c10 c.c11 c.c12 c.c20 c.c21 c.c22 cnt d p k

/-- The nine cells of the array in scan order. -/
def cells3 : List (Nat × Nat) :=
  [(0, 0), (0, 1), (0, 2), (1, 0), (1, 1), (1, 2), (2, 0), (2, 1), (2, 2)]

/-- A Boolean test that `getBestMove` picks the cell `(x, y)` with score `s`
on a 3×3 position (theorem `bestCheck_sound`): the cell is empty and scores
exactly `s`, `s` is above `INT_MIN`, every empty cell visited earlier scores
at most `s - 1` and every other empty cell at most `s`. -/
def bestCheck (c : Cells3) (cnt : Nat) (p : Bool) (x y : Nat) (s : Int) : Bool :=
  (c.get x y).isE && decide (-2147483648 < s) &&
  scoreLeC 10 (c.set x y (markOf p)) (cnt + 1) 0 (!p) s &&
  scoreGeC 10 (c.set x y (markOf p)) (cnt + 1) 0 (!p) s &&
  cells3.all fun a =>
    !(c.get a.1 a.2).isE || (a.1 == x && a.2 == y) ||
      scoreLeC 10 (c.set a.1 a.2 (markOf p)) (cnt + 1) 0 (!p)
        (if a.1 < x ∨ (a.1 = x ∧ a.2 < y) then s - 1 else s)

/-- The empty 3×3 position. -/
def cellsEmpty : Cells3 :=
  ⟨.E, .E, .E, .E, .E, .E, .E, .E, .E⟩

/-- The position in which the self-play of `run(true)` ends. -/
def cellsSelfPlayEnd : Cells3 :=
  ⟨.X, .X, .O, .X, .O, .E, .O, .E, .E⟩

/-- The board on which the self-play of `run(true)` from the empty 3×3 board
ends: player two holds the anti-diagonal, three cells are still empty. -/
def selfPlayEnd : Board 3 :=
  Board.ofRows 3 [['X', 'X', 'O'], ['X', 'O', ' '], ['O', ' ', ' ']] 6

/-! ## Addressing by linear index -/

/-- The cell `(x, y)` that `setField(int id, char)` addresses:
`x = (id - 1) / N` and `y = (id - 1) % N`, where `id - 1` is computed in
`int` and converted to `size_t` for the division by the `size_t` `N`. -/
def idCell (N : Nat) (id : Int) : Nat × Nat :=
  (sizeOfInt (intAdd id (-1)) / N, sizeOfInt (intAdd id (-1)) % N)

/-- Method `setField(int id, char value)`. -/
def Board.setFieldId {N : Nat} (b : Board N) (id : Int) (value : Char) : Board N :=
  ⟨fun i j => if i = (idCell N id).1 ∧ j = (idCell N id).2 then value else b.board_ i j,
    b.checkedFieldsCount_⟩

/-- Method `setFieldForP1(int id)`. -/
def Board.setFieldForP1Id {N : Nat} (b : Board N) (id : Int) : Board N :=
  ⟨(b.setFieldId id Board.P1).board_,
    ((b.setFieldId id Board.P1).checkedFieldsCount_ + 1) % SIZE_MOD⟩

/-- Method `setFieldForP2(int id)`. -/
def Board.setFieldForP2Id {N : Nat} (b : Board N) (id : Int) : Board N :=
  ⟨(b.setFieldId id Board.P2).board_,
    ((b.setFieldId id Board.P2).checkedFieldsCount_ + 1) % SIZE_MOD⟩

/-! ## The human move -/

/-- How a call of `run(int, int)` ends: the game loop has run to its end, or
`std::range_error("invalid position")` is thrown; either way with the board
of the object at that point. -/
inductive RunOutcome (N : Nat) where
  /-- The call returned. -/
  | finished (b : Board N)
  /-- The call threw the range error. -/
  | rangeError (b : Board N)

/-- Method `TicTacToe::run(int p1_x, int p1_y)`: the statements in the order
of the source, `board_.setFieldForP1(p1_x, p1_y)` first, the range test
second (in `p1_x >= N` the `int` is converted to `size_t`), `run(false)`
last. -/
def runXY {N : Nat} (fuel steps : Nat) (p1_x p1_y : Int) (b : Board N) :
    Option (RunOutcome N) :=
  if p1_x < 0 ∨ N ≤ sizeOfInt p1_x ∨ p1_y < 0 ∨ N ≤ sizeOfInt p1_y then
    some (RunOutcome.rangeError (b.setFieldForP1 (sizeOfInt p1_x) (sizeOfInt p1_y)))
  else
    (run fuel steps false (b.setFieldForP1 (sizeOfInt p1_x) (sizeOfInt p1_y))).map
      RunOutcome.finished

/-! ## Boards reachable by the board operations -/

/-- Boards obtained from the freshly constructed board by any sequence of
`setFieldForP1` and `setFieldForP2` on empty cells of the array, `clearField`
on occupied cells of the array, and calls of `getBestMove` and `minimax`
that return. -/
inductive OpsReachable {N : Nat} : Board N → Prop
  | fresh : OpsReachable (Board.empty N)
  | setP1 (b : Board N) (x y : Nat) :
      OpsReachable b → x < N → y < N → b.isFieldEmpty x y = true →
      OpsReachable (b.setFieldForP1 x y)
  | setP2 (b : Board N) (x y : Nat) :
      OpsReachable b → x < N → y < N → b.isFieldEmpty x y = true →
      OpsReachable (b.setFieldForP2 x y)
  | clear (b : Board N) (x y : Nat) :
      OpsReachable b → x < N → y < N → b.isFieldEmpty x y = false →
      OpsReachable (b.clearField x y)
  | bestMove (b b' : Board N) (fuel : Nat) (p : Bool) (r : Int × Int) :
      OpsReachable b → getBestMove fuel p b = some (r, b') → OpsReachable b'
  | search (b b' : Board N) (fuel : Nat) (depth : Int) (p : Bool) (s : Int) :
      OpsReachable b → minimax fuel depth p b = some (s, b') → OpsReachable b'

/-! ## The copy-based reference score -/

/-- The empty cells of the array, in scan order. -/
def emptyCells {N : Nat} (b : Board N) : List (Nat × Nat) :=
  (scanOrder N).filter fun c => b.isFieldEmpty c.1 c.2

/-- Minimum of a list of integers (0 for the empty list). -/
def listMin : List Int → Int
  | [] => 0
  | a :: as => as.foldl min a

/-- Maximum of a list of integers (0 for the empty list). -/
def listMax : List Int → Int
  | [] => 0
  | a :: as => as.foldl max a

/-- The reference score on immutable boards, in exact integer arithmetic,
with `fuel` levels of recursion: `N * N - depth` (player one to move) or
`-(N * N - depth)` (player two to move) if the board has a completed line,
0 if it is full, otherwise the minimum (player one) or maximum (player two)
over the empty cells `c` of the score of the board with the mover's mark at
`c`, at `depth + 1`, for the other player. -/
def specValueAux {N : Nat} : Nat → Board N → Int → Bool → Int
  | 0, _, _, _ => 0
  | fuel + 1, b, depth, p =>
    if b.isGameEnd then
      if p then ((N * N : Nat) : Int) - depth else -(((N * N : Nat) : Int) - depth)
    else if b.isFull then 0
    else if p then
      listMin ((emptyCells b).map fun c => specValueAux fuel (place p b c.1 c.2) (depth + 1) (!p))
    else
      listMax ((emptyCells b).map fun c => specValueAux fuel (place p b c.1 c.2) (depth + 1) (!p))

/-- The reference score `value(b, depth, p)`: one level of recursion per
empty cell suffices, since every recursive call is on a board with one empty
cell fewer. -/
def specValue {N : Nat} (b : Board N) (depth : Int) (p : Bool) : Int :=
  specValueAux (emptyCount b + 1) b depth p

/-! ## Mark counts -/

/-- Number of cells of the array that hold P1. -/
def p1Count {N : Nat} (b : Board N) : Nat :=
  (scanOrder N).countP fun c => b.board_ c.1 c.2 == Board.P1

/-- Number of cells of the array that hold P2. -/
def p2Count {N : Nat} (b : Board N) : Nat :=
  (scanOrder N).countP fun c => b.board_ c.1 c.2 == Board.P2

/-- A board of side `N = 2^30 - 1 = 1073741823`, for which
`N * N = 2^60 - 2^31 + 1` and `N * N - 1` narrowed to `int` is `INT_MIN`.
The cells `(0, 0)` and `(1, 0)` are empty; `board_[0][1..]` and
`board_[1][1..]` hold P1; `board_[2]` and `board_[3]` hold P1 at index 0 and
P2 elsewhere; from `board_[4]` on a checkerboard, P2 on the cells with
`x + y` even.  The counter is the number of marks, `N * N - 2`; P1 has one
mark more than P2, so player two is to move. -/
def hugeB : Board 1073741823 :=
  ⟨fun x y =>
    if x < 1073741823 ∧ y < 1073741823 then
      if x ≤ 1 then (if y = 0 then ' ' else 'X')
      else if x ≤ 3 then (if y = 0 then 'X' else 'O')
      else if (x + y) % 2 = 0 then 'O' else 'X'
    else ' ', 1152921502459363327⟩

/-! ## Basic facts about the board operations -/

theorem mem_scanOrder {N : Nat} (c : Nat × Nat) :
    c ∈ scanOrder N ↔ c.1 < N ∧ c.2 < N := by
  obtain ⟨x, y⟩ := c
  simp [scanOrder, List.mem_range]

theorem scanOrder_nodup (N : Nat) : (scanOrder N).Nodup :=
  List.Nodup.product (List.nodup_range N) (List.nodup_range N)

theorem scanOrder_length (N : Nat) : (scanOrder N).length = N * N := by
  unfold scanOrder
  have h := List.length_product (List.range N) (List.range N)
  rw [List.length_range] at h
  exact h

theorem board_eq {N : Nat} {a b : Board N} (h1 : a.board_ = b.board_)
    (h2 : a.checkedFieldsCount_ = b.checkedFieldsCount_) : a = b := by
  cases a; cases b; simp_all

theorem isFieldEmpty_of_eq_EMPTY {N : Nat} (b : Board N) (x y : Nat)
    (h : b.board_ x y = Board.EMPTY) : b.isFieldEmpty x y = true := by
  simp [Board.isFieldEmpty, Board.getField, h, Board.EMPTY, Board.P1, Board.P2]

theorem eq_EMPTY_of_isFieldEmpty {N : Nat} (b : Board N) (hv : CellsValid b) (x y : Nat)
    (hx : x < N) (hy : y < N) (h : b.isFieldEmpty x y = true) :
    b.board_ x y = Board.EMPTY := by
  rcases hv x y hx hy with h1 | h1 | h1
  · simp [Board.isFieldEmpty, Board.getField, h1] at h
  · simp [Board.isFieldEmpty, Board.getField, h1] at h
  · exact h1

theorem place_board {N : Nat} (p : Bool) (b : Board N) (x y i j : Nat) :
    (place p b x y).board_ i j =
      if i = x ∧ j = y then (if p then Board.P1 else Board.P2) else b.board_ i j := by
  cases p <;> simp [place, Board.setFieldForP1, Board.setFieldForP2, Board.setField]

theorem place_count {N : Nat} (p : Bool) (b : Board N) (x y : Nat) :
    (place p b x y).checkedFieldsCount_ = (b.checkedFieldsCount_ + 1) % SIZE_MOD := by
  cases p <;> simp [place, Board.setFieldForP1, Board.setFieldForP2, Board.setField]

theorem place_isFieldEmpty {N : Nat} (p : Bool) (b : Board N) (x y i j : Nat) :
    (place p b x y).isFieldEmpty i j =
      if i = x ∧ j = y then false else b.isFieldEmpty i j := by
  unfold Board.isFieldEmpty Board.getField
  rw [place_board]
  by_cases h : i = x ∧ j = y
  · cases p <;> simp [h, Board.P1, Board.P2]
  · simp [h]

theorem place_cellsValid {N : Nat} (p : Bool) (b : Board N) (x y : Nat)
    (hv : CellsValid b) : CellsValid (place p b x y) := by
  intro i j hi hj
  rw [place_board]
  by_cases h : i = x ∧ j = y
  · cases p <;> simp [h]
  · simpa [h] using hv i j hi hj

/-- Undoing a placement on a cell that held `EMPTY` gives back the board. -/
theorem clearField_place {N : Nat} (p : Bool) (b : Board N) (x y : Nat)
    (he : b.board_ x y = Board.EMPTY) (hc : b.checkedFieldsCount_ < SIZE_MOD) :
    (place p b x y).clearField x y = b := by
  apply board_eq
  · funext i j
    simp only [Board.clearField, Board.setField, place_board]
    by_cases h : i = x ∧ j = y
    · simp [h, he]
    · simp [h]
  · simp only [Board.clearField, Board.setField, place_count]
    unfold SIZE_MOD at *
    omega

theorem countP_flip {α : Type} (l : List α) (hnd : l.Nodup) (a : α) (ha : a ∈ l)
    (p q : α → Bool) (hp : p a = true) (hq : q a = false)
    (h : ∀ x, x ≠ a → q x = p x) : l.countP q + 1 = l.countP p := by
  induction l with
  | nil => simp at ha
  | cons x xs ih =>
    rw [List.nodup_cons] at hnd
    by_cases hxa : x = a
    · subst hxa
      have hsame : xs.countP q = xs.countP p := by
        apply List.countP_congr
        intro z hz
        have : z ≠ x := fun e => hnd.1 (e ▸ hz)
        rw [h z this]
      simp [List.countP_cons, hp, hq, hsame]
    · have ha2 : a ∈ xs := by
        rcases List.mem_cons.1 ha with e | e
        · exact absurd e.symm hxa
        · exact e
      have := ih hnd.2 ha2
      simp only [List.countP_cons, h x hxa]
      omega

theorem emptyCount_place {N : Nat} (p : Bool) (b : Board N) (x y : Nat)
    (hx : x < N) (hy : y < N) (he : b.isFieldEmpty x y = true) :
    emptyCount (place p b x y) + 1 = emptyCount b := by
  unfold emptyCount
  apply countP_flip (scanOrder N) (scanOrder_nodup N) (x, y)
  · exact (mem_scanOrder (x, y)).2 ⟨hx, hy⟩
  · exact he
  · simp [place_isFieldEmpty]
  · intro c hc
    rw [place_isFieldEmpty]
    have : ¬ (c.1 = x ∧ c.2 = y) := fun e => hc (Prod.ext e.1 e.2)
    simp [this]

theorem occupiedCount_place {N : Nat} (p : Bool) (b : Board N) (x y : Nat)
    (hx : x < N) (hy : y < N) (he : b.isFieldEmpty x y = true) :
    occupiedCount (place p b x y) = occupiedCount b + 1 := by
  unfold occupiedCount
  symm
  apply countP_flip (scanOrder N) (scanOrder_nodup N) (x, y)
  · exact (mem_scanOrder (x, y)).2 ⟨hx, hy⟩
  · simp [place_isFieldEmpty]
  · simp [he]
  · intro c hc
    rw [place_isFieldEmpty]
    have : ¬ (c.1 = x ∧ c.2 = y) := fun e => hc (Prod.ext e.1 e.2)
    simp [this]

theorem emptyCount_add_occupiedCount {N : Nat} (b : Board N) :
    emptyCount b + occupiedCount b = N * N := by
  unfold emptyCount occupiedCount
  rw [← scanOrder_length N]
  have := List.length_eq_countP_add_countP (fun c : Nat × Nat => b.isFieldEmpty c.1 c.2)
    (scanOrder N)
  simp only [Bool.not_eq_true] at this
  rw [this]
  congr 1
  apply List.countP_congr
  intro c _
  simp

/-! ## The in-place search computes the pure score and restores the board -/

theorem place_true {N : Nat} (b : Board N) (x y : Nat) :
    b.setFieldForP1 x y = place true b x y := rfl

theorem place_false {N : Nat} (b : Board N) (x y : Nat) :
    b.setFieldForP2 x y = place false b x y := rfl

/-- The scan of `minimax` over a list of in-range cells, given that each
recursive call returns the pure score and its argument board. -/
theorem minimax_loop {N : Nat} (fuel : Nat) (d : Int) (p q : Bool)
    (comb : Int → Int → Int) (b : Board N)
    (hv : CellsValid b) (hc : b.checkedFieldsCount_ < SIZE_MOD)
    (ih : ∀ x y, x < N → y < N → b.isFieldEmpty x y = true →
      minimax fuel d p (place q b x y) = some (value fuel d p (place q b x y), place q b x y))
    (l : List (Nat × Nat)) (hl : ∀ c ∈ l, c.1 < N ∧ c.2 < N) (best : Int) :
    l.foldlM
        (fun (st : Int × Board N) (c : Nat × Nat) =>
          if st.2.isFieldEmpty c.1 c.2 then
            (minimax fuel d p (place q st.2 c.1 c.2)).bind
              fun r => some (comb st.1 r.1, r.2.clearField c.1 c.2)
          else some st)
        (best, b) =
      some (l.foldl
        (fun best c =>
          if b.isFieldEmpty c.1 c.2 then comb best (value fuel d p (place q b c.1 c.2))
          else best)
        best, b) := by
  induction l generalizing best with
  | nil => simp
  | cons c cs ihl =>
    have hc1 := hl c (List.mem_cons_self c cs)
    have hcs : ∀ c' ∈ cs, c'.1 < N ∧ c'.2 < N := fun c' h => hl c' (List.mem_cons_of_mem c h)
    simp only [List.foldlM_cons, List.foldl_cons]
    by_cases he : b.isFieldEmpty c.1 c.2 = true
    · have hE := eq_EMPTY_of_isFieldEmpty b hv c.1 c.2 hc1.1 hc1.2 he
      simp only [he, if_true, ih c.1 c.2 hc1.1 hc1.2 he, Option.bind_eq_bind, Option.some_bind,
        clearField_place q b c.1 c.2 hE hc]
      exact ihl hcs _
    · simp only [he, Bool.false_eq_true, if_false, Option.bind_eq_bind, Option.some_bind]
      exact ihl hcs _

/-- With fuel above the number of empty cells, `minimax` returns the pure
score and leaves the board as it found it. -/
theorem minimax_eq_value {N : Nat} (fuel : Nat) (d : Int) (p : Bool) (b : Board N)
    (hv : CellsValid b) (hc : b.checkedFieldsCount_ < SIZE_MOD)
    (hf : emptyCount b < fuel) :
    minimax fuel d p b = some (value fuel d p b, b) := by
  induction fuel generalizing d p b with
  | zero => omega
  | succ fuel ih =>
    unfold minimax value
    by_cases hg : b.isGameEnd = true
    · cases p <;> simp [hg]
    · by_cases hfull : b.isFull = true
      · simp [hg, hfull]
      · have hrec : ∀ (q : Bool) (d' : Int) (p' : Bool) x y, x < N → y < N →
            b.isFieldEmpty x y = true →
            minimax fuel d' p' (place q b x y) =
              some (value fuel d' p' (place q b x y), place q b x y) := by
          intro q d' p' x y hx hy he
          apply ih
          · exact place_cellsValid q b x y hv
          · rw [place_count]; exact Nat.mod_lt _ (by unfold SIZE_MOD; omega)
          · have := emptyCount_place q b x y hx hy he
            omega
        have hin : ∀ c ∈ scanOrder N, c.1 < N ∧ c.2 < N := fun c h => (mem_scanOrder c).1 h
        cases p
        · simp only [hg, hfull, Bool.false_eq_true, if_false, place_false]
          exact minimax_loop fuel (intAdd d 1) (!false) false max b hv hc
            (hrec false (intAdd d 1) (!false)) (scanOrder N) hin INT_MIN
        · simp only [hg, hfull, Bool.false_eq_true, if_false, if_true, place_true]
          exact minimax_loop fuel (intAdd d 1) (!true) true min b hv hc
            (hrec true (intAdd d 1) (!true)) (scanOrder N) hin INT_MAX

/-- The scan of `getBestMove` over a list of in-range cells. -/
theorem getBestMove_loop {N : Nat} (fuel : Nat) (p : Bool) (b : Board N)
    (hv : CellsValid b) (hc : b.checkedFieldsCount_ < SIZE_MOD)
    (hf : emptyCount b ≤ fuel)
    (l : List (Nat × Nat)) (hl : ∀ c ∈ l, c.1 < N ∧ c.2 < N) (st : Int × Int × Int) :
    l.foldlM
        (fun (st : BestState N) (c : Nat × Nat) =>
          if st.board.isFieldEmpty c.1 c.2 then
            (minimax fuel 0 (!p)
                (if p then st.board.setFieldForP1 c.1 c.2
                 else st.board.setFieldForP2 c.1 c.2)).bind
              fun r =>
                if r.1 > st.best_score then
                  some ⟨intOfSize c.1, intOfSize c.2, r.1, r.2.clearField c.1 c.2⟩
                else
                  some ⟨st.best_x, st.best_y, st.best_score, r.2.clearField c.1 c.2⟩
          else some st)
        (⟨st.1, st.2.1, st.2.2, b⟩ : BestState N) =
      some ⟨(l.foldl (bestStep fuel p b) st).1, (l.foldl (bestStep fuel p b) st).2.1,
        (l.foldl (bestStep fuel p b) st).2.2, b⟩ := by
  induction l generalizing st with
  | nil => simp
  | cons c cs ihl =>
    have hc1 := hl c (List.mem_cons_self c cs)
    have hcs : ∀ c' ∈ cs, c'.1 < N ∧ c'.2 < N := fun c' h => hl c' (List.mem_cons_of_mem c h)
    simp only [List.foldlM_cons, List.foldl_cons]
    by_cases he : b.isFieldEmpty c.1 c.2 = true
    · have hE := eq_EMPTY_of_isFieldEmpty b hv c.1 c.2 hc1.1 hc1.2 he
      have hm : minimax fuel 0 (!p) (place p b c.1 c.2) =
          some (value fuel 0 (!p) (place p b c.1 c.2), place p b c.1 c.2) := by
        apply minimax_eq_value
        · exact place_cellsValid p b c.1 c.2 hv
        · rw [place_count]; exact Nat.mod_lt _ (by unfold SIZE_MOD; omega)
        · have := emptyCount_place p b c.1 c.2 hc1.1 hc1.2 he
          omega
      have hm2 : minimax fuel 0 (!p)
          (if p then b.setFieldForP1 c.1 c.2 else b.setFieldForP2 c.1 c.2) =
          some (moveScore fuel p b c.1 c.2, place p b c.1 c.2) := hm
      simp only [he, if_true, hm2, Option.bind_eq_bind, Option.some_bind,
        clearField_place p b c.1 c.2 hE hc]
      by_cases hgt : moveScore fuel p b c.1 c.2 > st.2.2
      · have := ihl hcs (intOfSize c.1, intOfSize c.2, moveScore fuel p b c.1 c.2)
        simp only [hgt, if_true, bestStep, he]
        exact this
      · have := ihl hcs st
        simp only [hgt, if_false, bestStep, he, if_true]
        exact this
    · have := ihl hcs st
      simp only [he, Bool.false_eq_true, if_false, Option.bind_eq_bind, Option.some_bind,
        bestStep]
      exact this

/-- With fuel at least the number of empty cells, `getBestMove` returns the
pure choice and leaves the board as it found it. -/
theorem getBestMove_eq_bestMove {N : Nat} (fuel : Nat) (p : Bool) (b : Board N)
    (hv : CellsValid b) (hc : b.checkedFieldsCount_ < SIZE_MOD)
    (hf : emptyCount b ≤ fuel) :
    getBestMove fuel p b = some (bestMove fuel p b, b) := by
  unfold getBestMove bestMove
  have h := getBestMove_loop fuel p b hv hc hf (scanOrder N)
    (fun c h => (mem_scanOrder c).1 h) (-1, -1, INT_MIN)
  simp only [] at h
  rw [h]
  rfl

/-! ## Win detection -/

theorem isFieldEmpty_eq_false_iff {N : Nat} (b : Board N) (x y : Nat) :
    b.isFieldEmpty x y = false ↔ (b.board_ x y = Board.P1 ∨ b.board_ x y = Board.P2) := by
  unfold Board.isFieldEmpty Board.getField
  by_cases h1 : b.board_ x y = Board.P1 <;> by_cases h2 : b.board_ x y = Board.P2 <;>
    simp [h1, h2]

theorem isWinInColumn_iff {N : Nat} (b : Board N) :
    b.isWinInColumn = true ↔
      ∃ i, i < N ∧ ∃ m, (m = Board.P1 ∨ m = Board.P2) ∧ ∀ j, j < N → b.board_ i j = m := by
  unfold Board.isWinInColumn
  simp only [List.any_eq_true, List.mem_range, Bool.and_eq_true, Bool.not_eq_true',
    List.all_eq_true, List.mem_range'_1, beq_iff_eq, isFieldEmpty_eq_false_iff]
  constructor
  · rintro ⟨i, hi, hm, hall⟩
    refine ⟨i, hi, b.board_ i 0, hm, ?_⟩
    intro j hj
    by_cases h0 : j = 0
    · rw [h0]
    · exact hall j ⟨by omega, by omega⟩
  · rintro ⟨i, hi, m, hm, hall⟩
    have h0 : b.board_ i 0 = m := hall 0 (by omega)
    refine ⟨i, hi, by rw [h0]; exact hm, ?_⟩
    intro j hj
    rw [h0]
    exact hall j (by omega)

theorem isWinInRow_iff {N : Nat} (b : Board N) :
    b.isWinInRow = true ↔
      ∃ i, i < N ∧ ∃ m, (m = Board.P1 ∨ m = Board.P2) ∧ ∀ j, j < N → b.board_ j i = m := by
  unfold Board.isWinInRow
  simp only [List.any_eq_true, List.mem_range, Bool.and_eq_true, Bool.not_eq_true',
    List.all_eq_true, List.mem_range'_1, beq_iff_eq, isFieldEmpty_eq_false_iff]
  constructor
  · rintro ⟨i, hi, hm, hall⟩
    refine ⟨i, hi, b.board_ 0 i, hm, ?_⟩
    intro j hj
    by_cases h0 : j = 0
    · rw [h0]
    · exact hall j ⟨by omega, by omega⟩
  · rintro ⟨i, hi, m, hm, hall⟩
    have h0 : b.board_ 0 i = m := hall 0 (by omega)
    refine ⟨i, hi, by rw [h0]; exact hm, ?_⟩
    intro j hj
    rw [h0]
    exact hall j (by omega)

theorem isWinInDiagonal_iff {N : Nat} (hN : 1 ≤ N) (b : Board N) :
    b.isWinInDiagonal = true ↔
      (∃ m, (m = Board.P1 ∨ m = Board.P2) ∧ ∀ i, i < N → b.board_ i i = m) ∨
      (∃ m, (m = Board.P1 ∨ m = Board.P2) ∧ ∀ i, i < N → b.board_ i (N - 1 - i) = m) := by
  unfold Board.isWinInDiagonal
  simp only [Bool.or_eq_true, Bool.and_eq_true, Bool.not_eq_true', List.all_eq_true,
    List.mem_range, beq_iff_eq, isFieldEmpty_eq_false_iff]
  constructor
  · rintro (⟨hm, hall⟩ | ⟨hm, hall⟩)
    · exact Or.inl ⟨_, hm, hall⟩
    · exact Or.inr ⟨_, hm, hall⟩
  · rintro (⟨m, hm, hall⟩ | ⟨m, hm, hall⟩)
    · have h0 : b.board_ 0 0 = m := hall 0 (by omega)
      left
      refine ⟨by rw [h0]; exact hm, ?_⟩
      intro i hi
      rw [h0]
      exact hall i hi
    · have h0 : b.board_ 0 (N - 1) = m := by
        have := hall 0 (by omega)
        simpa using this
      right
      refine ⟨by rw [h0]; exact hm, ?_⟩
      intro i hi
      rw [h0]
      exact hall i hi

theorem hasCompletedLine_iff {N : Nat} (b : Board N) :
    HasCompletedLine b ↔
      (∃ i, i < N ∧ ∃ m, (m = Board.P1 ∨ m = Board.P2) ∧ ∀ j, j < N → b.board_ i j = m) ∨
      (∃ i, i < N ∧ ∃ m, (m = Board.P1 ∨ m = Board.P2) ∧ ∀ j, j < N → b.board_ j i = m) ∨
      (∃ m, (m = Board.P1 ∨ m = Board.P2) ∧ ∀ i, i < N → b.board_ i i = m) ∨
      (∃ m, (m = Board.P1 ∨ m = Board.P2) ∧ ∀ i, i < N → b.board_ i (N - 1 - i) = m) := by
  unfold HasCompletedLine lines
  constructor
  · rintro ⟨line, hline, m, hm, hall⟩
    simp only [List.mem_append, List.mem_map, List.mem_range, List.mem_cons,
      List.mem_singleton, List.not_mem_nil, or_false] at hline
    rcases hline with (⟨i, hi, rfl⟩ | ⟨i, hi, rfl⟩) | rfl | rfl
    · exact Or.inl ⟨i, hi, m, hm, fun j hj =>
        hall (i, j) (List.mem_map.2 ⟨j, List.mem_range.2 hj, rfl⟩)⟩
    · exact Or.inr (Or.inl ⟨i, hi, m, hm, fun j hj =>
        hall (j, i) (List.mem_map.2 ⟨j, List.mem_range.2 hj, rfl⟩)⟩)
    · exact Or.inr (Or.inr (Or.inl ⟨m, hm, fun i hi =>
        hall (i, i) (List.mem_map.2 ⟨i, List.mem_range.2 hi, rfl⟩)⟩))
    · exact Or.inr (Or.inr (Or.inr ⟨m, hm, fun i hi =>
        hall (i, N - 1 - i) (List.mem_map.2 ⟨i, List.mem_range.2 hi, rfl⟩)⟩))
  · rintro (⟨i, hi, m, hm, hall⟩ | ⟨i, hi, m, hm, hall⟩ | ⟨m, hm, hall⟩ | ⟨m, hm, hall⟩)
    · refine ⟨(List.range N).map fun j => (i, j), ?_, m, hm, ?_⟩
      · simp only [List.mem_append, List.mem_map, List.mem_range]
        exact Or.inl (Or.inl ⟨i, hi, rfl⟩)
      · intro c hc
        obtain ⟨j, hj, rfl⟩ := List.mem_map.1 hc
        exact hall j (List.mem_range.1 hj)
    · refine ⟨(List.range N).map fun j => (j, i), ?_, m, hm, ?_⟩
      · simp only [List.mem_append, List.mem_map, List.mem_range]
        exact Or.inl (Or.inr ⟨i, hi, rfl⟩)
      · intro c hc
        obtain ⟨j, hj, rfl⟩ := List.mem_map.1 hc
        exact hall j (List.mem_range.1 hj)
    · refine ⟨(List.range N).map fun i => (i, i), ?_, m, hm, ?_⟩
      · simp
      · intro c hc
        obtain ⟨j, hj, rfl⟩ := List.mem_map.1 hc
        exact hall j (List.mem_range.1 hj)
    · refine ⟨(List.range N).map fun i => (i, N - 1 - i), ?_, m, hm, ?_⟩
      · simp
      · intro c hc
        obtain ⟨j, hj, rfl⟩ := List.mem_map.1 hc
        exact hall j (List.mem_range.1 hj)

/-- C6. Whole-line win detection: for every `N ≥ 1` and every board,
`isGameEnd()` is true exactly when one of the `2N + 2` lines (the `N` lines
`board_[i][0..N-1]`, the `N` lines `board_[0..N-1][i]`, the main diagonal
and the anti-diagonal) holds the same player's mark in all of its `N`
cells; a line with an empty cell or with two different marks is never a win. -/
theorem isGameEnd_iff_hasCompletedLine {N : Nat} (hN : 1 ≤ N) (b : Board N) :
    b.isGameEnd = true ↔ HasCompletedLine b := by
  rw [hasCompletedLine_iff]
  unfold Board.isGameEnd
  simp only [Bool.or_eq_true, isWinInColumn_iff, isWinInRow_iff, isWinInDiagonal_iff hN]
  exact or_assoc

/-! ## Machine arithmetic in the range of the search -/

theorem intOfSize_of_lt (n : Nat) (h : n < 2147483648) : intOfSize n = (n : Int) := by
  unfold intOfSize
  have h1 : n % 4294967296 = n := Nat.mod_eq_of_lt (by omega)
  rw [h1, if_pos h]

theorem intAdd_one (d : Int) (h0 : 0 ≤ d) (h1 : d < 2147483647) : intAdd d 1 = d + 1 := by
  unfold intAdd
  omega

/-- Score of a won position with player one to move, in exact arithmetic. -/
theorem score_p1_turn (M : Nat) (d : Int) (hM : M < 2147483648) (h0 : 0 ≤ d)
    (h1 : d ≤ (M : Int)) :
    intOfSize (sizeSub (M % SIZE_MOD) (sizeOfInt d)) = (M : Int) - d := by
  unfold intOfSize sizeSub sizeOfInt SIZE_MOD
  split <;> omega

/-- Score of a won position with player two to move, in exact arithmetic. -/
theorem score_p2_turn (M : Nat) (d : Int) (hM : M < 2147483648) (h0 : 0 ≤ d)
    (h1 : d ≤ (M : Int)) :
    intOfSize (sizeNeg (sizeSub (M % SIZE_MOD) (sizeOfInt d))) = -((M : Int) - d) := by
  unfold intOfSize sizeNeg sizeSub sizeOfInt SIZE_MOD
  split <;> omega

/-! ## Folds of the scan -/

theorem foldl_min_spec {α : Type} (l : List α) (e : α → Bool) (v : α → Int) (best : Int) :
    l.foldl (fun best c => if e c then min best (v c) else best) best ≤ best ∧
    (∀ c ∈ l, e c = true →
      l.foldl (fun best c => if e c then min best (v c) else best) best ≤ v c) ∧
    (l.foldl (fun best c => if e c then min best (v c) else best) best = best ∨
      ∃ c ∈ l, e c = true ∧
        l.foldl (fun best c => if e c then min best (v c) else best) best = v c) := by
  induction l generalizing best with
  | nil => simp
  | cons a as ih =>
    simp only [List.foldl_cons]
    obtain ⟨h1, h2, h3⟩ := ih (if e a then min best (v a) else best)
    by_cases hea : e a = true
    · simp only [hea, if_true] at h1 h2 h3 ⊢
      refine ⟨le_trans h1 (min_le_left _ _), ?_, ?_⟩
      · intro c hc hec
        rcases List.mem_cons.1 hc with rfl | hc
        · exact le_trans h1 (min_le_right _ _)
        · exact h2 c hc hec
      · rcases h3 with h3 | ⟨c, hc, hec, h3⟩
        · rcases min_choice best (v a) with hm | hm
          · left; rw [h3, hm]
          · right; exact ⟨a, List.mem_cons_self a as, hea, by rw [h3, hm]⟩
        · right; exact ⟨c, List.mem_cons_of_mem a hc, hec, h3⟩
    · simp only [hea, Bool.false_eq_true, if_false] at h1 h2 h3 ⊢
      refine ⟨h1, ?_, ?_⟩
      · intro c hc hec
        rcases List.mem_cons.1 hc with rfl | hc
        · exact absurd hec hea
        · exact h2 c hc hec
      · rcases h3 with h3 | ⟨c, hc, hec, h3⟩
        · left; exact h3
        · right; exact ⟨c, List.mem_cons_of_mem a hc, hec, h3⟩

theorem foldl_max_spec {α : Type} (l : List α) (e : α → Bool) (v : α → Int) (best : Int) :
    best ≤ l.foldl (fun best c => if e c then max best (v c) else best) best ∧
    (∀ c ∈ l, e c = true →
      v c ≤ l.foldl (fun best c => if e c then max best (v c) else best) best) ∧
    (l.foldl (fun best c => if e c then max best (v c) else best) best = best ∨
      ∃ c ∈ l, e c = true ∧
        l.foldl (fun best c => if e c then max best (v c) else best) best = v c) := by
  induction l generalizing best with
  | nil => simp
  | cons a as ih =>
    simp only [List.foldl_cons]
    obtain ⟨h1, h2, h3⟩ := ih (if e a then max best (v a) else best)
    by_cases hea : e a = true
    · simp only [hea, if_true] at h1 h2 h3 ⊢
      refine ⟨le_trans (le_max_left _ _) h1, ?_, ?_⟩
      · intro c hc hec
        rcases List.mem_cons.1 hc with rfl | hc
        · exact le_trans (le_max_right _ _) h1
        · exact h2 c hc hec
      · rcases h3 with h3 | ⟨c, hc, hec, h3⟩
        · rcases max_choice best (v a) with hm | hm
          · left; rw [h3, hm]
          · right; exact ⟨a, List.mem_cons_self a as, hea, by rw [h3, hm]⟩
        · right; exact ⟨c, List.mem_cons_of_mem a hc, hec, h3⟩
    · simp only [hea, Bool.false_eq_true, if_false] at h1 h2 h3 ⊢
      refine ⟨h1, ?_, ?_⟩
      · intro c hc hec
        rcases List.mem_cons.1 hc with rfl | hc
        · exact absurd hec hea
        · exact h2 c hc hec
      · rcases h3 with h3 | ⟨c, hc, hec, h3⟩
        · left; exact h3
        · right; exact ⟨c, List.mem_cons_of_mem a hc, hec, h3⟩

theorem foldl_congr_mem {α β : Type} (l : List α) (f g : β → α → β) (init : β)
    (h : ∀ s, ∀ c ∈ l, f s c = g s c) : l.foldl f init = l.foldl g init := by
  induction l generalizing init with
  | nil => rfl
  | cons a as ih =>
    simp only [List.foldl_cons]
    rw [h init a (List.mem_cons_self a as)]
    exact ih _ (fun s c hc => h s c (List.mem_cons_of_mem a hc))

/-! ## The pure score -/

theorem value_succ {N : Nat} (fuel : Nat) (depth : Int) (is_p1_turn : Bool) (b : Board N) :
    value (fuel + 1) depth is_p1_turn b =
      if b.isGameEnd then
        if is_p1_turn then intOfSize (sizeSub b.getMaxDepth (sizeOfInt depth))
        else intOfSize (sizeNeg (sizeSub b.getMaxDepth (sizeOfInt depth)))
      else if b.isFull then 0
      else if is_p1_turn then
        (scanOrder N).foldl
          (fun best c =>
            if b.isFieldEmpty c.1 c.2 then
              min best (value fuel (intAdd depth 1) (!is_p1_turn) (b.setFieldForP1 c.1 c.2))
            else best)
          INT_MAX
      else
        (scanOrder N).foldl
          (fun best c =>
            if b.isFieldEmpty c.1 c.2 then
              max best (value fuel (intAdd depth 1) (!is_p1_turn) (b.setFieldForP2 c.1 c.2))
            else best)
          INT_MIN := by
  rw [value]

/-- Score of a position that is neither won nor full, player one to move. -/
theorem value_p1_node {N : Nat} (fuel : Nat) (d : Int) (b : Board N)
    (hg : b.isGameEnd = false) (hfull : b.isFull = false) :
    value (fuel + 1) d true b =
      (scanOrder N).foldl
        (fun best c =>
          if b.isFieldEmpty c.1 c.2 then
            min best (value fuel (intAdd d 1) false (place true b c.1 c.2))
          else best)
        INT_MAX := by
  rw [value_succ]
  simp only [hg, hfull, Bool.false_eq_true, if_false, if_true, Bool.not_true, place_true]

/-- Score of a position that is neither won nor full, player two to move. -/
theorem value_p2_node {N : Nat} (fuel : Nat) (d : Int) (b : Board N)
    (hg : b.isGameEnd = false) (hfull : b.isFull = false) :
    value (fuel + 1) d false b =
      (scanOrder N).foldl
        (fun best c =>
          if b.isFieldEmpty c.1 c.2 then
            max best (value fuel (intAdd d 1) true (place false b c.1 c.2))
          else best)
        INT_MIN := by
  rw [value_succ]
  simp only [hg, hfull, Bool.false_eq_true, if_false, Bool.not_false, place_false]

/-- The score does not depend on the fuel once the fuel exceeds the number
of empty cells. -/
theorem value_fuel_indep {N : Nat} (fuel fuel' : Nat) (d : Int) (p : Bool) (b : Board N)
    (h : emptyCount b < fuel) (h' : emptyCount b < fuel') :
    value fuel d p b = value fuel' d p b := by
  induction fuel generalizing fuel' d p b with
  | zero => omega
  | succ fuel ih =>
    cases fuel' with
    | zero => omega
    | succ fuel' =>
      have hch : ∀ (q : Bool) (d' : Int) (p' : Bool), ∀ c ∈ scanOrder N,
          b.isFieldEmpty c.1 c.2 = true →
          value fuel d' p' (place q b c.1 c.2) = value fuel' d' p' (place q b c.1 c.2) := by
        intro q d' p' c hc he
        have hin := (mem_scanOrder c).1 hc
        have := emptyCount_place q b c.1 c.2 hin.1 hin.2 he
        apply ih <;> omega
      by_cases hg : b.isGameEnd = true
      · rw [value_succ, value_succ]; simp [hg]
      · by_cases hfull : b.isFull = true
        · rw [value_succ, value_succ]; simp [hg, hfull]
        · simp only [Bool.not_eq_true] at hg hfull
          cases p
          · rw [value_p2_node fuel d b hg hfull, value_p2_node fuel' d b hg hfull]
            apply foldl_congr_mem
            intro s c hc
            by_cases he : b.isFieldEmpty c.1 c.2 = true
            · simp only [he, if_true, hch false _ _ c hc he]
            · simp only [he, Bool.false_eq_true, if_false]
          · rw [value_p1_node fuel d b hg hfull, value_p1_node fuel' d b hg hfull]
            apply foldl_congr_mem
            intro s c hc
            by_cases he : b.isFieldEmpty c.1 c.2 = true
            · simp only [he, if_true, hch true _ _ c hc he]
            · simp only [he, Bool.false_eq_true, if_false]

theorem place_consistent {N : Nat} (q : Bool) (b : Board N) (x y : Nat)
    (hx : x < N) (hy : y < N) (he : b.isFieldEmpty x y = true)
    (hcons : Consistent b) (hlt : N * N < SIZE_MOD) : Consistent (place q b x y) := by
  unfold Consistent at *
  have h1 := emptyCount_add_occupiedCount b
  have h2 := emptyCount_place q b x y hx hy he
  rw [place_count, occupiedCount_place q b x y hx hy he, hcons]
  apply Nat.mod_eq_of_lt
  omega

theorem getMaxDepth_eq {N : Nat} (b : Board N) (hlt : N * N < SIZE_MOD) :
    b.getMaxDepth = N * N := by
  unfold Board.getMaxDepth
  exact Nat.mod_eq_of_lt hlt

/-- On a consistent board that is not full some cell is empty. -/
theorem exists_empty_of_not_full {N : Nat} (b : Board N) (hcons : Consistent b)
    (hlt : N * N < SIZE_MOD) (hfull : b.isFull = false) :
    ∃ c ∈ scanOrder N, b.isFieldEmpty c.1 c.2 = true := by
  have h1 := emptyCount_add_occupiedCount b
  unfold Board.isFull at hfull
  rw [getMaxDepth_eq b hlt, hcons] at hfull
  simp only [decide_eq_false_iff_not, not_le] at hfull
  have hpos : 0 < emptyCount b := by omega
  unfold emptyCount at hpos
  obtain ⟨c, hc, he⟩ := List.countP_pos_iff.1 hpos
  exact ⟨c, hc, he⟩

/-- A position that is not won scores between `lo` and `hi` when the draw
score and every child lie between them. -/
theorem value_between_of_children {N : Nat} (fuel : Nat) (d : Int) (p : Bool) (b : Board N)
    (lo hi : Int) (hg : b.isGameEnd = false)
    (hlo : lo ≤ 0) (hhi : 0 ≤ hi) (hlo' : INT_MIN < lo) (hhi' : hi < INT_MAX)
    (hex : b.isFull = false → ∃ c ∈ scanOrder N, b.isFieldEmpty c.1 c.2 = true)
    (hch : ∀ c ∈ scanOrder N, b.isFieldEmpty c.1 c.2 = true →
      lo ≤ value fuel (intAdd d 1) (!p) (place p b c.1 c.2) ∧
      value fuel (intAdd d 1) (!p) (place p b c.1 c.2) ≤ hi) :
    lo ≤ value (fuel + 1) d p b ∧ value (fuel + 1) d p b ≤ hi := by
  by_cases hfull : b.isFull = true
  · rw [value_succ]; simp [hg, hfull, hlo, hhi]
  · simp only [Bool.not_eq_true] at hfull
    obtain ⟨c0, hc0, he0⟩ := hex hfull
    cases p
    · rw [value_p2_node fuel d b hg hfull]
      obtain ⟨_, h2, h3⟩ := foldl_max_spec (scanOrder N) (fun c => b.isFieldEmpty c.1 c.2)
        (fun c => value fuel (intAdd d 1) true (place false b c.1 c.2)) INT_MIN
      have hc0' := hch c0 hc0 he0
      have h20 := h2 c0 hc0 he0
      rcases h3 with h3 | ⟨c, hc, hec, h3⟩
      · rw [h3] at h20
        simp only [Bool.not_false] at hc0'
        omega
      · have := hch c hc hec
        simp only [Bool.not_false] at this
        rw [h3]; exact this
    · rw [value_p1_node fuel d b hg hfull]
      obtain ⟨_, h2, h3⟩ := foldl_min_spec (scanOrder N) (fun c => b.isFieldEmpty c.1 c.2)
        (fun c => value fuel (intAdd d 1) false (place true b c.1 c.2)) INT_MAX
      have hc0' := hch c0 hc0 he0
      have h20 := h2 c0 hc0 he0
      rcases h3 with h3 | ⟨c, hc, hec, h3⟩
      · rw [h3] at h20
        simp only [Bool.not_true] at hc0'
        omega
      · have := hch c hc hec
        simp only [Bool.not_true] at this
        rw [h3]; exact this

/-- Score range: on a consistent board, at depth `d` with
`d + emptyCount b ≤ N * N`, the score lies between `-(N * N - d)` and
`N * N - d`. -/
theorem value_range {N : Nat} (hN : N * N < 2147483648) (fuel : Nat) (d : Int) (p : Bool)
    (b : Board N) (hcons : Consistent b) (h0 : 0 ≤ d)
    (hd : d + (emptyCount b : Int) ≤ ((N * N : Nat) : Int)) (hf : emptyCount b < fuel) :
    -(((N * N : Nat) : Int) - d) ≤ value fuel d p b ∧
      value fuel d p b ≤ ((N * N : Nat) : Int) - d := by
  have hlt : N * N < SIZE_MOD := by unfold SIZE_MOD; omega
  induction fuel generalizing d p b with
  | zero => omega
  | succ fuel ih =>
    by_cases hg : b.isGameEnd = true
    · rw [value_succ, getMaxDepth_eq b hlt]
      have hdM : d ≤ ((N * N : Nat) : Int) := by omega
      have hM : N * N % SIZE_MOD = N * N := Nat.mod_eq_of_lt hlt
      have e1 := score_p1_turn (N * N) d hN h0 hdM
      have e2 := score_p2_turn (N * N) d hN h0 hdM
      rw [hM] at e1 e2
      cases p
      · simp only [hg, if_true, Bool.false_eq_true, if_false, e2]; omega
      · simp only [hg, if_true, e1]; omega
    · simp only [Bool.not_eq_true] at hg
      by_cases hfull : b.isFull = true
      · rw [value_succ]; simp only [hg, hfull, Bool.false_eq_true, if_false, if_true]; omega
      · simp only [Bool.not_eq_true] at hfull
        obtain ⟨c0, hc0, he0⟩ := exists_empty_of_not_full b hcons hlt hfull
        have hpos : 0 < emptyCount b := by
          unfold emptyCount
          exact List.countP_pos_iff.2 ⟨c0, hc0, he0⟩
        have hd1 : intAdd d 1 = d + 1 := intAdd_one d h0 (by omega)
        have hch : ∀ c ∈ scanOrder N, b.isFieldEmpty c.1 c.2 = true →
            -(((N * N : Nat) : Int) - (d + 1)) ≤
                value fuel (intAdd d 1) (!p) (place p b c.1 c.2) ∧
              value fuel (intAdd d 1) (!p) (place p b c.1 c.2) ≤
                ((N * N : Nat) : Int) - (d + 1) := by
          intro c hc he
          have hin := (mem_scanOrder c).1 hc
          have hE := emptyCount_place p b c.1 c.2 hin.1 hin.2 he
          rw [hd1]
          apply ih
          · exact place_consistent p b c.1 c.2 hin.1 hin.2 he hcons hlt
          · omega
          · omega
          · omega
        have := value_between_of_children fuel d p b
          (-(((N * N : Nat) : Int) - (d + 1))) (((N * N : Nat) : Int) - (d + 1)) hg
          (by omega) (by omega) (by unfold INT_MIN; omega) (by unfold INT_MAX; omega)
          (fun _ => ⟨c0, hc0, he0⟩) hch
        omega

/-! ## The choice made by `getBestMove` -/

theorem scanOrder_pairwise (N : Nat) : (scanOrder N).Pairwise scansBefore := by
  unfold scanOrder List.product
  rw [List.pairwise_flatMap]
  constructor
  · intro a _
    rw [List.pairwise_map]
    exact (List.pairwise_lt_range N).imp (fun h => Or.inr ⟨rfl, h⟩)
  · refine (List.pairwise_lt_range N).imp ?_
    intro a c hac x hx y hy
    obtain ⟨_, _, rfl⟩ := List.mem_map.1 hx
    obtain ⟨_, _, rfl⟩ := List.mem_map.1 hy
    exact Or.inl hac

theorem scansBefore_asymm (a c : Nat × Nat) (h : scansBefore a c) : ¬ scansBefore c a := by
  unfold scansBefore at *
  omega

/-- In a scan split as `l1 ++ c :: l2`, every cell visited before `c` is in `l1`. -/
theorem mem_prefix_of_scansBefore {N : Nat} (l1 l2 : List (Nat × Nat)) (c a : Nat × Nat)
    (h : scanOrder N = l1 ++ c :: l2) (ha : a ∈ scanOrder N) (hb : scansBefore a c) :
    a ∈ l1 := by
  have hp := scanOrder_pairwise N
  rw [h] at hp ha
  rw [List.pairwise_append] at hp
  obtain ⟨_, hp2, _⟩ := hp
  rw [List.pairwise_cons] at hp2
  rcases List.mem_append.1 ha with h1 | h1
  · exact h1
  · rcases List.mem_cons.1 h1 with rfl | h2
    · exact absurd hb (scansBefore_asymm _ _ hb)
    · exact absurd hb (scansBefore_asymm _ _ (hp2.1 a h2))

/-- What the scan of `getBestMove` leaves in `(best_x, best_y, best_score)`:
either nothing was taken, or the first cell of the scan whose score is the
largest, taken over the empty cells. -/
theorem bestStep_fold_spec {N : Nat} (fuel : Nat) (p : Bool) (b : Board N)
    (l : List (Nat × Nat)) (st : Int × Int × Int) :
    (l.foldl (bestStep fuel p b) st = st ∧
      ∀ c ∈ l, b.isFieldEmpty c.1 c.2 = true → moveScore fuel p b c.1 c.2 ≤ st.2.2) ∨
    ∃ l1 c l2, l = l1 ++ c :: l2 ∧ b.isFieldEmpty c.1 c.2 = true ∧
      l.foldl (bestStep fuel p b) st =
        (intOfSize c.1, intOfSize c.2, moveScore fuel p b c.1 c.2) ∧
      st.2.2 < moveScore fuel p b c.1 c.2 ∧
      (∀ a ∈ l1, b.isFieldEmpty a.1 a.2 = true →
        moveScore fuel p b a.1 a.2 < moveScore fuel p b c.1 c.2) ∧
      (∀ a ∈ l2, b.isFieldEmpty a.1 a.2 = true →
        moveScore fuel p b a.1 a.2 ≤ moveScore fuel p b c.1 c.2) := by
  induction l generalizing st with
  | nil => left; simp
  | cons a as ih =>
    simp only [List.foldl_cons]
    by_cases hea : b.isFieldEmpty a.1 a.2 = true
    · by_cases hgt : moveScore fuel p b a.1 a.2 > st.2.2
      · have hstep : bestStep fuel p b st a =
            (intOfSize a.1, intOfSize a.2, moveScore fuel p b a.1 a.2) := by
          simp [bestStep, hea, hgt]
        rw [hstep]
        right
        rcases ih (intOfSize a.1, intOfSize a.2, moveScore fuel p b a.1 a.2) with
          ⟨h1, h2⟩ | ⟨l1, c, l2, h1, h2, h3, h4, h5, h6⟩
        · exact ⟨[], a, as, rfl, hea, h1, hgt, by simp, h2⟩
        · refine ⟨a :: l1, c, l2, by rw [h1]; rfl, h2, h3, lt_trans hgt h4, ?_, h6⟩
          intro a' ha' hea'
          rcases List.mem_cons.1 ha' with rfl | ha'
          · exact h4
          · exact h5 a' ha' hea'
      · have hstep : bestStep fuel p b st a = st := by simp [bestStep, hea, hgt]
        rw [hstep]
        rcases ih st with ⟨h1, h2⟩ | ⟨l1, c, l2, h1, h2, h3, h4, h5, h6⟩
        · left
          refine ⟨h1, ?_⟩
          intro c hc hec
          rcases List.mem_cons.1 hc with rfl | hc
          · exact not_lt.1 hgt
          · exact h2 c hc hec
        · right
          refine ⟨a :: l1, c, l2, by rw [h1]; rfl, h2, h3, h4, ?_, h6⟩
          intro a' ha' hea'
          rcases List.mem_cons.1 ha' with rfl | ha'
          · exact lt_of_le_of_lt (not_lt.1 hgt) h4
          · exact h5 a' ha' hea'
    · have hstep : bestStep fuel p b st a = st := by simp [bestStep, hea]
      rw [hstep]
      rcases ih st with ⟨h1, h2⟩ | ⟨l1, c, l2, h1, h2, h3, h4, h5, h6⟩
      · left
        refine ⟨h1, ?_⟩
        intro c hc hec
        rcases List.mem_cons.1 hc with rfl | hc
        · exact absurd hec hea
        · exact h2 c hc hec
      · right
        refine ⟨a :: l1, c, l2, by rw [h1]; rfl, h2, h3, h4, ?_, h6⟩
        intro a' ha' hea'
        rcases List.mem_cons.1 ha' with rfl | ha'
        · exact absurd hea' hea
        · exact h5 a' ha' hea'

/-- The pure choice, when some empty cell scores above `INT_MIN`: the first
cell of the scan order among the empty cells of maximal score. -/
theorem bestMove_spec {N : Nat} (fuel : Nat) (p : Bool) (b : Board N)
    (hex : ∃ c ∈ scanOrder N, b.isFieldEmpty c.1 c.2 = true ∧
      INT_MIN < moveScore fuel p b c.1 c.2) :
    ∃ c ∈ scanOrder N, b.isFieldEmpty c.1 c.2 = true ∧
      bestMove fuel p b = (intOfSize c.1, intOfSize c.2) ∧
      (∀ a ∈ scanOrder N, b.isFieldEmpty a.1 a.2 = true →
        moveScore fuel p b a.1 a.2 ≤ moveScore fuel p b c.1 c.2) ∧
      (∀ a ∈ scanOrder N, b.isFieldEmpty a.1 a.2 = true → scansBefore a c →
        moveScore fuel p b a.1 a.2 < moveScore fuel p b c.1 c.2) := by
  obtain ⟨c0, hc0, he0, hs0⟩ := hex
  rcases bestStep_fold_spec fuel p b (scanOrder N) (-1, -1, INT_MIN) with
    ⟨_, h2⟩ | ⟨l1, c, l2, h1, h2, h3, h4, h5, h6⟩
  · have := h2 c0 hc0 he0
    simp only [] at this
    omega
  · have hc : c ∈ scanOrder N := by rw [h1]; simp
    refine ⟨c, hc, h2, ?_, ?_, ?_⟩
    · unfold bestMove; rw [h3]
    · intro a ha hea
      rw [h1] at ha
      rcases List.mem_append.1 ha with h | h
      · exact le_of_lt (h5 a h hea)
      · rcases List.mem_cons.1 h with rfl | h
        · exact le_refl _
        · exact h6 a h hea
    · intro a ha hea hb
      exact h5 a (mem_prefix_of_scansBefore l1 l2 c a h1 ha hb) hea

/-- The pure choice when no empty cell scores above `INT_MIN`: the sentinel. -/
theorem bestMove_sentinel {N : Nat} (fuel : Nat) (p : Bool) (b : Board N)
    (hall : ∀ c ∈ scanOrder N, b.isFieldEmpty c.1 c.2 = true →
      moveScore fuel p b c.1 c.2 ≤ INT_MIN) :
    bestMove fuel p b = (-1, -1) := by
  rcases bestStep_fold_spec fuel p b (scanOrder N) (-1, -1, INT_MIN) with
    ⟨h1, _⟩ | ⟨l1, c, l2, h1, h2, _, h4, _, _⟩
  · unfold bestMove; rw [h1]
  · have hc : c ∈ scanOrder N := by rw [h1]; simp
    have := hall c hc h2
    simp only [] at h4
    omega

theorem emptyCount_le {N : Nat} (b : Board N) : emptyCount b ≤ N * N := by
  have := emptyCount_add_occupiedCount b
  omega

theorem consistent_count_lt {N : Nat} (b : Board N) (hcons : Consistent b)
    (hlt : N * N < SIZE_MOD) : b.checkedFieldsCount_ < SIZE_MOD := by
  have := emptyCount_add_occupiedCount b
  unfold Consistent at hcons
  omega

/-- On a consistent board every empty cell gets a score between `-(N * N)`
and `N * N`. -/
theorem moveScore_range {N : Nat} (hN : N * N < 2147483648) (fuel : Nat) (p : Bool)
    (b : Board N) (hcons : Consistent b) (hf : emptyCount b ≤ fuel) (x y : Nat)
    (hx : x < N) (hy : y < N) (he : b.isFieldEmpty x y = true) :
    -((N * N : Nat) : Int) ≤ moveScore fuel p b x y ∧
      moveScore fuel p b x y ≤ ((N * N : Nat) : Int) := by
  have hlt : N * N < SIZE_MOD := by unfold SIZE_MOD; omega
  have hE := emptyCount_place p b x y hx hy he
  have hle := emptyCount_le b
  have := value_range hN fuel 0 (!p) (place p b x y)
    (place_consistent p b x y hx hy he hcons hlt) (le_refl 0) (by omega) (by omega)
  unfold moveScore
  omega

/-- A cell that completes a line for the mover gets the score `N * N` when
player two moves and `-(N * N)` when player one moves. -/
theorem moveScore_of_completesLine {N : Nat} (hN : N * N < 2147483648) (fuel : Nat)
    (p : Bool) (b : Board N) (x y : Nat) (hw : completesLine p b x y = true) :
    moveScore (fuel + 1) p b x y =
      if p then -((N * N : Nat) : Int) else ((N * N : Nat) : Int) := by
  have hlt : N * N < SIZE_MOD := by unfold SIZE_MOD; omega
  have hM : N * N % SIZE_MOD = N * N := Nat.mod_eq_of_lt hlt
  have e1 := score_p1_turn (N * N) 0 hN (le_refl 0) (by omega)
  have e2 := score_p2_turn (N * N) 0 hN (le_refl 0) (by omega)
  rw [hM] at e1 e2
  unfold completesLine at hw
  unfold moveScore
  rw [value_succ, getMaxDepth_eq _ hlt]
  cases p
  · simp only [hw, if_true, Bool.not_false, e1]; simp
  · simp only [hw, if_true, Bool.not_true, Bool.false_eq_true, if_false, e2]; simp

/-- A cell that does not complete a line gets a score strictly inside
`(-(N * N), N * N)`. -/
theorem moveScore_of_not_completesLine {N : Nat} (hN : N * N < 2147483648) (fuel : Nat)
    (p : Bool) (b : Board N) (hcons : Consistent b) (hf : emptyCount b ≤ fuel + 1)
    (x y : Nat) (hx : x < N) (hy : y < N) (he : b.isFieldEmpty x y = true)
    (hw : completesLine p b x y = false) :
    -((N * N : Nat) : Int) < moveScore (fuel + 1) p b x y ∧
      moveScore (fuel + 1) p b x y < ((N * N : Nat) : Int) := by
  have hlt : N * N < SIZE_MOD := by unfold SIZE_MOD; omega
  have hE := emptyCount_place p b x y hx hy he
  have hle := emptyCount_le b
  have hcons' := place_consistent p b x y hx hy he hcons hlt
  have hNpos : 1 ≤ N * N := by
    have : 1 ≤ N := by omega
    exact Nat.mul_pos this this
  unfold completesLine at hw
  have hch : ∀ c ∈ scanOrder N, (place p b x y).isFieldEmpty c.1 c.2 = true →
      -(((N * N : Nat) : Int) - 1) ≤
          value fuel (intAdd 0 1) (!(!p)) (place (!p) (place p b x y) c.1 c.2) ∧
        value fuel (intAdd 0 1) (!(!p)) (place (!p) (place p b x y) c.1 c.2) ≤
          ((N * N : Nat) : Int) - 1 := by
    intro c hc hec
    have hin := (mem_scanOrder c).1 hc
    have hE' := emptyCount_place (!p) (place p b x y) c.1 c.2 hin.1 hin.2 hec
    rw [intAdd_one 0 (le_refl 0) (by omega)]
    have := value_range hN fuel (0 + 1) (!(!p)) (place (!p) (place p b x y) c.1 c.2)
      (place_consistent (!p) _ c.1 c.2 hin.1 hin.2 hec hcons' hlt) (by omega) (by omega)
      (by omega)
    omega
  have := value_between_of_children fuel 0 (!p) (place p b x y)
    (-(((N * N : Nat) : Int) - 1)) (((N * N : Nat) : Int) - 1) hw
    (by omega) (by omega) (by unfold INT_MIN; omega) (by unfold INT_MAX; omega)
    (exists_empty_of_not_full _ hcons' hlt) hch
  unfold moveScore
  omega

/-- On a consistent board with an empty cell the pure choice is an empty
cell of the array, of maximal score, the first such in the scan order. -/
theorem bestMove_cell {N : Nat} (hN : N * N < 2147483648) (fuel : Nat) (p : Bool)
    (b : Board N) (hcons : Consistent b) (hf : emptyCount b ≤ fuel)
    (hex : ∃ c ∈ scanOrder N, b.isFieldEmpty c.1 c.2 = true) :
    ∃ x y, x < N ∧ y < N ∧ b.isFieldEmpty x y = true ∧
      bestMove fuel p b = ((x : Int), (y : Int)) ∧
      (∀ a ∈ scanOrder N, b.isFieldEmpty a.1 a.2 = true →
        moveScore fuel p b a.1 a.2 ≤ moveScore fuel p b x y) ∧
      (∀ a ∈ scanOrder N, b.isFieldEmpty a.1 a.2 = true → scansBefore a (x, y) →
        moveScore fuel p b a.1 a.2 < moveScore fuel p b x y) := by
  obtain ⟨c0, hc0, he0⟩ := hex
  have hin0 := (mem_scanOrder c0).1 hc0
  have hr := moveScore_range hN fuel p b hcons hf c0.1 c0.2 hin0.1 hin0.2 he0
  obtain ⟨c, hc, hec, hbest, hmax, hfirst⟩ := bestMove_spec fuel p b
    ⟨c0, hc0, he0, by unfold INT_MIN; omega⟩
  have hin := (mem_scanOrder c).1 hc
  have hNN : N ≤ N * N := Nat.le_mul_self N
  refine ⟨c.1, c.2, hin.1, hin.2, hec, ?_, hmax, hfirst⟩
  rw [hbest, intOfSize_of_lt c.1 (by omega), intOfSize_of_lt c.2 (by omega)]

/-! ## Reachable boards -/

theorem cellsValid_empty (N : Nat) : CellsValid (Board.empty N) := by
  intro x y _ _
  simp [Board.empty]

theorem consistent_empty (N : Nat) : Consistent (Board.empty N) := by
  unfold Consistent occupiedCount
  symm
  show List.countP _ _ = 0
  rw [List.countP_eq_zero]
  intro c _
  simp [Board.empty, Board.isFieldEmpty, Board.getField, Board.EMPTY, Board.P1, Board.P2]

theorem reachable_wellformed {N : Nat} (hlt : N * N < SIZE_MOD) (p : Bool) (b : Board N)
    (h : Reachable p b) : CellsValid b ∧ Consistent b := by
  induction h with
  | start p => exact ⟨cellsValid_empty N, consistent_empty N⟩
  | move p b x y _ _ _ hx hy he ih =>
    exact ⟨place_cellsValid p b x y ih.1, place_consistent p b x y hx hy he ih.2 hlt⟩

/-! ## Claims -/

/-- C2, as amended. Player-two optimality of `getBestMove` for board sizes
`N * N` within `int`: on every board with cells in {EMPTY, P1, P2}, a
consistent occupied count and at least one empty cell (with or without a
completed line), `getBestMove(false)` returns an empty cell
of the array and leaves the board unchanged; the score of a cell is what
`minimax(0, true)` returns with player two's mark placed there, and the
returned cell's score is the maximum over all empty cells; whenever some
empty cell completes a line for player two, so does the returned cell. -/
theorem getBestMove_player_two_optimal {N : Nat} (hN : N * N < 2147483648) (fuel : Nat)
    (hf : N * N ≤ fuel) (b : Board N) (hv : CellsValid b) (hcons : Consistent b)
    (hex : ∃ x y, x < N ∧ y < N ∧ b.isFieldEmpty x y = true) :
    ∃ x y, x < N ∧ y < N ∧ b.isFieldEmpty x y = true ∧
      getBestMove fuel false b = some (((x : Int), (y : Int)), b) ∧
      (∀ x' y', x' < N → y' < N → b.isFieldEmpty x' y' = true →
        minimax fuel 0 true (b.setFieldForP2 x' y') =
            some (moveScore fuel false b x' y', b.setFieldForP2 x' y') ∧
          moveScore fuel false b x' y' ≤ moveScore fuel false b x y) ∧
      ((∃ x' y', x' < N ∧ y' < N ∧ b.isFieldEmpty x' y' = true ∧
          completesLine false b x' y' = true) →
        completesLine false b x y = true) := by
  have hlt : N * N < SIZE_MOD := by unfold SIZE_MOD; omega
  have hle := emptyCount_le b
  have hc := consistent_count_lt b hcons hlt
  obtain ⟨x0, y0, hx0, hy0, he0⟩ := hex
  obtain ⟨x, y, hx, hy, he, hbest, hmax, _⟩ := bestMove_cell hN fuel false b hcons
    (by omega) ⟨(x0, y0), (mem_scanOrder (x0, y0)).2 ⟨hx0, hy0⟩, he0⟩
  refine ⟨x, y, hx, hy, he, ?_, ?_, ?_⟩
  · rw [getBestMove_eq_bestMove fuel false b hv hc (by omega), hbest]
  · intro x' y' hx' hy' he'
    refine ⟨?_, hmax (x', y') ((mem_scanOrder (x', y')).2 ⟨hx', hy'⟩) he'⟩
    have hE := emptyCount_place false b x' y' hx' hy' he'
    exact minimax_eq_value fuel 0 true (place false b x' y')
      (place_cellsValid false b x' y' hv)
      (by rw [place_count]; exact Nat.mod_lt _ (by unfold SIZE_MOD; omega)) (by omega)
  · rintro ⟨x', y', hx', hy', he', hw⟩
    have hpos : 0 < emptyCount b := by
      unfold emptyCount
      exact List.countP_pos_iff.2 ⟨(x', y'), (mem_scanOrder (x', y')).2 ⟨hx', hy'⟩, he'⟩
    obtain ⟨k, rfl⟩ : ∃ k, fuel = k + 1 := ⟨fuel - 1, by omega⟩
    by_contra hnot
    simp only [Bool.not_eq_true] at hnot
    have h1 := moveScore_of_completesLine hN k false b x' y' hw
    have h2 := moveScore_of_not_completesLine hN k false b hcons (by omega) x y hx hy he hnot
    have h3 := hmax (x', y') ((mem_scanOrder (x', y')).2 ⟨hx', hy'⟩) he'
    simp only [Bool.false_eq_true, if_false] at h1
    simp only [] at h3
    omega

/-- C3, as amended. For board sizes `N * N` within `int`: on every board
reachable from the empty board by legal alternating play that is not
terminal (no completed line, not full), `getBestMove`, for either player,
returns coordinates `(x, y)` with `0 ≤ x, y < N` of a cell that is empty,
never the sentinel `(-1, -1)`, and leaves the board unchanged. -/
theorem getBestMove_returns_empty_cell {N : Nat} (hN : N * N < 2147483648) (fuel : Nat)
    (hf : N * N ≤ fuel) (p : Bool) (b : Board N) (hr : Reachable p b)
    (hfull : b.isFull = false) (q : Bool) :
    ∃ x y, x < N ∧ y < N ∧ b.isFieldEmpty x y = true ∧
      getBestMove fuel q b = some (((x : Int), (y : Int)), b) ∧
      (((x : Int), (y : Int)) : Int × Int) ≠ (-1, -1) := by
  have hlt : N * N < SIZE_MOD := by unfold SIZE_MOD; omega
  obtain ⟨hv, hcons⟩ := reachable_wellformed hlt p b hr
  have hle := emptyCount_le b
  have hc := consistent_count_lt b hcons hlt
  obtain ⟨x, y, hx, hy, he, hbest, _, _⟩ := bestMove_cell hN fuel q b hcons (by omega)
    (exists_empty_of_not_full b hcons hlt hfull)
  refine ⟨x, y, hx, hy, he, ?_, ?_⟩
  · rw [getBestMove_eq_bestMove fuel q b hv hc (by omega), hbest]
  · intro h
    have := congrArg Prod.fst h
    simp only [] at this
    omega

/-- C4. Search leaves the board untouched: on every board whose cells are
each EMPTY, P1 or P2, for every depth and either player, `minimax` and
`getBestMove` return (fuel above `N * N` suffices) and the board they leave
behind, cells and occupied-cell counter, equals the board before the call. -/
theorem search_leaves_board_untouched {N : Nat} (fuel : Nat) (hf : N * N < fuel)
    (b : Board N) (hv : CellsValid b) (hc : b.checkedFieldsCount_ < SIZE_MOD) :
    (∀ (depth : Int) (p : Bool), ∃ s, minimax fuel depth p b = some (s, b)) ∧
    (∀ p : Bool, ∃ m, getBestMove fuel p b = some (m, b)) := by
  have hle := emptyCount_le b
  constructor
  · intro depth p
    exact ⟨_, minimax_eq_value fuel depth p b hv hc (by omega)⟩
  · intro p
    exact ⟨_, getBestMove_eq_bestMove fuel p b hv hc (by omega)⟩

/-- C5. Placement and retraction are exact inverses: on every board, for
either player and every cell `(x, y)` of the array that holds EMPTY,
`setFieldForP1(x, y)` (or `setFieldForP2(x, y)`) followed by
`clearField(x, y)` gives back the board, cells and occupied count, hence the
same results of `isWinInRow`, `isWinInColumn`, `isWinInDiagonal`,
`isGameEnd` and `isFull`. -/
theorem place_then_clear_restores {N : Nat} (b : Board N) (x y : Nat) (hx : x < N)
    (hy : y < N) (he : b.getField x y = Board.EMPTY)
    (hc : b.checkedFieldsCount_ < SIZE_MOD) :
    ((b.setFieldForP1 x y).clearField x y = b ∧
      (b.setFieldForP2 x y).clearField x y = b) ∧
    ∀ b' : Board N,
      (b' = (b.setFieldForP1 x y).clearField x y ∨
        b' = (b.setFieldForP2 x y).clearField x y) →
      (∀ i j, i < N → j < N → b'.getField i j = b.getField i j) ∧
      b'.checkedFieldsCount_ = b.checkedFieldsCount_ ∧
      b'.isWinInRow = b.isWinInRow ∧ b'.isWinInColumn = b.isWinInColumn ∧
      b'.isWinInDiagonal = b.isWinInDiagonal ∧ b'.isGameEnd = b.isGameEnd ∧
      b'.isFull = b.isFull := by
  have h1 : (b.setFieldForP1 x y).clearField x y = b := clearField_place true b x y he hc
  have h2 : (b.setFieldForP2 x y).clearField x y = b := clearField_place false b x y he hc
  have _hin : x < N ∧ y < N := ⟨hx, hy⟩
  refine ⟨⟨h1, h2⟩, ?_⟩
  intro b' hb'
  have hb : b' = b := by
    rcases hb' with h | h
    · rw [h, h1]
    · rw [h, h2]
  subst hb
  exact ⟨fun _ _ _ _ => rfl, rfl, rfl, rfl, rfl, rfl, rfl⟩

/-- C7, as amended. Terminal evaluation of `minimax` for board sizes
`N * N` within `int`: on every board with a completed line and for every depth with
`0 ≤ depth ≤ N * N`, `minimax(depth, true)` returns `N * N - depth` and
`minimax(depth, false)` returns `-(N * N - depth)`, whether or not the board
is also full; on every full board without a completed line `minimax`
returns 0 for either player and any depth. -/
theorem minimax_terminal {N : Nat} (hN : N * N < 2147483648) (fuel : Nat) (b : Board N) :
    (b.isGameEnd = true → ∀ depth : Int, 0 ≤ depth → depth ≤ ((N * N : Nat) : Int) →
      minimax (fuel + 1) depth true b = some (((N * N : Nat) : Int) - depth, b) ∧
      minimax (fuel + 1) depth false b = some (-(((N * N : Nat) : Int) - depth), b)) ∧
    (b.isGameEnd = false → b.isFull = true → ∀ (depth : Int) (p : Bool),
      minimax (fuel + 1) depth p b = some (0, b)) := by
  have hlt : N * N < SIZE_MOD := by unfold SIZE_MOD; omega
  have hM : N * N % SIZE_MOD = N * N := Nat.mod_eq_of_lt hlt
  constructor
  · intro hg depth h0 hd
    have e1 := score_p1_turn (N * N) depth hN h0 hd
    have e2 := score_p2_turn (N * N) depth hN h0 hd
    rw [hM] at e1 e2
    unfold minimax
    simp only [hg, if_true, Bool.false_eq_true, if_false, getMaxDepth_eq b hlt, e1, e2,
      and_self]
  · intro hg hfull depth p
    unfold minimax
    simp only [hg, hfull, Bool.false_eq_true, if_false, if_true]

/-- C10, as amended. First-found tie-break of `getBestMove`, for either
player, on every board with cells in {EMPTY, P1, P2}: a second call on the
same object returns the same pair; the score of an empty cell is what
`minimax(0, !is_p1_turn)` returns with the mover's mark placed there; when
some empty cell scores above `INT_MIN`, the initial `best_score`, the
returned pair is (the coordinates, converted to `int`, of) the first cell in
the scan order (`x` outer, `y` inner) among the empty cells whose score is
the maximum over all empty cells; when every empty cell scores `INT_MIN` the
sentinel `(-1, -1)` is returned. -/
theorem getBestMove_first_maximal {N : Nat} (fuel : Nat)
    (hf : N * N ≤ fuel) (p : Bool) (b : Board N) (hv : CellsValid b)
    (hc : b.checkedFieldsCount_ < SIZE_MOD) :
    (∃ r, getBestMove fuel p b = some (r, b)) ∧
    (∀ r, getBestMove fuel p b = some r → getBestMove fuel p r.2 = some r) ∧
    (∀ x y, x < N → y < N → b.isFieldEmpty x y = true →
      minimax fuel 0 (!p) (place p b x y) = some (moveScore fuel p b x y, place p b x y)) ∧
    ((∃ x y, x < N ∧ y < N ∧ b.isFieldEmpty x y = true ∧
        INT_MIN < moveScore fuel p b x y) →
      ∃ x y, x < N ∧ y < N ∧ b.isFieldEmpty x y = true ∧
        getBestMove fuel p b = some ((intOfSize x, intOfSize y), b) ∧
        (N ≤ 2147483648 → intOfSize x = (x : Int) ∧ intOfSize y = (y : Int)) ∧
        (∀ x' y', x' < N → y' < N → b.isFieldEmpty x' y' = true →
          moveScore fuel p b x' y' ≤ moveScore fuel p b x y) ∧
        (∀ x' y', x' < N → y' < N → b.isFieldEmpty x' y' = true →
          scansBefore (x', y') (x, y) →
          moveScore fuel p b x' y' < moveScore fuel p b x y)) ∧
    ((∀ x y, x < N → y < N → b.isFieldEmpty x y = true →
        moveScore fuel p b x y ≤ INT_MIN) →
      getBestMove fuel p b = some ((-1, -1), b)) := by
  have hle := emptyCount_le b
  have hres := getBestMove_eq_bestMove fuel p b hv hc (by omega)
  refine ⟨⟨_, hres⟩, ?_, ?_, ?_, ?_⟩
  · intro r hr
    rw [hres] at hr
    cases hr
    exact hres
  · intro x y hx hy he
    have hE := emptyCount_place p b x y hx hy he
    exact minimax_eq_value fuel 0 (!p) (place p b x y) (place_cellsValid p b x y hv)
      (by rw [place_count]; exact Nat.mod_lt _ (by unfold SIZE_MOD; omega)) (by omega)
  · rintro ⟨x0, y0, hx0, hy0, he0, hs0⟩
    obtain ⟨c, hcm, hec, hbest, hmax, hfirst⟩ := bestMove_spec fuel p b
      ⟨(x0, y0), (mem_scanOrder (x0, y0)).2 ⟨hx0, hy0⟩, he0, hs0⟩
    have hin := (mem_scanOrder c).1 hcm
    refine ⟨c.1, c.2, hin.1, hin.2, hec, ?_, ?_, ?_, ?_⟩
    · rw [hres, hbest]
    · intro hN
      exact ⟨intOfSize_of_lt c.1 (by omega), intOfSize_of_lt c.2 (by omega)⟩
    · intro x' y' hx' hy' he'
      exact hmax (x', y') ((mem_scanOrder (x', y')).2 ⟨hx', hy'⟩) he'
    · intro x' y' hx' hy' he' hb
      exact hfirst (x', y') ((mem_scanOrder (x', y')).2 ⟨hx', hy'⟩) he' hb
  · intro hall
    rw [hres, bestMove_sentinel fuel p b
      (fun c hcm he => hall c.1 c.2 ((mem_scanOrder c).1 hcm).1 ((mem_scanOrder c).1 hcm).2 he)]

/-! ## Concrete instances -/

theorem cellsValid_sampleP2 : CellsValid sampleP2 := by
  intro x y hx hy
  interval_cases x <;> interval_cases y <;> decide

theorem cellsValid_sampleP1 : CellsValid sampleP1 := by
  intro x y hx hy
  interval_cases x <;> interval_cases y <;> decide

theorem cellsValid_sampleStuck : CellsValid sampleStuck := by
  intro x y hx hy
  interval_cases x <;> interval_cases y <;> decide

theorem consistent_sampleP2 : Consistent sampleP2 := by
  unfold Consistent
  decide

theorem getBestMove_player_two_optimal_witness :
    ∃ x y : Nat, getBestMove 9 false sampleP2 = some (((x : Int), (y : Int)), sampleP2) ∧
      completesLine false sampleP2 x y = true := by
  obtain ⟨x, y, _, _, _, h, _, hw⟩ :=
    getBestMove_player_two_optimal (by norm_num) 9 (by norm_num) sampleP2
      cellsValid_sampleP2 consistent_sampleP2 ⟨1, 2, by decide, by decide, by decide⟩
  exact ⟨x, y, h, hw ⟨1, 2, by decide, by decide, by decide, by decide⟩⟩

theorem getBestMove_returns_empty_cell_witness :
    ∃ x y : Nat, x < 3 ∧ y < 3 ∧ (place true (Board.empty 3) 1 1).isFieldEmpty x y = true ∧
      getBestMove 9 false (place true (Board.empty 3) 1 1) =
        some (((x : Int), (y : Int)), place true (Board.empty 3) 1 1) ∧
      (((x : Int), (y : Int)) : Int × Int) ≠ (-1, -1) :=
  getBestMove_returns_empty_cell (by norm_num) 9 (by norm_num) false
    (place true (Board.empty 3) 1 1)
    (Reachable.move true (Board.empty 3) 1 1 (Reachable.start true) (by decide) (by decide)
      (by decide) (by decide) (by decide))
    (by decide) false

theorem search_leaves_board_untouched_witness :
    (∀ (depth : Int) (p : Bool), ∃ s, minimax 10 depth p sampleP2 = some (s, sampleP2)) ∧
    (∀ p : Bool, ∃ m, getBestMove 10 p sampleP2 = some (m, sampleP2)) :=
  search_leaves_board_untouched 10 (by norm_num) sampleP2 cellsValid_sampleP2 (by decide)

theorem place_then_clear_restores_witness :
    ((Board.empty 3).setFieldForP1 0 0).clearField 0 0 = Board.empty 3 ∧
      ((Board.empty 3).setFieldForP2 0 0).clearField 0 0 = Board.empty 3 :=
  (place_then_clear_restores (Board.empty 3) 0 0 (by decide) (by decide) (by decide)
    (by decide)).1

theorem isGameEnd_iff_hasCompletedLine_witness :
    HasCompletedLine sampleWon ∧ sampleDraw.isGameEnd = false :=
  ⟨(isGameEnd_iff_hasCompletedLine (by decide) sampleWon).1 (by decide), by decide⟩

theorem minimax_terminal_witness :
    (minimax 1 5 true sampleWon = some (((3 * 3 : Nat) : Int) - 5, sampleWon) ∧
      minimax 1 5 false sampleWon = some (-(((3 * 3 : Nat) : Int) - 5), sampleWon)) ∧
    minimax 1 0 true sampleDraw = some (0, sampleDraw) :=
  ⟨(minimax_terminal (by norm_num) 0 sampleWon).1 (by decide) 5 (by norm_num) (by norm_num),
    (minimax_terminal (by norm_num) 0 sampleDraw).2 (by decide) (by decide) 0 true⟩

theorem moveScore_sampleP2 : INT_MIN < moveScore 9 false sampleP2 1 2 := by
  decide!

theorem getBestMove_first_maximal_witness :
    ∃ x y : Nat, x < 3 ∧ y < 3 ∧ sampleP2.isFieldEmpty x y = true ∧
      getBestMove 9 false sampleP2 = some ((intOfSize x, intOfSize y), sampleP2) ∧
      (3 ≤ 2147483648 → intOfSize x = (x : Int) ∧ intOfSize y = (y : Int)) ∧
      (∀ x' y', x' < 3 → y' < 3 → sampleP2.isFieldEmpty x' y' = true →
        moveScore 9 false sampleP2 x' y' ≤ moveScore 9 false sampleP2 x y) ∧
      (∀ x' y', x' < 3 → y' < 3 → sampleP2.isFieldEmpty x' y' = true →
        scansBefore (x', y') (x, y) →
        moveScore 9 false sampleP2 x' y' < moveScore 9 false sampleP2 x y) :=
  (getBestMove_first_maximal 9 (by norm_num) false sampleP2
      cellsValid_sampleP2 (by decide)).2.2.2.1
    ⟨1, 2, by decide, by decide, by decide, moveScore_sampleP2⟩

theorem bestMove_sampleStuck : bestMove 10 true sampleStuck = (-1, -1) := by
  decide!

/-- C10, the claim as stated fails: `sampleStuck` has the empty cell
`(2, 2)`, the only empty cell and so the one of maximal score, yet
`getBestMove(true)` returns the sentinel `(-1, -1)`: with the counter at 0
the search below `(2, 2)` finds the board neither won nor full and without
an empty cell, and returns `INT_MIN`, which is not above the initial
`best_score`. -/
theorem getBestMove_first_maximal_counterexample :
    sampleStuck.isFieldEmpty 2 2 = true ∧
      moveScore 10 true sampleStuck 2 2 = INT_MIN ∧
      getBestMove 10 true sampleStuck = some ((-1, -1), sampleStuck) := by
  refine ⟨by decide, by decide!, ?_⟩
  rw [getBestMove_eq_bestMove 10 true sampleStuck cellsValid_sampleStuck (by decide)
    (le_trans (emptyCount_le sampleStuck) (by norm_num)), bestMove_sampleStuck]

theorem bestMove_sampleP1 : bestMove 10 true sampleP1 = (2, 1) := by
  decide!

/-- C1, the code at the failing input `sampleP1` (player one to move): the
empty cell `(0, 2)` completes the line `board_[0][0..2]` for player one and
scores `-9`, the best score there is for player one; `getBestMove(true)`
returns `(2, 1)`, which completes no line and scores `8`: player two then
wins at `(0, 2)`.  The scan keeps the largest score whoever moves, and large
scores are the ones good for player two. -/
theorem getBestMove_player_one_not_optimal :
    completesLine true sampleP1 0 2 = true ∧
      moveScore 10 true sampleP1 0 2 = -9 ∧
      getBestMove 10 true sampleP1 = some ((2, 1), sampleP1) ∧
      completesLine true sampleP1 2 1 = false ∧
      moveScore 10 true sampleP1 2 1 = 8 ∧
      completesLine false (place true sampleP1 2 1) 0 2 = true := by
  refine ⟨by decide, by decide!, ?_, by decide, by decide!, by decide⟩
  rw [getBestMove_eq_bestMove 10 true sampleP1 cellsValid_sampleP1 (by decide)
    (le_trans (emptyCount_le sampleP1) (by norm_num)), bestMove_sampleP1]

/-! ## One level of the score -/

theorem value_p1_le_child {N : Nat} (fuel : Nat) (d : Int) (b : Board N)
    (hg : b.isGameEnd = false) (hfull : b.isFull = false) (x y : Nat) (hx : x < N)
    (hy : y < N) (he : b.isFieldEmpty x y = true) :
    value (fuel + 1) d true b ≤ value fuel (intAdd d 1) false (place true b x y) := by
  rw [value_p1_node fuel d b hg hfull]
  exact (foldl_min_spec (scanOrder N) (fun c => b.isFieldEmpty c.1 c.2)
    (fun c => value fuel (intAdd d 1) false (place true b c.1 c.2)) INT_MAX).2.1
    (x, y) ((mem_scanOrder (x, y)).2 ⟨hx, hy⟩) he

theorem value_p2_ge_child {N : Nat} (fuel : Nat) (d : Int) (b : Board N)
    (hg : b.isGameEnd = false) (hfull : b.isFull = false) (x y : Nat) (hx : x < N)
    (hy : y < N) (he : b.isFieldEmpty x y = true) :
    value fuel (intAdd d 1) true (place false b x y) ≤ value (fuel + 1) d false b := by
  rw [value_p2_node fuel d b hg hfull]
  exact (foldl_max_spec (scanOrder N) (fun c => b.isFieldEmpty c.1 c.2)
    (fun c => value fuel (intAdd d 1) true (place false b c.1 c.2)) INT_MIN).2.1
    (x, y) ((mem_scanOrder (x, y)).2 ⟨hx, hy⟩) he

theorem value_p2_le_of_children {N : Nat} (fuel : Nat) (d : Int) (b : Board N) (k : Int)
    (hg : b.isGameEnd = false) (hfull : b.isFull = false) (hk : INT_MIN ≤ k)
    (hall : ∀ x y, x < N → y < N → b.isFieldEmpty x y = true →
      value fuel (intAdd d 1) true (place false b x y) ≤ k) :
    value (fuel + 1) d false b ≤ k := by
  rw [value_p2_node fuel d b hg hfull]
  rcases (foldl_max_spec (scanOrder N) (fun c => b.isFieldEmpty c.1 c.2)
    (fun c => value fuel (intAdd d 1) true (place false b c.1 c.2)) INT_MIN).2.2 with
    h | ⟨c, hc, he, h⟩
  · rw [h]; exact hk
  · rw [h]
    exact hall c.1 c.2 ((mem_scanOrder c).1 hc).1 ((mem_scanOrder c).1 hc).2 he

theorem value_p1_ge_of_children {N : Nat} (fuel : Nat) (d : Int) (b : Board N) (k : Int)
    (hg : b.isGameEnd = false) (hfull : b.isFull = false) (hk : k ≤ INT_MAX)
    (hall : ∀ x y, x < N → y < N → b.isFieldEmpty x y = true →
      k ≤ value fuel (intAdd d 1) false (place true b x y)) :
    k ≤ value (fuel + 1) d true b := by
  rw [value_p1_node fuel d b hg hfull]
  rcases (foldl_min_spec (scanOrder N) (fun c => b.isFieldEmpty c.1 c.2)
    (fun c => value fuel (intAdd d 1) false (place true b c.1 c.2)) INT_MAX).2.2 with
    h | ⟨c, hc, he, h⟩
  · rw [h]; exact hk
  · rw [h]
    exact hall c.1 c.2 ((mem_scanOrder c).1 hc).1 ((mem_scanOrder c).1 hc).2 he

/-! ## Soundness of the 3×3 evaluator -/

theorem get_set (c : Cells3) (x y : Nat) (m : Mark3) (i j : Nat) (hx : x < 3) (hy : y < 3) :
    (c.set x y m).get i j = if i = x ∧ j = y then m else c.get i j := by
  interval_cases x <;> interval_cases y <;>
    (rcases i with _ | _ | _ | i <;> rcases j with _ | _ | _ | j <;>
      simp [Cells3.get, Cells3.set])

theorem toBoard_isFieldEmpty (c : Cells3) (count x y : Nat) :
    (c.toBoard count).isFieldEmpty x y = (c.get x y).isE := by
  unfold Board.isFieldEmpty Board.getField Cells3.toBoard
  simp only []
  generalize c.get x y = m
  cases m <;> decide

theorem line3_eq (u v w : Mark3) :
    (!u.isE && (v.toChar == u.toChar && w.toChar == u.toChar)) = line3 u v w := by
  cases u <;> cases v <;> cases w <;> decide

theorem toBoard_isGameEnd (c : Cells3) (count : Nat) :
    (c.toBoard count).isGameEnd = win3 c := by
  have h3 : List.range 3 = [0, 1, 2] := by decide
  have h12 : List.range' 1 (3 - 1) = [1, 2] := by decide
  unfold Board.isGameEnd Board.isWinInColumn Board.isWinInRow Board.isWinInDiagonal
  simp only [h3, h12, toBoard_isFieldEmpty, List.any_cons, List.any_nil, List.all_cons,
    List.all_nil, Bool.and_true, Bool.or_false]
  simp only [Cells3.toBoard, Cells3.get]
  simp only [beq_self_eq_true, Bool.true_and, line3_eq, win3, win9, Bool.or_assoc]

theorem toBoard_cellsValid (c : Cells3) (count : Nat) : CellsValid (c.toBoard count) := by
  intro x y _ _
  unfold Cells3.toBoard
  simp only []
  generalize c.get x y = m
  cases m <;> simp [Mark3.toChar]

theorem toBoard_place (c : Cells3) (count : Nat) (p : Bool) (x y : Nat) (hx : x < 3)
    (hy : y < 3) (hc : count + 1 < SIZE_MOD) :
    place p (c.toBoard count) x y = (c.set x y (markOf p)).toBoard (count + 1) := by
  apply board_eq
  · funext i j
    rw [place_board]
    simp only [Cells3.toBoard, get_set c x y (markOf p) i j hx hy]
    by_cases h : i = x ∧ j = y
    · cases p <;> simp [h, markOf, Mark3.toChar]
    · simp [h]
  · rw [place_count]
    exact Nat.mod_eq_of_lt hc

theorem toBoard_isFull (c : Cells3) (count : Nat) :
    (c.toBoard count).isFull = Nat.ble 9 count := by
  unfold Board.isFull Board.getMaxDepth Cells3.toBoard SIZE_MOD
  simp only []
  by_cases h : 9 ≤ count
  · simp [h, Nat.ble_eq]
  · have : Nat.ble 9 count = false := by
      rw [Bool.eq_false_iff]; intro hb; exact h (Nat.le_of_ble_eq_true hb)
    simp [h, this]

theorem intAdd_natCast (d : Nat) (hd : d ≤ 9) : intAdd (d : Int) 1 = ((d + 1 : Nat) : Int) := by
  unfold intAdd
  omega

theorem resolve_isE {u : Mark3} {q : Prop} (h : u.isE = false ∨ q) (he : u.isE = true) : q := by
  rcases h with h | h
  · rw [he] at h; cases h
  · exact h

theorem value_won3 (c : Cells3) (cnt d : Nat) (p : Bool) (fuel : Nat)
    (hw : win9 c.c00 c.c01 c.c02 c.c10 c.c11 c.c12 c.c20 c.c21 c.c22 = true) (hd : d ≤ 9) :
    value (fuel + 1) (d : Int) p (c.toBoard cnt) =
      if p then (9 : Int) - d else -((9 : Int) - d) := by
  have hg : (c.toBoard cnt).isGameEnd = true := by rw [toBoard_isGameEnd]; exact hw
  have hM : (c.toBoard cnt).getMaxDepth = 9 % SIZE_MOD := rfl
  have e1 := score_p1_turn 9 (d : Int) (by norm_num) (by omega) (by omega)
  have e2 := score_p2_turn 9 (d : Int) (by norm_num) (by omega) (by omega)
  rw [value_succ, hM]
  cases p
  · simp only [hg, if_true, Bool.false_eq_true, if_false, e2]; rfl
  · simp only [hg, if_true, e1]; rfl

theorem value_full3 (c : Cells3) (cnt d : Nat) (p : Bool) (fuel : Nat)
    (hw : win9 c.c00 c.c01 c.c02 c.c10 c.c11 c.c12 c.c20 c.c21 c.c22 = false)
    (hfull : Nat.ble 9 cnt = true) :
    value (fuel + 1) (d : Int) p (c.toBoard cnt) = 0 := by
  have hg : (c.toBoard cnt).isGameEnd = false := by rw [toBoard_isGameEnd]; exact hw
  have hf : (c.toBoard cnt).isFull = true := by rw [toBoard_isFull]; exact hfull
  rw [value_succ]
  simp only [hg, hf, Bool.false_eq_true, if_false, if_true]

theorem le_min_step (c : Cells3) (cnt d fuel : Nat) (k : Int) (x y : Nat) (hx : x < 3)
    (hy : y < 3)
    (hw : win9 c.c00 c.c01 c.c02 c.c10 c.c11 c.c12 c.c20 c.c21 c.c22 = false)
    (hfull : Nat.ble 9 cnt = false) (hd : d ≤ 9) (he : (c.get x y).isE = true)
    (hf : emptyCount (c.toBoard cnt) < fuel + 1)
    (hch : emptyCount ((c.set x y .X).toBoard (cnt + 1)) < fuel →
      value fuel ((d + 1 : Nat) : Int) false ((c.set x y .X).toBoard (cnt + 1)) ≤ k) :
    value (fuel + 1) (d : Int) true (c.toBoard cnt) ≤ k := by
  have hg : (c.toBoard cnt).isGameEnd = false := by rw [toBoard_isGameEnd]; exact hw
  have hnf : (c.toBoard cnt).isFull = false := by rw [toBoard_isFull]; exact hfull
  have he' : (c.toBoard cnt).isFieldEmpty x y = true := by rw [toBoard_isFieldEmpty]; exact he
  have h9 : ¬ 9 ≤ cnt := fun h' => by rw [Nat.ble_eq_true_of_le h'] at hfull; cases hfull
  have hpl := toBoard_place c cnt true x y hx hy (by unfold SIZE_MOD; omega)
  rw [show markOf true = Mark3.X from rfl] at hpl
  have hE := emptyCount_place true (c.toBoard cnt) x y hx hy he'
  have h1 := value_p1_le_child fuel (d : Int) (c.toBoard cnt) hg hnf x y hx hy he'
  rw [intAdd_natCast d hd, hpl] at h1
  rw [hpl] at hE
  exact le_trans h1 (hch (by omega))

theorem ge_max_step (c : Cells3) (cnt d fuel : Nat) (k : Int) (x y : Nat) (hx : x < 3)
    (hy : y < 3)
    (hw : win9 c.c00 c.c01 c.c02 c.c10 c.c11 c.c12 c.c20 c.c21 c.c22 = false)
    (hfull : Nat.ble 9 cnt = false) (hd : d ≤ 9) (he : (c.get x y).isE = true)
    (hf : emptyCount (c.toBoard cnt) < fuel + 1)
    (hch : emptyCount ((c.set x y .O).toBoard (cnt + 1)) < fuel →
      k ≤ value fuel ((d + 1 : Nat) : Int) true ((c.set x y .O).toBoard (cnt + 1))) :
    k ≤ value (fuel + 1) (d : Int) false (c.toBoard cnt) := by
  have hg : (c.toBoard cnt).isGameEnd = false := by rw [toBoard_isGameEnd]; exact hw
  have hnf : (c.toBoard cnt).isFull = false := by rw [toBoard_isFull]; exact hfull
  have he' : (c.toBoard cnt).isFieldEmpty x y = true := by rw [toBoard_isFieldEmpty]; exact he
  have h9 : ¬ 9 ≤ cnt := fun h' => by rw [Nat.ble_eq_true_of_le h'] at hfull; cases hfull
  have hpl := toBoard_place c cnt false x y hx hy (by unfold SIZE_MOD; omega)
  rw [show markOf false = Mark3.O from rfl] at hpl
  have hE := emptyCount_place false (c.toBoard cnt) x y hx hy he'
  have h1 := value_p2_ge_child fuel (d : Int) (c.toBoard cnt) hg hnf x y hx hy he'
  rw [intAdd_natCast d hd, hpl] at h1
  rw [hpl] at hE
  exact le_trans (hch (by omega)) h1

theorem le_max_step (c : Cells3) (cnt d fuel : Nat) (k : Int)
    (hw : win9 c.c00 c.c01 c.c02 c.c10 c.c11 c.c12 c.c20 c.c21 c.c22 = false)
    (hfull : Nat.ble 9 cnt = false) (hd : d ≤ 9) (hk : -2147483648 ≤ k)
    (hf : emptyCount (c.toBoard cnt) < fuel + 1)
    (hall : ∀ x y, x < 3 → y < 3 → (c.get x y).isE = true →
      emptyCount ((c.set x y .O).toBoard (cnt + 1)) < fuel →
      value fuel ((d + 1 : Nat) : Int) true ((c.set x y .O).toBoard (cnt + 1)) ≤ k) :
    value (fuel + 1) (d : Int) false (c.toBoard cnt) ≤ k := by
  have hg : (c.toBoard cnt).isGameEnd = false := by rw [toBoard_isGameEnd]; exact hw
  have hnf : (c.toBoard cnt).isFull = false := by rw [toBoard_isFull]; exact hfull
  have h9 : ¬ 9 ≤ cnt := fun h' => by rw [Nat.ble_eq_true_of_le h'] at hfull; cases hfull
  apply value_p2_le_of_children fuel (d : Int) (c.toBoard cnt) k hg hnf hk
  intro x y hx hy he'
  have hpl := toBoard_place c cnt false x y hx hy (by unfold SIZE_MOD; omega)
  rw [show markOf false = Mark3.O from rfl] at hpl
  have hE := emptyCount_place false (c.toBoard cnt) x y hx hy he'
  rw [toBoard_isFieldEmpty] at he'
  rw [intAdd_natCast d hd, hpl]
  rw [hpl] at hE
  exact hall x y hx hy he' (by omega)

theorem ge_min_step (c : Cells3) (cnt d fuel : Nat) (k : Int)
    (hw : win9 c.c00 c.c01 c.c02 c.c10 c.c11 c.c12 c.c20 c.c21 c.c22 = false)
    (hfull : Nat.ble 9 cnt = false) (hd : d ≤ 9) (hk : k ≤ 2147483647)
    (hf : emptyCount (c.toBoard cnt) < fuel + 1)
    (hall : ∀ x y, x < 3 → y < 3 → (c.get x y).isE = true →
      emptyCount ((c.set x y .X).toBoard (cnt + 1)) < fuel →
      k ≤ value fuel ((d + 1 : Nat) : Int) false ((c.set x y .X).toBoard (cnt + 1))) :
    k ≤ value (fuel + 1) (d : Int) true (c.toBoard cnt) := by
  have hg : (c.toBoard cnt).isGameEnd = false := by rw [toBoard_isGameEnd]; exact hw
  have hnf : (c.toBoard cnt).isFull = false := by rw [toBoard_isFull]; exact hfull
  have h9 : ¬ 9 ≤ cnt := fun h' => by rw [Nat.ble_eq_true_of_le h'] at hfull; cases hfull
  apply value_p1_ge_of_children fuel (d : Int) (c.toBoard cnt) k hg hnf hk
  intro x y hx hy he'
  have hpl := toBoard_place c cnt true x y hx hy (by unfold SIZE_MOD; omega)
  rw [show markOf true = Mark3.X from rfl] at hpl
  have hE := emptyCount_place true (c.toBoard cnt) x y hx hy he'
  rw [toBoard_isFieldEmpty] at he'
  rw [intAdd_natCast d hd, hpl]
  rw [hpl] at hE
  exact hall x y hx hy he' (by omega)

theorem scoreLe_sound (fuelC : Nat) : ∀ (c : Cells3) (cnt d : Nat) (p : Bool) (k : Int),
    scoreLeC fuelC c cnt d p k = true →
    ∀ fuel, emptyCount (c.toBoard cnt) < fuel → value fuel (d : Int) p (c.toBoard cnt) ≤ k := by
  induction fuelC with
  | zero =>
    intro c cnt d p k h
    simp [scoreLeC, scoreLe] at h
  | succ n ih =>
    intro c cnt d p k h fuel hf
    obtain ⟨a00, a01, a02, a10, a11, a12, a20, a21, a22⟩ := c
    cases fuel with
    | zero => omega
    | succ fuel' =>
      unfold scoreLeC at h
      simp only [] at h
      rw [scoreLe, Bool.and_eq_true] at h
      obtain ⟨hd, h⟩ := h
      have hd : d ≤ 9 := Nat.le_of_ble_eq_true hd
      by_cases hw : win9 a00 a01 a02 a10 a11 a12 a20 a21 a22 = true
      · rw [if_pos hw] at h
        rw [value_won3 ⟨a00, a01, a02, a10, a11, a12, a20, a21, a22⟩ cnt d p fuel' hw hd]
        cases p
        · simpa using h
        · simpa using h
      · rw [if_neg hw] at h
        simp only [Bool.not_eq_true] at hw
        by_cases hfull : Nat.ble 9 cnt = true
        · rw [if_pos hfull] at h
          rw [value_full3 ⟨a00, a01, a02, a10, a11, a12, a20, a21, a22⟩ cnt d p fuel' hw hfull]
          simpa using h
        · rw [if_neg hfull] at h
          simp only [Bool.not_eq_true] at hfull
          cases p
          · -- player two moves: every child is at most k
            rw [if_neg (by decide)] at h
            simp only [Bool.and_eq_true, Bool.or_eq_true, Bool.not_eq_true',
              decide_eq_true_eq] at h
            obtain ⟨hk0, h⟩ := h
            obtain ⟨⟨⟨⟨⟨⟨⟨⟨h0, h1⟩, h2⟩, h3⟩, h4⟩, h5⟩, h6⟩, h7⟩, h8⟩ := h
            apply le_max_step ⟨a00, a01, a02, a10, a11, a12, a20, a21, a22⟩ cnt d fuel' k
              hw hfull hd hk0 hf
            intro x y hx hy he hf'
            interval_cases x <;> interval_cases y
            · exact ih (Cells3.set ⟨a00, a01, a02, a10, a11, a12, a20, a21, a22⟩ 0 0 .O)
                (cnt + 1) (d + 1) true k (resolve_isE h0 he) fuel' hf'
            · exact ih (Cells3.set ⟨a00, a01, a02, a10, a11, a12, a20, a21, a22⟩ 0 1 .O)
                (cnt + 1) (d + 1) true k (resolve_isE h1 he) fuel' hf'
            · exact ih (Cells3.set ⟨a00, a01, a02, a10, a11, a12, a20, a21, a22⟩ 0 2 .O)
                (cnt + 1) (d + 1) true k (resolve_isE h2 he) fuel' hf'
            · exact ih (Cells3.set ⟨a00, a01, a02, a10, a11, a12, a20, a21, a22⟩ 1 0 .O)
                (cnt + 1) (d + 1) true k (resolve_isE h3 he) fuel' hf'
            · exact ih (Cells3.set ⟨a00, a01, a02, a10, a11, a12, a20, a21, a22⟩ 1 1 .O)
                (cnt + 1) (d + 1) true k (resolve_isE h4 he) fuel' hf'
            · exact ih (Cells3.set ⟨a00, a01, a02, a10, a11, a12, a20, a21, a22⟩ 1 2 .O)
                (cnt + 1) (d + 1) true k (resolve_isE h5 he) fuel' hf'
            · exact ih (Cells3.set ⟨a00, a01, a02, a10, a11, a12, a20, a21, a22⟩ 2 0 .O)
                (cnt + 1) (d + 1) true k (resolve_isE h6 he) fuel' hf'
            · exact ih (Cells3.set ⟨a00, a01, a02, a10, a11, a12, a20, a21, a22⟩ 2 1 .O)
                (cnt + 1) (d + 1) true k (resolve_isE h7 he) fuel' hf'
            · exact ih (Cells3.set ⟨a00, a01, a02, a10, a11, a12, a20, a21, a22⟩ 2 2 .O)
                (cnt + 1) (d + 1) true k (resolve_isE h8 he) fuel' hf'
          · -- player one moves: one child at most k is enough
            rw [if_pos rfl] at h
            simp only [Bool.or_eq_true, Bool.and_eq_true] at h
            rcases h with
              ((((((((⟨he, hk⟩ | ⟨he, hk⟩) | ⟨he, hk⟩) | ⟨he, hk⟩) | ⟨he, hk⟩) |
                ⟨he, hk⟩) | ⟨he, hk⟩) | ⟨he, hk⟩) | ⟨he, hk⟩)
            · exact le_min_step ⟨a00, a01, a02, a10, a11, a12, a20, a21, a22⟩ cnt d fuel' k 1 1
                (by decide) (by decide) hw hfull hd he hf
                (fun hf' => ih (Cells3.set ⟨a00, a01, a02, a10, a11, a12, a20, a21, a22⟩ 1 1 .X)
                  (cnt + 1) (d + 1) false k hk fuel' hf')
            · exact le_min_step ⟨a00, a01, a02, a10, a11, a12, a20, a21, a22⟩ cnt d fuel' k 0 0
                (by decide) (by decide) hw hfull hd he hf
                (fun hf' => ih (Cells3.set ⟨a00, a01, a02, a10, a11, a12, a20, a21, a22⟩ 0 0 .X)
                  (cnt + 1) (d + 1) false k hk fuel' hf')
            · exact le_min_step ⟨a00, a01, a02, a10, a11, a12, a20, a21, a22⟩ cnt d fuel' k 0 2
                (by decide) (by decide) hw hfull hd he hf
                (fun hf' => ih (Cells3.set ⟨a00, a01, a02, a10, a11, a12, a20, a21, a22⟩ 0 2 .X)
                  (cnt + 1) (d + 1) false k hk fuel' hf')
            · exact le_min_step ⟨a00, a01, a02, a10, a11, a12, a20, a21, a22⟩ cnt d fuel' k 2 0
                (by decide) (by decide) hw hfull hd he hf
                (fun hf' => ih (Cells3.set ⟨a00, a01, a02, a10, a11, a12, a20, a21, a22⟩ 2 0 .X)
                  (cnt + 1) (d + 1) false k hk fuel' hf')
            · exact le_min_step ⟨a00, a01, a02, a10, a11, a12, a20, a21, a22⟩ cnt d fuel' k 2 2
                (by decide) (by decide) hw hfull hd he hf
                (fun hf' => ih (Cells3.set ⟨a00, a01, a02, a10, a11, a12, a20, a21, a22⟩ 2 2 .X)
                  (cnt + 1) (d + 1) false k hk fuel' hf')
            · exact le_min_step ⟨a00, a01, a02, a10, a11, a12, a20, a21, a22⟩ cnt d fuel' k 0 1
                (by decide) (by decide) hw hfull hd he hf
                (fun hf' => ih (Cells3.set ⟨a00, a01, a02, a10, a11, a12, a20, a21, a22⟩ 0 1 .X)
                  (cnt + 1) (d + 1) false k hk fuel' hf')
            · exact le_min_step ⟨a00, a01, a02, a10, a11, a12, a20, a21, a22⟩ cnt d fuel' k 1 0
                (by decide) (by decide) hw hfull hd he hf
                (fun hf' => ih (Cells3.set ⟨a00, a01, a02, a10, a11, a12, a20, a21, a22⟩ 1 0 .X)
                  (cnt + 1) (d + 1) false k hk fuel' hf')
            · exact le_min_step ⟨a00, a01, a02, a10, a11, a12, a20, a21, a22⟩ cnt d fuel' k 1 2
                (by decide) (by decide) hw hfull hd he hf
                (fun hf' => ih (Cells3.set ⟨a00, a01, a02, a10, a11, a12, a20, a21, a22⟩ 1 2 .X)
                  (cnt + 1) (d + 1) false k hk fuel' hf')
            · exact le_min_step ⟨a00, a01, a02, a10, a11, a12, a20, a21, a22⟩ cnt d fuel' k 2 1
                (by decide) (by decide) hw hfull hd he hf
                (fun hf' => ih (Cells3.set ⟨a00, a01, a02, a10, a11, a12, a20, a21, a22⟩ 2 1 .X)
                  (cnt + 1) (d + 1) false k hk fuel' hf')

theorem scoreGe_sound (fuelC : Nat) : ∀ (c : Cells3) (cnt d : Nat) (p : Bool) (k : Int),
    scoreGeC fuelC c cnt d p k = true →
    ∀ fuel, emptyCount (c.toBoard cnt) < fuel → k ≤ value fuel (d : Int) p (c.toBoard cnt) := by
  induction fuelC with
  | zero =>
    intro c cnt d p k h
    simp [scoreGeC, scoreGe] at h
  | succ n ih =>
    intro c cnt d p k h fuel hf
    obtain ⟨a00, a01, a02, a10, a11, a12, a20, a21, a22⟩ := c
    cases fuel with
    | zero => omega
    | succ fuel' =>
      unfold scoreGeC at h
      simp only [] at h
      rw [scoreGe, Bool.and_eq_true] at h
      obtain ⟨hd, h⟩ := h
      have hd : d ≤ 9 := Nat.le_of_ble_eq_true hd
      by_cases hw : win9 a00 a01 a02 a10 a11 a12 a20 a21 a22 = true
      · rw [if_pos hw] at h
        rw [value_won3 ⟨a00, a01, a02, a10, a11, a12, a20, a21, a22⟩ cnt d p fuel' hw hd]
        cases p
        · simpa using h
        · simpa using h
      · rw [if_neg hw] at h
        simp only [Bool.not_eq_true] at hw
        by_cases hfull : Nat.ble 9 cnt = true
        · rw [if_pos hfull] at h
          rw [value_full3 ⟨a00, a01, a02, a10, a11, a12, a20, a21, a22⟩ cnt d p fuel' hw hfull]
          simpa using h
        · rw [if_neg hfull] at h
          simp only [Bool.not_eq_true] at hfull
          cases p
          · -- player two moves: one child at least k is enough
            rw [if_neg (by decide)] at h
            simp only [Bool.or_eq_true, Bool.and_eq_true] at h
            rcases h with
              ((((((((⟨he, hk⟩ | ⟨he, hk⟩) | ⟨he, hk⟩) | ⟨he, hk⟩) | ⟨he, hk⟩) |
                ⟨he, hk⟩) | ⟨he, hk⟩) | ⟨he, hk⟩) | ⟨he, hk⟩)
            · exact ge_max_step ⟨a00, a01, a02, a10, a11, a12, a20, a21, a22⟩ cnt d fuel' k 1 1
                (by decide) (by decide) hw hfull hd he hf
                (fun hf' => ih (Cells3.set ⟨a00, a01, a02, a10, a11, a12, a20, a21, a22⟩ 1 1 .O)
                  (cnt + 1) (d + 1) true k hk fuel' hf')
            · exact ge_max_step ⟨a00, a01, a02, a10, a11, a12, a20, a21, a22⟩ cnt d fuel' k 0 0
                (by decide) (by decide) hw hfull hd he hf
                (fun hf' => ih (Cells3.set ⟨a00, a01, a02, a10, a11, a12, a20, a21, a22⟩ 0 0 .O)
                  (cnt + 1) (d + 1) true k hk fuel' hf')
            · exact ge_max_step ⟨a00, a01, a02, a10, a11, a12, a20, a21, a22⟩ cnt d fuel' k 0 2
                (by decide) (by decide) hw hfull hd he hf
                (fun hf' => ih (Cells3.set ⟨a00, a01, a02, a10, a11, a12, a20, a21, a22⟩ 0 2 .O)
                  (cnt + 1) (d + 1) true k hk fuel' hf')
            · exact ge_max_step ⟨a00, a01, a02, a10, a11, a12, a20, a21, a22⟩ cnt d fuel' k 2 0
                (by decide) (by decide) hw hfull hd he hf
                (fun hf' => ih (Cells3.set ⟨a00, a01, a02, a10, a11, a12, a20, a21, a22⟩ 2 0 .O)
                  (cnt + 1) (d + 1) true k hk fuel' hf')
            · exact ge_max_step ⟨a00, a01, a02, a10, a11, a12, a20, a21, a22⟩ cnt d fuel' k 2 2
                (by decide) (by decide) hw hfull hd he hf
                (fun hf' => ih (Cells3.set ⟨a00, a01, a02, a10, a11, a12, a20, a21, a22⟩ 2 2 .O)
                  (cnt + 1) (d + 1) true k hk fuel' hf')
            · exact ge_max_step ⟨a00, a01, a02, a10, a11, a12, a20, a21, a22⟩ cnt d fuel' k 0 1
                (by decide) (by decide) hw hfull hd he hf
                (fun hf' => ih (Cells3.set ⟨a00, a01, a02, a10, a11, a12, a20, a21, a22⟩ 0 1 .O)
                  (cnt + 1) (d + 1) true k hk fuel' hf')
            · exact ge_max_step ⟨a00, a01, a02, a10, a11, a12, a20, a21, a22⟩ cnt d fuel' k 1 0
                (by decide) (by decide) hw hfull hd he hf
                (fun hf' => ih (Cells3.set ⟨a00, a01, a02, a10, a11, a12, a20, a21, a22⟩ 1 0 .O)
                  (cnt + 1) (d + 1) true k hk fuel' hf')
            · exact ge_max_step ⟨a00, a01, a02, a10, a11, a12, a20, a21, a22⟩ cnt d fuel' k 1 2
                (by decide) (by decide) hw hfull hd he hf
                (fun hf' => ih (Cells3.set ⟨a00, a01, a02, a10, a11, a12, a20, a21, a22⟩ 1 2 .O)
                  (cnt + 1) (d + 1) true k hk fuel' hf')
            · exact ge_max_step ⟨a00, a01, a02, a10, a11, a12, a20, a21, a22⟩ cnt d fuel' k 2 1
                (by decide) (by decide) hw hfull hd he hf
                (fun hf' => ih (Cells3.set ⟨a00, a01, a02, a10, a11, a12, a20, a21, a22⟩ 2 1 .O)
                  (cnt + 1) (d + 1) true k hk fuel' hf')
          · -- player one moves: every child is at least k
            rw [if_pos rfl] at h
            simp only [Bool.and_eq_true, Bool.or_eq_true, Bool.not_eq_true',
              decide_eq_true_eq] at h
            obtain ⟨hk0, h⟩ := h
            obtain ⟨⟨⟨⟨⟨⟨⟨⟨h0, h1⟩, h2⟩, h3⟩, h4⟩, h5⟩, h6⟩, h7⟩, h8⟩ := h
            apply ge_min_step ⟨a00, a01, a02, a10, a11, a12, a20, a21, a22⟩ cnt d fuel' k
              hw hfull hd hk0 hf
            intro x y hx hy he hf'
            interval_cases x <;> interval_cases y
            · exact ih (Cells3.set ⟨a00, a01, a02, a10, a11, a12, a20, a21, a22⟩ 0 0 .X)
                (cnt + 1) (d + 1) false k (resolve_isE h0 he) fuel' hf'
            · exact ih (Cells3.set ⟨a00, a01, a02, a10, a11, a12, a20, a21, a22⟩ 0 1 .X)
                (cnt + 1) (d + 1) false k (resolve_isE h1 he) fuel' hf'
            · exact ih (Cells3.set ⟨a00, a01, a02, a10, a11, a12, a20, a21, a22⟩ 0 2 .X)
                (cnt + 1) (d + 1) false k (resolve_isE h2 he) fuel' hf'
            · exact ih (Cells3.set ⟨a00, a01, a02, a10, a11, a12, a20, a21, a22⟩ 1 0 .X)
                (cnt + 1) (d + 1) false k (resolve_isE h3 he) fuel' hf'
            · exact ih (Cells3.set ⟨a00, a01, a02, a10, a11, a12, a20, a21, a22⟩ 1 1 .X)
                (cnt + 1) (d + 1) false k (resolve_isE h4 he) fuel' hf'
            · exact ih (Cells3.set ⟨a00, a01, a02, a10, a11, a12, a20, a21, a22⟩ 1 2 .X)
                (cnt + 1) (d + 1) false k (resolve_isE h5 he) fuel' hf'
            · exact ih (Cells3.set ⟨a00, a01, a02, a10, a11, a12, a20, a21, a22⟩ 2 0 .X)
                (cnt + 1) (d + 1) false k (resolve_isE h6 he) fuel' hf'
            · exact ih (Cells3.set ⟨a00, a01, a02, a10, a11, a12, a20, a21, a22⟩ 2 1 .X)
                (cnt + 1) (d + 1) false k (resolve_isE h7 he) fuel' hf'
            · exact ih (Cells3.set ⟨a00, a01, a02, a10, a11, a12, a20, a21, a22⟩ 2 2 .X)
                (cnt + 1) (d + 1) false k (resolve_isE h8 he) fuel' hf'

theorem mem_cells3 (a : Nat × Nat) (h1 : a.1 < 3) (h2 : a.2 < 3) : a ∈ cells3 := by
  obtain ⟨i, j⟩ := a
  simp only [] at h1 h2
  interval_cases i <;> interval_cases j <;> simp [cells3]

/-- Score that `getBestMove` gives a cell of a 3×3 position, bounded by the
two tests. -/
theorem moveScore_le3 (c : Cells3) (cnt : Nat) (p : Bool) (x y : Nat) (k : Int)
    (hx : x < 3) (hy : y < 3) (hcnt : cnt < 9) (he : (c.get x y).isE = true)
    (h : scoreLeC 10 (c.set x y (markOf p)) (cnt + 1) 0 (!p) k = true)
    (fuel : Nat) (hf : 9 ≤ fuel) :
    moveScore fuel p (c.toBoard cnt) x y ≤ k := by
  have he' : (c.toBoard cnt).isFieldEmpty x y = true := by rw [toBoard_isFieldEmpty]; exact he
  have hpl := toBoard_place c cnt p x y hx hy (by unfold SIZE_MOD; omega)
  have hE := emptyCount_place p (c.toBoard cnt) x y hx hy he'
  have hle := emptyCount_le (c.toBoard cnt)
  rw [hpl] at hE
  have := scoreLe_sound 10 (c.set x y (markOf p)) (cnt + 1) 0 (!p) k h fuel (by omega)
  unfold moveScore
  rw [hpl]
  simpa using this

theorem moveScore_ge3 (c : Cells3) (cnt : Nat) (p : Bool) (x y : Nat) (k : Int)
    (hx : x < 3) (hy : y < 3) (hcnt : cnt < 9) (he : (c.get x y).isE = true)
    (h : scoreGeC 10 (c.set x y (markOf p)) (cnt + 1) 0 (!p) k = true)
    (fuel : Nat) (hf : 9 ≤ fuel) :
    k ≤ moveScore fuel p (c.toBoard cnt) x y := by
  have he' : (c.toBoard cnt).isFieldEmpty x y = true := by rw [toBoard_isFieldEmpty]; exact he
  have hpl := toBoard_place c cnt p x y hx hy (by unfold SIZE_MOD; omega)
  have hE := emptyCount_place p (c.toBoard cnt) x y hx hy he'
  have hle := emptyCount_le (c.toBoard cnt)
  rw [hpl] at hE
  have := scoreGe_sound 10 (c.set x y (markOf p)) (cnt + 1) 0 (!p) k h fuel (by omega)
  unfold moveScore
  rw [hpl]
  simpa using this

/-- When `bestCheck` accepts the cell `(x, y)`, that cell is the choice of
`getBestMove` on the position. -/
theorem bestCheck_sound (c : Cells3) (cnt : Nat) (p : Bool) (x y : Nat) (s : Int)
    (hx : x < 3) (hy : y < 3) (hcnt : cnt < 9) (h : bestCheck c cnt p x y s = true)
    (fuel : Nat) (hf : 9 ≤ fuel) :
    bestMove fuel p (c.toBoard cnt) = ((x : Int), (y : Int)) := by
  unfold bestCheck at h
  simp only [Bool.and_eq_true, decide_eq_true_eq, List.all_eq_true, Bool.or_eq_true,
    Bool.not_eq_true', beq_iff_eq] at h
  obtain ⟨⟨⟨⟨he, hs⟩, hle⟩, hge⟩, hall⟩ := h
  have he' : (c.toBoard cnt).isFieldEmpty x y = true := by rw [toBoard_isFieldEmpty]; exact he
  have hsc : moveScore fuel p (c.toBoard cnt) x y = s :=
    le_antisymm (moveScore_le3 c cnt p x y s hx hy hcnt he hle fuel hf)
      (moveScore_ge3 c cnt p x y s hx hy hcnt he hge fuel hf)
  have hothers : ∀ a ∈ scanOrder 3, (c.toBoard cnt).isFieldEmpty a.1 a.2 = true →
      a ≠ (x, y) →
      moveScore fuel p (c.toBoard cnt) a.1 a.2 ≤
        (if a.1 < x ∨ (a.1 = x ∧ a.2 < y) then s - 1 else s) := by
    intro a ha hea hne
    have hin := (mem_scanOrder a).1 ha
    rw [toBoard_isFieldEmpty] at hea
    rcases hall a (mem_cells3 a hin.1 hin.2) with (h1 | h1) | h1
    · rw [hea] at h1; cases h1
    · exact absurd (Prod.ext h1.1 h1.2) hne
    · exact moveScore_le3 c cnt p a.1 a.2 _ hin.1 hin.2 hcnt hea h1 fuel hf
  obtain ⟨m, hm, hem, hbest, hmax, hfirst⟩ := bestMove_spec fuel p (c.toBoard cnt)
    ⟨(x, y), (mem_scanOrder (x, y)).2 ⟨hx, hy⟩, he', by rw [hsc]; unfold INT_MIN; exact hs⟩
  have hxy : m = (x, y) := by
    by_contra hne
    have h1 := hothers m hm hem hne
    have h2 := hmax (x, y) ((mem_scanOrder (x, y)).2 ⟨hx, hy⟩) he'
    rw [hsc] at h2
    by_cases hb : m.1 < x ∨ (m.1 = x ∧ m.2 < y)
    · rw [if_pos hb] at h1
      omega
    · rw [if_neg hb] at h1
      have hb' : scansBefore (x, y) m := by
        unfold scansBefore
        have : ¬ (m.1 = x ∧ m.2 = y) := fun e => hne (Prod.ext e.1 e.2)
        simp only []
        omega
      have h3 := hfirst (x, y) ((mem_scanOrder (x, y)).2 ⟨hx, hy⟩) he' hb'
      rw [hsc] at h3
      omega
  rw [hbest, hxy]
  simp only []
  rw [intOfSize_of_lt x (by omega), intOfSize_of_lt y (by omega)]

/-! ## The game loop on 3×3 positions -/

theorem sizeOfInt_natCast (n : Nat) (h : n < SIZE_MOD) : sizeOfInt (n : Int) = n := by
  unfold sizeOfInt
  unfold SIZE_MOD at h
  omega

/-- One iteration of the loop of `run` on a position where `bestCheck`
accepts the cell `(x, y)`: the mover's mark is placed there. -/
theorem run_step (fuel steps : Nat) (p : Bool) (c : Cells3) (cnt x y : Nat) (s : Int)
    (hx : x < 3) (hy : y < 3) (hcnt : cnt < 9) (hw : win3 c = false)
    (h : bestCheck c cnt p x y s = true) (hf : 9 ≤ fuel) :
    run fuel (steps + 1) p (c.toBoard cnt) =
      run fuel steps (!p) ((c.set x y (markOf p)).toBoard (cnt + 1)) := by
  have hg : (c.toBoard cnt).isGameEnd = false := by rw [toBoard_isGameEnd]; exact hw
  have hnf : (c.toBoard cnt).isFull = false := by
    rw [toBoard_isFull, Bool.eq_false_iff]
    intro hb
    have := Nat.le_of_ble_eq_true hb
    omega
  have hle := emptyCount_le (c.toBoard cnt)
  have hbm := getBestMove_eq_bestMove fuel p (c.toBoard cnt) (toBoard_cellsValid c cnt)
    (by show cnt < SIZE_MOD; unfold SIZE_MOD; omega) (by omega)
  rw [bestCheck_sound c cnt p x y s hx hy hcnt h fuel hf] at hbm
  have hpl := toBoard_place c cnt p x y hx hy (by unfold SIZE_MOD; omega)
  rw [run]
  simp only [hg, hnf, Bool.not_false, Bool.and_self, if_true, hbm, Option.bind_eq_bind,
    Option.some_bind, sizeOfInt_natCast x (by unfold SIZE_MOD; omega),
    sizeOfInt_natCast y (by unfold SIZE_MOD; omega)]
  rw [← hpl]
  rfl

/-- The loop of `run` stops on a position with a completed line. -/
theorem run_stop (fuel steps : Nat) (p : Bool) (c : Cells3) (cnt : Nat)
    (hw : win3 c = true) :
    run fuel (steps + 1) p (c.toBoard cnt) = some (c.toBoard cnt) := by
  have hg : (c.toBoard cnt).isGameEnd = true := by rw [toBoard_isGameEnd]; exact hw
  rw [run]
  simp [hg]

theorem toBoard_cellsEmpty : cellsEmpty.toBoard 0 = Board.empty 3 := by
  apply board_eq
  · funext x y
    simp only [Cells3.toBoard, Board.empty]
    unfold Cells3.get
    split <;> rfl
  · rfl

theorem toBoard_cellsSelfPlayEnd : cellsSelfPlayEnd.toBoard 6 = selfPlayEnd := by
  apply board_eq
  · funext x y
    rcases x with _ | _ | _ | x <;> rcases y with _ | _ | _ | y <;> rfl
  · rfl

/-! ## The empty 3×3 board -/

set_option maxRecDepth 1000000 in
set_option maxHeartbeats 4000000 in
theorem scoreLe_cellsEmpty : scoreLeC 10 cellsEmpty 0 0 true 0 = true := by
  decide!

set_option maxRecDepth 1000000 in
set_option maxHeartbeats 4000000 in
theorem scoreGe_cellsEmpty : scoreGeC 10 cellsEmpty 0 0 true 0 = true := by
  decide!

/-- C8. For `N = 3`, `minimax(0, true)` on the empty board returns 0 and
leaves the board empty (for every fuel of at least 10, one more than the
number of cells). -/
theorem minimax_empty_board_draw (k : Nat) :
    minimax (k + 10) 0 true (Board.empty 3) = some (0, Board.empty 3) := by
  have hle := emptyCount_le (Board.empty 3)
  have h1 := scoreLe_sound 10 cellsEmpty 0 0 true 0 scoreLe_cellsEmpty (k + 10)
    (by rw [toBoard_cellsEmpty]; omega)
  have h2 := scoreGe_sound 10 cellsEmpty 0 0 true 0 scoreGe_cellsEmpty (k + 10)
    (by rw [toBoard_cellsEmpty]; omega)
  rw [toBoard_cellsEmpty] at h1 h2
  simp only [Nat.cast_zero] at h1 h2
  rw [minimax_eq_value (k + 10) 0 true (Board.empty 3) (cellsValid_empty 3) (by decide)
    (by omega), le_antisymm h1 h2]

/-! ## Self-play from the empty 3×3 board -/

set_option maxRecDepth 1000000 in
set_option maxHeartbeats 4000000 in
theorem selfPlay_check0 : bestCheck cellsEmpty 0 true 0 0 0 = true := by
  decide!

set_option maxRecDepth 1000000 in
set_option maxHeartbeats 4000000 in
theorem selfPlay_check1 :
    bestCheck ⟨.X, .E, .E, .E, .E, .E, .E, .E, .E⟩ 1 false 1 1 0 = true := by
  decide!

set_option maxRecDepth 1000000 in
set_option maxHeartbeats 4000000 in
theorem selfPlay_check2 :
    bestCheck ⟨.X, .E, .E, .E, .O, .E, .E, .E, .E⟩ 2 true 0 1 0 = true := by
  decide!

set_option maxRecDepth 1000000 in
set_option maxHeartbeats 4000000 in
theorem selfPlay_check3 :
    bestCheck ⟨.X, .X, .E, .E, .O, .E, .E, .E, .E⟩ 3 false 0 2 0 = true := by
  decide!

set_option maxRecDepth 1000000 in
set_option maxHeartbeats 4000000 in
theorem selfPlay_check4 :
    bestCheck ⟨.X, .X, .O, .E, .O, .E, .E, .E, .E⟩ 4 true 1 0 8 = true := by
  decide!

set_option maxRecDepth 1000000 in
set_option maxHeartbeats 4000000 in
theorem selfPlay_check5 :
    bestCheck ⟨.X, .X, .O, .X, .O, .E, .E, .E, .E⟩ 5 false 2 0 9 = true := by
  decide!

/-- C9, the code on the claim's input: from the empty 3×3 board with player
one to move, the game loop of `run(true)` (every fuel of at least 9, at
least 7 loop iterations allowed) plays X (0,0), O (1,1), X (0,1), O (0,2),
X (1,0), O (2,0) and stops on `selfPlayEnd`: player two holds the
anti-diagonal, `isGameEnd()` is true and `isFull()` is false.  The game is
not a draw: on its turns player one takes the cell of largest score, the
cell best for player two (at the fifth move `(1, 0)`, of score 8, which
leaves `(2, 0)` to player two). -/
theorem run_self_play_player_two_wins (k j : Nat) :
    run (k + 9) (j + 7) true (Board.empty 3) = some selfPlayEnd ∧
      selfPlayEnd.isGameEnd = true ∧ selfPlayEnd.isFull = false ∧
      selfPlayEnd.getField 0 2 = Board.P2 ∧ selfPlayEnd.getField 1 1 = Board.P2 ∧
      selfPlayEnd.getField 2 0 = Board.P2 := by
  have h0 : run (k + 9) (j + 7) true (cellsEmpty.toBoard 0) =
      run (k + 9) (j + 6) false
        (Cells3.toBoard ⟨.X, .E, .E, .E, .E, .E, .E, .E, .E⟩ 1) :=
    run_step (k + 9) (j + 6) true cellsEmpty 0 0 0 0 (by decide) (by decide) (by decide)
      (by decide) selfPlay_check0 (by omega)
  have h1 : run (k + 9) (j + 6) false
        (Cells3.toBoard ⟨.X, .E, .E, .E, .E, .E, .E, .E, .E⟩ 1) =
      run (k + 9) (j + 5) true
        (Cells3.toBoard ⟨.X, .E, .E, .E, .O, .E, .E, .E, .E⟩ 2) :=
    run_step (k + 9) (j + 5) false _ 1 1 1 0 (by decide) (by decide) (by decide)
      (by decide) selfPlay_check1 (by omega)
  have h2 : run (k + 9) (j + 5) true
        (Cells3.toBoard ⟨.X, .E, .E, .E, .O, .E, .E, .E, .E⟩ 2) =
      run (k + 9) (j + 4) false
        (Cells3.toBoard ⟨.X, .X, .E, .E, .O, .E, .E, .E, .E⟩ 3) :=
    run_step (k + 9) (j + 4) true _ 2 0 1 0 (by decide) (by decide) (by decide)
      (by decide) selfPlay_check2 (by omega)
  have h3 : run (k + 9) (j + 4) false
        (Cells3.toBoard ⟨.X, .X, .E, .E, .O, .E, .E, .E, .E⟩ 3) =
      run (k + 9) (j + 3) true
        (Cells3.toBoard ⟨.X, .X, .O, .E, .O, .E, .E, .E, .E⟩ 4) :=
    run_step (k + 9) (j + 3) false _ 3 0 2 0 (by decide) (by decide) (by decide)
      (by decide) selfPlay_check3 (by omega)
  have h4 : run (k + 9) (j + 3) true
        (Cells3.toBoard ⟨.X, .X, .O, .E, .O, .E, .E, .E, .E⟩ 4) =
      run (k + 9) (j + 2) false
        (Cells3.toBoard ⟨.X, .X, .O, .X, .O, .E, .E, .E, .E⟩ 5) :=
    run_step (k + 9) (j + 2) true _ 4 1 0 8 (by decide) (by decide) (by decide)
      (by decide) selfPlay_check4 (by omega)
  have h5 : run (k + 9) (j + 2) false
        (Cells3.toBoard ⟨.X, .X, .O, .X, .O, .E, .E, .E, .E⟩ 5) =
      run (k + 9) (j + 1) true (cellsSelfPlayEnd.toBoard 6) :=
    run_step (k + 9) (j + 1) false _ 5 2 0 9 (by decide) (by decide) (by decide)
      (by decide) selfPlay_check5 (by omega)
  have h6 : run (k + 9) (j + 1) true (cellsSelfPlayEnd.toBoard 6) =
      some (cellsSelfPlayEnd.toBoard 6) :=
    run_stop (k + 9) j true cellsSelfPlayEnd 6 (by decide)
  refine ⟨?_, by decide, by decide, by decide, by decide, by decide⟩
  rw [← toBoard_cellsEmpty, h0, h1, h2, h3, h4, h5, h6, toBoard_cellsSelfPlayEnd]

/-! ## Boards larger than `INT_MAX` cells -/

theorem bigWon_isGameEnd : bigWon.isGameEnd = true := by
  have h : bigWon.isWinInColumn = true :=
    (isWinInColumn_iff bigWon).2 ⟨0, by norm_num, 'X', Or.inl rfl, fun _ _ => rfl⟩
  unfold Board.isGameEnd
  rw [h]
  rfl

/-- C7, the claim as stated fails: on the board `bigWon` of size
`N * N = 2147488281`, which has a completed line, `minimax(0, true)` returns
`-2147479015`, the value `N * N - 0` narrowed to `int`, not `N * N - 0`. -/
theorem minimax_terminal_counterexample :
    bigWon.isGameEnd = true ∧
      minimax 1 0 true bigWon = some (-2147479015, bigWon) ∧
      ((46341 * 46341 : Nat) : Int) - 0 = 2147488281 := by
  refine ⟨bigWon_isGameEnd, ?_, by norm_num⟩
  unfold minimax
  simp only [bigWon_isGameEnd, if_true]
  have h : intOfSize (sizeSub bigWon.getMaxDepth (sizeOfInt 0)) = -2147479015 := by
    decide
  rw [h]

theorem parity_marks_ne (i : Nat) (m : Char)
    (h1 : (if (i + 1) % 2 = 0 then 'X' else 'O') = m)
    (h2 : (if (i + 2) % 2 = 0 then 'X' else 'O') = m) : False := by
  by_cases hp : (i + 1) % 2 = 0
  · have hq : ¬ (i + 2) % 2 = 0 := by omega
    rw [if_pos hp] at h1
    rw [if_neg hq] at h2
    rw [← h1] at h2
    exact absurd h2 (by decide)
  · have hq : (i + 2) % 2 = 0 := by omega
    rw [if_neg hp] at h1
    rw [if_pos hq] at h2
    rw [← h1] at h2
    exact absurd h2 (by decide)

/-- A 46341×46341 board with `board_[0][0]` empty, `board_[0][1..]` all P2 and
a checkerboard on the cells with both indices positive has no completed
line, whatever the cells `board_[1..][0]` hold. -/
theorem noLine_of_shape (b : Board 46341) (h00 : b.board_ 0 0 = ' ')
    (h0 : ∀ y, 1 ≤ y → b.board_ 0 y = 'O')
    (h : ∀ x y, 1 ≤ x → 1 ≤ y → b.board_ x y = if (x + y) % 2 = 0 then 'X' else 'O') :
    b.isGameEnd = false := by
  rw [Bool.eq_false_iff]
  intro hg
  unfold Board.isGameEnd at hg
  simp only [Bool.or_eq_true] at hg
  have hE : ∀ m : Char, (m = Board.P1 ∨ m = Board.P2) → ' ' = m → False := by
    intro m hm he
    rcases hm with rfl | rfl <;> exact absurd he (by decide)
  rcases hg with (hg | hg) | hg
  · obtain ⟨i, hi, m, hm, hall⟩ := (isWinInColumn_iff b).1 hg
    by_cases hi0 : i = 0
    · subst hi0
      have := hall 0 (by norm_num)
      rw [h00] at this
      exact hE m hm this
    · have e1 := hall 1 (by norm_num)
      have e2 := hall 2 (by norm_num)
      rw [h i 1 (by omega) (by norm_num)] at e1
      rw [h i 2 (by omega) (by norm_num)] at e2
      exact parity_marks_ne i m e1 e2
  · obtain ⟨i, hi, m, hm, hall⟩ := (isWinInRow_iff b).1 hg
    by_cases hi0 : i = 0
    · subst hi0
      have := hall 0 (by norm_num)
      rw [h00] at this
      exact hE m hm this
    · have e1 := hall 1 (by norm_num)
      have e2 := hall 2 (by norm_num)
      rw [h 1 i (by norm_num) (by omega)] at e1
      rw [h 2 i (by norm_num) (by omega)] at e2
      rw [Nat.add_comm 1 i] at e1
      rw [Nat.add_comm 2 i] at e2
      exact parity_marks_ne i m e1 e2
  · rcases (isWinInDiagonal_iff (by norm_num) b).1 hg with ⟨m, hm, hall⟩ | ⟨m, hm, hall⟩
    · have := hall 0 (by norm_num)
      rw [h00] at this
      exact hE m hm this
    · have e1 := hall 0 (by norm_num)
      have e2 := hall 1 (by norm_num)
      rw [h0 _ (by norm_num)] at e1
      rw [h 1 _ (by norm_num) (by norm_num)] at e2
      norm_num at e2
      rw [← e1] at e2
      exact absurd e2 (by decide)

theorem bigB_isFieldEmpty (x y : Nat) :
    bigB.isFieldEmpty x y = true ↔ (x = 0 ∧ y = 0) ∨ (x = 1 ∧ y = 0) := by
  unfold Board.isFieldEmpty Board.getField bigB
  simp only []
  by_cases hx : x = 0
  · by_cases hy : y = 0
    · simp [hx, hy, Board.P1, Board.P2]
    · simp [hx, hy, Board.P1, Board.P2]
  · by_cases h1 : x = 1 ∧ y = 0
    · simp [h1, Board.P1, Board.P2]
    · by_cases hp : (x + y) % 2 = 0
      · simp only [hx, h1, hp, if_false, if_true]
        simp [Board.P1, Board.P2, hx, h1]
      · simp only [hx, h1, hp, if_false]
        simp [Board.P1, Board.P2, hx, h1]

theorem bigB_cellsValid : CellsValid bigB := by
  intro x y _ _
  unfold bigB
  simp only []
  split_ifs <;> simp [Board.P1, Board.P2, Board.EMPTY]

theorem bigB_isGameEnd : bigB.isGameEnd = false := by
  apply noLine_of_shape
  · rfl
  · intro y hy
    have : ¬ y = 0 := by omega
    simp [bigB, this]
  · intro x y hx hy
    have h1 : ¬ x = 0 := by omega
    have h2 : ¬ (x = 1 ∧ y = 0) := by omega
    simp [bigB, h1, h2]

theorem bigB_place10_isGameEnd : (place false bigB 1 0).isGameEnd = false := by
  apply noLine_of_shape
  · rw [place_board]; simp [bigB]
  · intro y hy
    have : ¬ y = 0 := by omega
    rw [place_board]
    simp [bigB, this]
  · intro x y hx hy
    have h1 : ¬ x = 0 := by omega
    have h2 : ¬ (x = 1 ∧ y = 0) := by omega
    rw [place_board]
    simp [bigB, h1, h2]

theorem bigB_place00_isGameEnd : (place false bigB 0 0).isGameEnd = true := by
  have h : (place false bigB 0 0).isWinInColumn = true := by
    refine (isWinInColumn_iff _).2 ⟨0, by norm_num, 'O', Or.inr rfl, ?_⟩
    intro j _
    rw [place_board]
    by_cases hj : j = 0
    · simp [hj, Board.P2]
    · simp [hj, bigB]
  unfold Board.isGameEnd
  rw [h]
  rfl

theorem bigB_place10_isFieldEmpty (x y : Nat) :
    (place false bigB 1 0).isFieldEmpty x y = true ↔ (x = 0 ∧ y = 0) := by
  rw [place_isFieldEmpty]
  by_cases h : x = 1 ∧ y = 0
  · simp only [h, and_self, if_true]
    simp
  · rw [if_neg h, bigB_isFieldEmpty]
    constructor
    · rintro (h' | h')
      · exact h'
      · exact absurd h' h
    · exact Or.inl

theorem bigB_emptyCount : emptyCount bigB = 2 := by
  have e1 := emptyCount_place false bigB 1 0 (by norm_num) (by norm_num)
    ((bigB_isFieldEmpty 1 0).2 (Or.inr ⟨rfl, rfl⟩))
  have e2 := emptyCount_place true (place false bigB 1 0) 0 0 (by norm_num) (by norm_num)
    ((bigB_place10_isFieldEmpty 0 0).2 ⟨rfl, rfl⟩)
  have e3 : emptyCount (place true (place false bigB 1 0) 0 0) = 0 := by
    unfold emptyCount
    rw [List.countP_eq_zero]
    intro c _
    rw [place_isFieldEmpty]
    by_cases h : c.1 = 0 ∧ c.2 = 0
    · simp [h]
    · rw [if_neg h]
      intro he
      exact h ((bigB_place10_isFieldEmpty c.1 c.2).1 he)
  omega

theorem bigB_consistent : Consistent bigB := by
  have h1 := emptyCount_add_occupiedCount bigB
  rw [bigB_emptyCount] at h1
  unfold Consistent
  show 2147488279 = occupiedCount bigB
  omega

/-- Score of the cell `(0, 0)`, which completes `board_[0][0..]` for player
two: `N * N = 2147488281` narrowed to `int`. -/
theorem bigB_score00 : moveScore 3 false bigB 0 0 = -2147479015 := by
  unfold moveScore
  rw [value_succ]
  simp only [bigB_place00_isGameEnd, if_true, Bool.not_false]
  decide

/-- Score of the cell `(1, 0)`, which completes no line. -/
theorem bigB_score10 : 0 ≤ moveScore 3 false bigB 1 0 := by
  unfold moveScore
  have hnf : (place false bigB 1 0).isFull = false := by decide
  have he : (place false bigB 1 0).isFieldEmpty 0 0 = true :=
    (bigB_place10_isFieldEmpty 0 0).2 ⟨rfl, rfl⟩
  have hchild : value 2 (intAdd 0 1) false (place true (place false bigB 1 0) 0 0) = 0 ∨
      value 2 (intAdd 0 1) false (place true (place false bigB 1 0) 0 0) = 2147479016 := by
    rw [value_succ]
    have hfull : (place true (place false bigB 1 0) 0 0).isFull = true := by decide
    by_cases hg : (place true (place false bigB 1 0) 0 0).isGameEnd = true
    · right
      simp only [hg, if_true, Bool.false_eq_true, if_false]
      decide
    · left
      simp only [hg, hfull, Bool.false_eq_true, if_false, if_true]
  simp only [Bool.not_false]
  rw [value_p1_node 2 0 _ bigB_place10_isGameEnd hnf]
  obtain ⟨_, h2, h3⟩ := foldl_min_spec (scanOrder 46341)
    (fun c => (place false bigB 1 0).isFieldEmpty c.1 c.2)
    (fun c => value 2 (intAdd 0 1) false (place true (place false bigB 1 0) c.1 c.2)) INT_MAX
  have h20 := h2 (0, 0) ((mem_scanOrder (0, 0)).2 ⟨by norm_num, by norm_num⟩) he
  rcases h3 with h3 | ⟨c, _, hec, h3⟩
  · have hmax : INT_MAX = 2147483647 := rfl
    rw [h3, hmax] at h20
    simp only [] at h20
    rcases hchild with h | h
    · omega
    · omega
  · have hc := (bigB_place10_isFieldEmpty c.1 c.2).1 hec
    rw [h3, hc.1, hc.2]
    rcases hchild with h | h
    · omega
    · omega


/-- C2, the claim as stated fails: on `bigB` (cells valid, counter
consistent, no completed line, `N * N = 2147488281` above `INT_MAX`) the
empty cell `(0, 0)` completes a line for player two, and its score `N * N`
narrowed to `int` is `-2147479015`; the other empty cell `(1, 0)` completes
no line and scores at least 0; `getBestMove(false)` returns `(1, 0)`. -/
theorem getBestMove_player_two_optimal_counterexample :
    CellsValid bigB ∧ Consistent bigB ∧ bigB.isGameEnd = false ∧
      bigB.isFieldEmpty 0 0 = true ∧ completesLine false bigB 0 0 = true ∧
      getBestMove 3 false bigB = some ((1, 0), bigB) ∧
      completesLine false bigB 1 0 = false := by
  refine ⟨bigB_cellsValid, bigB_consistent, bigB_isGameEnd,
    (bigB_isFieldEmpty 0 0).2 (Or.inl ⟨rfl, rfl⟩), bigB_place00_isGameEnd, ?_,
    bigB_place10_isGameEnd⟩
  rw [getBestMove_eq_bestMove 3 false bigB bigB_cellsValid (by decide)
    (by rw [bigB_emptyCount]; norm_num)]
  have h10 := bigB_score10
  have hlt : INT_MIN < moveScore 3 false bigB 1 0 := by unfold INT_MIN; omega
  obtain ⟨c, hc, hec, hbest, hmax, _⟩ := bestMove_spec 3 false bigB
    ⟨(1, 0), (mem_scanOrder (1, 0)).2 ⟨by norm_num, by norm_num⟩,
      (bigB_isFieldEmpty 1 0).2 (Or.inr ⟨rfl, rfl⟩), hlt⟩
  have hm := hmax (1, 0) ((mem_scanOrder (1, 0)).2 ⟨by norm_num, by norm_num⟩)
    ((bigB_isFieldEmpty 1 0).2 (Or.inr ⟨rfl, rfl⟩))
  rcases (bigB_isFieldEmpty c.1 c.2).1 hec with h | h
  · rw [h.1, h.2, bigB_score00] at hm
    simp only [] at hm
    omega
  · rw [hbest, h.1, h.2]
    rfl

/-! ## Termination of the search on arbitrary boards -/

theorem emptyCount_congr {N : Nat} (a b : Board N)
    (h : ∀ x y, a.isFieldEmpty x y = b.isFieldEmpty x y) : emptyCount a = emptyCount b := by
  unfold emptyCount
  apply List.countP_congr
  intro c _
  rw [h]

theorem clearField_isFieldEmpty {N : Nat} (b : Board N) (x y i j : Nat) :
    (b.clearField x y).isFieldEmpty i j =
      if i = x ∧ j = y then true else b.isFieldEmpty i j := by
  unfold Board.isFieldEmpty Board.getField Board.clearField Board.setField
  by_cases h : i = x ∧ j = y
  · simp [h, Board.P1, Board.P2, Board.EMPTY]
  · simp [h]

/-- Placing a mark on an empty cell and clearing it again leaves the pattern
of empty cells as it was, whatever the boards in between as long as they
keep the pattern. -/
theorem isFieldEmpty_clear_after {N : Nat} (q : Bool) (a r : Board N) (x y : Nat)
    (he : a.isFieldEmpty x y = true)
    (hr : ∀ i j, r.isFieldEmpty i j = (place q a x y).isFieldEmpty i j) (i j : Nat) :
    (r.clearField x y).isFieldEmpty i j = a.isFieldEmpty i j := by
  rw [clearField_isFieldEmpty, hr, place_isFieldEmpty]
  by_cases h : i = x ∧ j = y
  · rw [if_pos h, h.1, h.2, he]
  · rw [if_neg h, if_neg h]

/-- The scan of `minimax` over a list of cells of the array returns, given
that the recursive calls do. -/
theorem minimax_loop_returns {N : Nat} (fuel : Nat) (d : Int) (p q : Bool)
    (comb : Int → Int → Int) (b : Board N)
    (ih : ∀ b' : Board N, emptyCount b' + 1 = emptyCount b →
      ∃ r, minimax fuel d p b' = some r ∧
        ∀ i j, r.2.isFieldEmpty i j = b'.isFieldEmpty i j)
    (l : List (Nat × Nat)) (hl : ∀ c ∈ l, c.1 < N ∧ c.2 < N) (st : Int × Board N)
    (hst : ∀ i j, st.2.isFieldEmpty i j = b.isFieldEmpty i j) :
    ∃ r, l.foldlM
        (fun (st : Int × Board N) (c : Nat × Nat) =>
          if st.2.isFieldEmpty c.1 c.2 then
            (minimax fuel d p (place q st.2 c.1 c.2)).bind
              fun r => some (comb st.1 r.1, r.2.clearField c.1 c.2)
          else some st)
        st = some r ∧ ∀ i j, r.2.isFieldEmpty i j = b.isFieldEmpty i j := by
  induction l generalizing st with
  | nil => exact ⟨st, by simp, hst⟩
  | cons c cs ihl =>
    have hc1 := hl c (List.mem_cons_self c cs)
    have hcs : ∀ c' ∈ cs, c'.1 < N ∧ c'.2 < N := fun c' h => hl c' (List.mem_cons_of_mem c h)
    simp only [List.foldlM_cons]
    by_cases he : st.2.isFieldEmpty c.1 c.2 = true
    · have hE := emptyCount_place q st.2 c.1 c.2 hc1.1 hc1.2 he
      rw [emptyCount_congr st.2 b hst] at hE
      obtain ⟨r, hr, hre⟩ := ih (place q st.2 c.1 c.2) hE
      simp only [he, if_true, hr, Option.bind_eq_bind, Option.some_bind]
      apply ihl hcs
      intro i j
      simp only []
      rw [isFieldEmpty_clear_after q st.2 r.2 c.1 c.2 he hre, hst]
    · simp only [he, Bool.false_eq_true, if_false, Option.bind_eq_bind, Option.some_bind]
      exact ihl hcs st hst

/-- With fuel above the number of empty cells `minimax` returns, on every
board, and the board it leaves has the same empty cells. -/
theorem minimax_returns {N : Nat} (fuel : Nat) (d : Int) (p : Bool) (b : Board N)
    (hf : emptyCount b < fuel) :
    ∃ r, minimax fuel d p b = some r ∧ ∀ i j, r.2.isFieldEmpty i j = b.isFieldEmpty i j := by
  induction fuel generalizing d p b with
  | zero => omega
  | succ fuel ih =>
    unfold minimax
    by_cases hg : b.isGameEnd = true
    · cases p <;> simp [hg]
    · by_cases hfull : b.isFull = true
      · simp [hg, hfull]
      · have hrec : ∀ (d' : Int) (p' : Bool) (b' : Board N),
            emptyCount b' + 1 = emptyCount b →
            ∃ r, minimax fuel d' p' b' = some r ∧
              ∀ i j, r.2.isFieldEmpty i j = b'.isFieldEmpty i j := by
          intro d' p' b' hb'
          exact ih d' p' b' (by omega)
        have hin : ∀ c ∈ scanOrder N, c.1 < N ∧ c.2 < N := fun c h => (mem_scanOrder c).1 h
        cases p
        · simp only [hg, hfull, Bool.false_eq_true, if_false, place_false]
          exact minimax_loop_returns fuel (intAdd d 1) (!false) false max b
            (hrec (intAdd d 1) (!false)) (scanOrder N) hin (INT_MIN, b) (fun _ _ => rfl)
        · simp only [hg, hfull, Bool.false_eq_true, if_false, if_true, place_true]
          exact minimax_loop_returns fuel (intAdd d 1) (!true) true min b
            (hrec (intAdd d 1) (!true)) (scanOrder N) hin (INT_MAX, b) (fun _ _ => rfl)

/-- The scan of `getBestMove` over a list of cells of the array returns. -/
theorem getBestMove_loop_returns {N : Nat} (fuel : Nat) (p : Bool) (b : Board N)
    (hf : emptyCount b ≤ fuel)
    (l : List (Nat × Nat)) (hl : ∀ c ∈ l, c.1 < N ∧ c.2 < N) (st : BestState N)
    (hst : ∀ i j, st.board.isFieldEmpty i j = b.isFieldEmpty i j) :
    ∃ r, l.foldlM
        (fun (st : BestState N) (c : Nat × Nat) =>
          if st.board.isFieldEmpty c.1 c.2 then
            (minimax fuel 0 (!p)
                (if p then st.board.setFieldForP1 c.1 c.2
                 else st.board.setFieldForP2 c.1 c.2)).bind
              fun r =>
                if r.1 > st.best_score then
                  some ⟨intOfSize c.1, intOfSize c.2, r.1, r.2.clearField c.1 c.2⟩
                else
                  some ⟨st.best_x, st.best_y, st.best_score, r.2.clearField c.1 c.2⟩
          else some st)
        st = some r ∧ ∀ i j, r.board.isFieldEmpty i j = b.isFieldEmpty i j := by
  induction l generalizing st with
  | nil => exact ⟨st, by simp, hst⟩
  | cons c cs ihl =>
    have hc1 := hl c (List.mem_cons_self c cs)
    have hcs : ∀ c' ∈ cs, c'.1 < N ∧ c'.2 < N := fun c' h => hl c' (List.mem_cons_of_mem c h)
    simp only [List.foldlM_cons]
    by_cases he : st.board.isFieldEmpty c.1 c.2 = true
    · have hE := emptyCount_place p st.board c.1 c.2 hc1.1 hc1.2 he
      rw [emptyCount_congr st.board b hst] at hE
      obtain ⟨r, hr, hre⟩ := minimax_returns fuel 0 (!p) (place p st.board c.1 c.2) (by omega)
      have hr2 : minimax fuel 0 (!p)
          (if p then st.board.setFieldForP1 c.1 c.2 else st.board.setFieldForP2 c.1 c.2) =
          some r := hr
      simp only [he, if_true, hr2, Option.bind_eq_bind, Option.some_bind]
      have hkeep : ∀ i j, (r.2.clearField c.1 c.2).isFieldEmpty i j = b.isFieldEmpty i j := by
        intro i j
        rw [isFieldEmpty_clear_after p st.board r.2 c.1 c.2 he hre, hst]
      by_cases hgt : r.1 > st.best_score
      · simp only [hgt, if_true]
        exact ihl hcs _ hkeep
      · simp only [hgt, if_false]
        exact ihl hcs _ hkeep
    · simp only [he, Bool.false_eq_true, if_false, Option.bind_eq_bind, Option.some_bind]
      exact ihl hcs st hst

/-- With fuel at least the number of empty cells `getBestMove` returns, on
every board. -/
theorem getBestMove_returns {N : Nat} (fuel : Nat) (p : Bool) (b : Board N)
    (hf : emptyCount b ≤ fuel) : ∃ r, getBestMove fuel p b = some r := by
  unfold getBestMove
  obtain ⟨r, hr, _⟩ := getBestMove_loop_returns fuel p b hf (scanOrder N)
    (fun c h => (mem_scanOrder c).1 h) ⟨-1, -1, INT_MIN, b⟩ (fun _ _ => rfl)
  rw [hr]
  exact ⟨_, rfl⟩

/-- C17. Termination of the search: for every `N` and every board, whatever
its cells and its counter hold, every depth and either player, `minimax` and
`getBestMove` return.  The fuel of `minimax` counts the nested calls: the
call itself and, below it, at most as many levels as the board has empty
cells; `getBestMove` calls `minimax` on boards with one empty cell fewer.
Every recursive call is made on a board with strictly fewer empty cells. -/
theorem search_terminates {N : Nat} (b : Board N) (k : Nat) :
    (∀ (depth : Int) (p : Bool), ∃ r, minimax (emptyCount b + 1 + k) depth p b = some r) ∧
    (∀ p : Bool, ∃ r, getBestMove (emptyCount b + k) p b = some r) ∧
    (∀ x y, x < N → y < N → b.isFieldEmpty x y = true →
      emptyCount (b.setFieldForP1 x y) < emptyCount b ∧
      emptyCount (b.setFieldForP2 x y) < emptyCount b) := by
  refine ⟨?_, ?_, ?_⟩
  · intro depth p
    obtain ⟨r, hr, _⟩ := minimax_returns (emptyCount b + 1 + k) depth p b (by omega)
    exact ⟨r, hr⟩
  · intro p
    exact getBestMove_returns (emptyCount b + k) p b (by omega)
  · intro x y hx hy he
    have h1 := emptyCount_place true b x y hx hy he
    have h2 := emptyCount_place false b x y hx hy he
    rw [← place_true] at h1
    rw [← place_false] at h2
    omega

/-! ## Unbalanced retraction -/

/-- A board on which every cell tests empty has no completed line. -/
theorem isGameEnd_of_all_empty {N : Nat} (b : Board N)
    (h : ∀ x y, b.isFieldEmpty x y = true) : b.isGameEnd = false := by
  unfold Board.isGameEnd Board.isWinInColumn Board.isWinInRow Board.isWinInDiagonal
  simp [h]

/-- C20. Unbalanced retraction wraps the counter: on the freshly constructed
board a single `clearField(x, y)` on a cell of the array takes the counter
from 0 to `2^64 - 1`; after it `isFull()` is true although every cell holds
EMPTY, and `minimax` returns the draw score 0, for every depth and either
player, leaving the board as it is. -/
theorem clearField_fresh_wraps_counter {N : Nat} (x y : Nat) (hx : x < N) (hy : y < N) :
    (Board.empty N).checkedFieldsCount_ = 0 ∧
    ((Board.empty N).clearField x y).checkedFieldsCount_ = 18446744073709551615 ∧
    ((Board.empty N).clearField x y).isFull = true ∧
    (∀ i j, ((Board.empty N).clearField x y).getField i j = Board.EMPTY ∧
      ((Board.empty N).clearField x y).isFieldEmpty i j = true) ∧
    ∀ (fuel : Nat) (depth : Int) (p : Bool),
      minimax (fuel + 1) depth p ((Board.empty N).clearField x y) =
        some (0, (Board.empty N).clearField x y) := by
  have _hin : x < N ∧ y < N := ⟨hx, hy⟩
  have hcnt : ((Board.empty N).clearField x y).checkedFieldsCount_ =
      18446744073709551615 := by
    simp [Board.clearField, Board.setField, Board.empty, SIZE_MOD]
  have hcell : ∀ i j, ((Board.empty N).clearField x y).getField i j = Board.EMPTY := by
    intro i j
    simp [Board.clearField, Board.setField, Board.empty, Board.getField]
  have hemp : ∀ i j, ((Board.empty N).clearField x y).isFieldEmpty i j = true :=
    fun i j => isFieldEmpty_of_eq_EMPTY _ i j (hcell i j)
  have hfull : ((Board.empty N).clearField x y).isFull = true := by
    unfold Board.isFull
    rw [hcnt]
    have : ((Board.empty N).clearField x y).getMaxDepth < SIZE_MOD :=
      Nat.mod_lt _ (by unfold SIZE_MOD; omega)
    unfold SIZE_MOD at this
    simp only [decide_eq_true_eq]
    omega
  refine ⟨rfl, hcnt, hfull, fun i j => ⟨hcell i j, hemp i j⟩, ?_⟩
  intro fuel depth p
  unfold minimax
  simp only [isGameEnd_of_all_empty _ hemp, hfull, Bool.false_eq_true, if_false, if_true]

theorem clearField_fresh_wraps_counter_witness :
    ((Board.empty 3).clearField 1 1).checkedFieldsCount_ = 18446744073709551615 ∧
      ((Board.empty 3).clearField 1 1).isFull = true ∧
      minimax 1 0 true ((Board.empty 3).clearField 1 1) =
        some (0, (Board.empty 3).clearField 1 1) :=
  ⟨(clearField_fresh_wraps_counter 1 1 (by decide) (by decide)).2.1,
    (clearField_fresh_wraps_counter 1 1 (by decide) (by decide)).2.2.1,
    (clearField_fresh_wraps_counter 1 1 (by decide) (by decide)).2.2.2.2 0 0 true⟩

/-! ## Winner attribution -/

theorem isGameEnd_iff_line {N : Nat} (hN : 1 ≤ N) (b : Board N) :
    b.isGameEnd = true ↔ HasCompletedLine b := by
  rw [hasCompletedLine_iff]
  unfold Board.isGameEnd
  simp only [Bool.or_eq_true, isWinInColumn_iff, isWinInRow_iff, isWinInDiagonal_iff hN]
  exact or_assoc

/-- C18. Winner attribution: on a board with no completed line, when
placing the mark of player `p` on an empty cell `(x, y)` of the array makes
`isGameEnd()` true, the resulting board has a completed line, and every
line of it that holds one player's mark in all its cells passes through
`(x, y)` and holds the mark of `p`.  The call `minimax(depth, !p)` on the
resulting board takes the branch of a completed line: the "p1 wins" score
when `p` is player one, the "p2 wins" score when `p` is player two. -/
theorem win_belongs_to_mover {N : Nat} (b : Board N) (hg : b.isGameEnd = false)
    (x y : Nat) (hx : x < N) (hy : y < N) (he : b.isFieldEmpty x y = true) (p : Bool)
    (hw : (place p b x y).isGameEnd = true) :
    HasCompletedLine (place p b x y) ∧
    (∀ line ∈ lines N, ∀ m, (m = Board.P1 ∨ m = Board.P2) →
      (∀ c ∈ line, (place p b x y).board_ c.1 c.2 = m) →
      (x, y) ∈ line ∧ m = (if p then Board.P1 else Board.P2)) ∧
    ∀ (fuel : Nat) (depth : Int),
      minimax (fuel + 1) depth (!p) (place p b x y) =
        some (if p then intOfSize (sizeNeg (sizeSub (place p b x y).getMaxDepth
                (sizeOfInt depth)))
              else intOfSize (sizeSub (place p b x y).getMaxDepth (sizeOfInt depth)),
          place p b x y) := by
  have hN : 1 ≤ N := by
    have := hx
    have := hy
    omega
  have _he := he
  refine ⟨(isGameEnd_iff_line hN _).1 hw, ?_, ?_⟩
  · intro line hline m hm hall
    by_cases hmem : (x, y) ∈ line
    · refine ⟨hmem, ?_⟩
      have := hall (x, y) hmem
      rw [place_board] at this
      simpa using this.symm
    · exfalso
      have hb : HasCompletedLine b := by
        refine ⟨line, hline, m, hm, ?_⟩
        intro c hc
        have := hall c hc
        rw [place_board] at this
        have hne : ¬ (c.1 = x ∧ c.2 = y) := by
          intro e
          apply hmem
          have : c = (x, y) := Prod.ext e.1 e.2
          rw [← this]
          exact hc
        rw [if_neg hne] at this
        exact this
      have := (isGameEnd_iff_line hN b).2 hb
      rw [hg] at this
      exact absurd this (by decide)
  · intro fuel depth
    unfold minimax
    cases p <;> simp [hw]

theorem win_belongs_to_mover_witness :
    HasCompletedLine (place true sampleP1 0 2) ∧
    (∀ line ∈ lines 3, ∀ m, (m = Board.P1 ∨ m = Board.P2) →
      (∀ c ∈ line, (place true sampleP1 0 2).board_ c.1 c.2 = m) →
      (0, 2) ∈ line ∧ m = (if true then Board.P1 else Board.P2)) :=
  ⟨(win_belongs_to_mover sampleP1 (by decide) 0 2 (by decide) (by decide) (by decide) true
      (by decide)).1,
    (win_belongs_to_mover sampleP1 (by decide) 0 2 (by decide) (by decide) (by decide) true
      (by decide)).2.1⟩

/-! ## The counter along the board operations -/

theorem clearField_cellsValid {N : Nat} (b : Board N) (x y : Nat) (hv : CellsValid b) :
    CellsValid (b.clearField x y) := by
  intro i j hi hj
  simp only [Board.clearField, Board.setField]
  by_cases h : i = x ∧ j = y
  · simp [h]
  · simpa [h] using hv i j hi hj

theorem occupiedCount_clearField {N : Nat} (b : Board N) (x y : Nat)
    (hx : x < N) (hy : y < N) (he : b.isFieldEmpty x y = false) :
    occupiedCount (b.clearField x y) + 1 = occupiedCount b := by
  unfold occupiedCount
  apply countP_flip (scanOrder N) (scanOrder_nodup N) (x, y)
  · exact (mem_scanOrder (x, y)).2 ⟨hx, hy⟩
  · simp [he]
  · simp [clearField_isFieldEmpty]
  · intro c hc
    rw [clearField_isFieldEmpty]
    have : ¬ (c.1 = x ∧ c.2 = y) := fun e => hc (Prod.ext e.1 e.2)
    simp [this]

theorem clearField_consistent {N : Nat} (b : Board N) (x y : Nat)
    (hx : x < N) (hy : y < N) (he : b.isFieldEmpty x y = false)
    (hcons : Consistent b) (hlt : N * N < SIZE_MOD) : Consistent (b.clearField x y) := by
  have h1 := emptyCount_add_occupiedCount b
  have h2 := occupiedCount_clearField b x y hx hy he
  unfold Consistent at *
  show (b.checkedFieldsCount_ + (SIZE_MOD - 1)) % SIZE_MOD = occupiedCount (b.clearField x y)
  rw [hcons]
  unfold SIZE_MOD at *
  omega

/-- The scan of `minimax` over a list of cells of the array, when it
returns, leaves the board it started from. -/
theorem minimax_loop_board {N : Nat} (fuel : Nat) (d : Int) (p q : Bool)
    (comb : Int → Int → Int) (b : Board N)
    (hv : CellsValid b) (hc : b.checkedFieldsCount_ < SIZE_MOD)
    (ih : ∀ x y, x < N → y < N → b.isFieldEmpty x y = true →
      ∀ r, minimax fuel d p (place q b x y) = some r → r.2 = place q b x y)
    (l : List (Nat × Nat)) (hl : ∀ c ∈ l, c.1 < N ∧ c.2 < N) (best : Int)
    (r : Int × Board N)
    (h : l.foldlM
        (fun (st : Int × Board N) (c : Nat × Nat) =>
          if st.2.isFieldEmpty c.1 c.2 then
            (minimax fuel d p (place q st.2 c.1 c.2)).bind
              fun r => some (comb st.1 r.1, r.2.clearField c.1 c.2)
          else some st)
        (best, b) = some r) : r.2 = b := by
  induction l generalizing best with
  | nil =>
    simp only [List.foldlM_nil] at h
    cases h
    rfl
  | cons c cs ihl =>
    have hc1 := hl c (List.mem_cons_self c cs)
    have hcs : ∀ c' ∈ cs, c'.1 < N ∧ c'.2 < N := fun c' h => hl c' (List.mem_cons_of_mem c h)
    simp only [List.foldlM_cons] at h
    by_cases he : b.isFieldEmpty c.1 c.2 = true
    · have hE := eq_EMPTY_of_isFieldEmpty b hv c.1 c.2 hc1.1 hc1.2 he
      cases hm : minimax fuel d p (place q b c.1 c.2) with
      | none => simp [he, hm] at h
      | some r' =>
        have hr' := ih c.1 c.2 hc1.1 hc1.2 he r' hm
        simp only [he, if_true, hm, Option.bind_eq_bind, Option.some_bind, hr',
          clearField_place q b c.1 c.2 hE hc] at h
        exact ihl hcs _ h
    · simp only [he, Bool.false_eq_true, if_false, Option.bind_eq_bind, Option.some_bind] at h
      exact ihl hcs _ h

/-- Whatever the fuel, a call of `minimax` that returns leaves the board as
it found it. -/
theorem minimax_some_board {N : Nat} (fuel : Nat) (d : Int) (p : Bool) (b : Board N)
    (hv : CellsValid b) (hc : b.checkedFieldsCount_ < SIZE_MOD)
    (r : Int × Board N) (h : minimax fuel d p b = some r) : r.2 = b := by
  induction fuel generalizing d p b r with
  | zero => simp [minimax] at h
  | succ fuel ih =>
    unfold minimax at h
    by_cases hg : b.isGameEnd = true
    · cases p <;> simp [hg] at h <;> rw [← h]
    · by_cases hfull : b.isFull = true
      · simp [hg, hfull] at h
        rw [← h]
      · have hrec : ∀ (q : Bool) (d' : Int) (p' : Bool) x y, x < N → y < N →
            b.isFieldEmpty x y = true →
            ∀ r, minimax fuel d' p' (place q b x y) = some r → r.2 = place q b x y := by
          intro q d' p' x y _ _ _ r hr
          apply ih d' p' (place q b x y) _ _ r hr
          · exact place_cellsValid q b x y hv
          · rw [place_count]; exact Nat.mod_lt _ (by unfold SIZE_MOD; omega)
        have hin : ∀ c ∈ scanOrder N, c.1 < N ∧ c.2 < N := fun c h => (mem_scanOrder c).1 h
        cases p
        · simp only [hg, hfull, Bool.false_eq_true, if_false, place_false] at h
          exact minimax_loop_board fuel (intAdd d 1) (!false) false max b hv hc
            (hrec false (intAdd d 1) (!false)) (scanOrder N) hin INT_MIN r h
        · simp only [hg, hfull, Bool.false_eq_true, if_false, if_true, place_true] at h
          exact minimax_loop_board fuel (intAdd d 1) (!true) true min b hv hc
            (hrec true (intAdd d 1) (!true)) (scanOrder N) hin INT_MAX r h

/-- The scan of `getBestMove` over a list of cells of the array, when it
returns, leaves the board it started from. -/
theorem getBestMove_loop_board {N : Nat} (fuel : Nat) (p : Bool) (b : Board N)
    (hv : CellsValid b) (hc : b.checkedFieldsCount_ < SIZE_MOD)
    (l : List (Nat × Nat)) (hl : ∀ c ∈ l, c.1 < N ∧ c.2 < N) (st r : BestState N)
    (hst : st.board = b)
    (h : l.foldlM
        (fun (st : BestState N) (c : Nat × Nat) =>
          if st.board.isFieldEmpty c.1 c.2 then
            (minimax fuel 0 (!p)
                (if p then st.board.setFieldForP1 c.1 c.2
                 else st.board.setFieldForP2 c.1 c.2)).bind
              fun r =>
                if r.1 > st.best_score then
                  some ⟨intOfSize c.1, intOfSize c.2, r.1, r.2.clearField c.1 c.2⟩
                else
                  some ⟨st.best_x, st.best_y, st.best_score, r.2.clearField c.1 c.2⟩
          else some st)
        st = some r) : r.board = b := by
  induction l generalizing st with
  | nil =>
    simp only [List.foldlM_nil] at h
    cases h
    exact hst
  | cons c cs ihl =>
    have hc1 := hl c (List.mem_cons_self c cs)
    have hcs : ∀ c' ∈ cs, c'.1 < N ∧ c'.2 < N := fun c' h => hl c' (List.mem_cons_of_mem c h)
    simp only [List.foldlM_cons] at h
    rw [hst] at h
    by_cases he : b.isFieldEmpty c.1 c.2 = true
    · have hE := eq_EMPTY_of_isFieldEmpty b hv c.1 c.2 hc1.1 hc1.2 he
      cases hm : minimax fuel 0 (!p) (place p b c.1 c.2) with
      | none =>
        have hm2 : minimax fuel 0 (!p)
            (if p then b.setFieldForP1 c.1 c.2 else b.setFieldForP2 c.1 c.2) = none := hm
        simp [he, hm2] at h
      | some r' =>
        have hm2 : minimax fuel 0 (!p)
            (if p then b.setFieldForP1 c.1 c.2 else b.setFieldForP2 c.1 c.2) = some r' := hm
        have hr' := minimax_some_board fuel 0 (!p) (place p b c.1 c.2)
          (place_cellsValid p b c.1 c.2 hv)
          (by rw [place_count]; exact Nat.mod_lt _ (by unfold SIZE_MOD; omega)) r' hm
        simp only [he, if_true, hm2, Option.bind_eq_bind, Option.some_bind, hr',
          clearField_place p b c.1 c.2 hE hc] at h
        by_cases hgt : r'.1 > st.best_score
        · simp only [hgt, if_true, Option.some_bind] at h
          exact ihl hcs ⟨intOfSize c.1, intOfSize c.2, r'.1, b⟩ rfl h
        · simp only [hgt, if_false, Option.some_bind] at h
          exact ihl hcs ⟨st.best_x, st.best_y, st.best_score, b⟩ rfl h
    · simp only [he, Bool.false_eq_true, if_false, Option.bind_eq_bind, Option.some_bind] at h
      exact ihl hcs st hst h

/-- Whatever the fuel, a call of `getBestMove` that returns leaves the board
as it found it. -/
theorem getBestMove_some_board {N : Nat} (fuel : Nat) (p : Bool) (b : Board N)
    (hv : CellsValid b) (hc : b.checkedFieldsCount_ < SIZE_MOD)
    (r : (Int × Int) × Board N) (h : getBestMove fuel p b = some r) : r.2 = b := by
  unfold getBestMove at h
  rw [Option.map_eq_some'] at h
  obtain ⟨st, hst, rfl⟩ := h
  exact getBestMove_loop_board fuel p b hv hc (scanOrder N)
    (fun c h => (mem_scanOrder c).1 h) ⟨-1, -1, INT_MIN, b⟩ st rfl hst

theorem opsReachable_wellformed {N : Nat} (hlt : N * N < SIZE_MOD) (b : Board N)
    (h : OpsReachable b) : CellsValid b ∧ Consistent b := by
  induction h with
  | fresh => exact ⟨cellsValid_empty N, consistent_empty N⟩
  | setP1 b x y _ hx hy he ih =>
    exact ⟨place_cellsValid true b x y ih.1, place_consistent true b x y hx hy he ih.2 hlt⟩
  | setP2 b x y _ hx hy he ih =>
    exact ⟨place_cellsValid false b x y ih.1, place_consistent false b x y hx hy he ih.2 hlt⟩
  | clear b x y _ hx hy he ih =>
    exact ⟨clearField_cellsValid b x y ih.1, clearField_consistent b x y hx hy he ih.2 hlt⟩
  | bestMove b b' fuel p r _ hres ih =>
    have := getBestMove_some_board fuel p b ih.1 (consistent_count_lt b ih.2 hlt) _ hres
    simp only [] at this
    rw [this]
    exact ih
  | search b b' fuel depth p s _ hres ih =>
    have := minimax_some_board fuel depth p b ih.1 (consistent_count_lt b ih.2 hlt) _ hres
    simp only [] at this
    rw [this]
    exact ih

/-- On a consistent board `isFull()` holds exactly when no cell of the array
is empty. -/
theorem isFull_iff_no_empty {N : Nat} (hlt : N * N < SIZE_MOD) (b : Board N)
    (hcons : Consistent b) :
    b.isFull = true ↔ ∀ x y, x < N → y < N → b.isFieldEmpty x y = false := by
  have h1 := emptyCount_add_occupiedCount b
  unfold Board.isFull
  rw [getMaxDepth_eq b hlt, hcons, decide_eq_true_eq]
  have h2 : emptyCount b = 0 ↔ ∀ x y, x < N → y < N → b.isFieldEmpty x y = false := by
    unfold emptyCount
    rw [List.countP_eq_zero]
    constructor
    · intro h x y hx hy
      have := h (x, y) ((mem_scanOrder (x, y)).2 ⟨hx, hy⟩)
      simpa using this
    · intro h c hc
      have hin := (mem_scanOrder c).1 hc
      simp [h c.1 c.2 hin.1 hin.2]
  rw [← h2]
  omega

/-- C11. Occupied-count invariant: on every board obtained from the freshly
constructed board by any sequence of `setFieldForP1` / `setFieldForP2` on
empty cells of the array, `clearField` on occupied cells of the array, and
`getBestMove` and `minimax` calls, the counter equals the number of
non-empty cells, and `isFull()` is true exactly when no cell of the array is
empty.  (`N * N < 2^64`: the array type exists.) -/
theorem occupied_count_invariant {N : Nat} (hlt : N * N < SIZE_MOD) (b : Board N)
    (h : OpsReachable b) :
    b.checkedFieldsCount_ = occupiedCount b ∧
    (b.isFull = true ↔ ∀ x y, x < N → y < N → b.isFieldEmpty x y = false) := by
  obtain ⟨_, hcons⟩ := opsReachable_wellformed hlt b h
  exact ⟨hcons, isFull_iff_no_empty hlt b hcons⟩

theorem occupied_count_invariant_witness :
    (((Board.empty 3).setFieldForP1 1 1).clearField 1 1).checkedFieldsCount_ =
        occupiedCount (((Board.empty 3).setFieldForP1 1 1).clearField 1 1) ∧
      ((((Board.empty 3).setFieldForP1 1 1).clearField 1 1).isFull = true ↔
        ∀ x y, x < 3 → y < 3 →
          (((Board.empty 3).setFieldForP1 1 1).clearField 1 1).isFieldEmpty x y = false) :=
  occupied_count_invariant (by decide) _
    (OpsReachable.clear _ 1 1
      (OpsReachable.setP1 _ 1 1 OpsReachable.fresh (by decide) (by decide) (by decide))
      (by decide) (by decide) (by decide))

/-! ## The cell addressed by a linear index -/

/-- For an `int` index `id ≥ 1` the cell addressed is `((id-1) / N, (id-1) % N)`
in exact arithmetic. -/
theorem idCell_eq {N : Nat} (id : Int) (h1 : 1 ≤ id) (h3 : id ≤ INT_MAX) :
    idCell N id = ((id - 1).toNat / N, (id - 1).toNat % N) := by
  have h : sizeOfInt (intAdd id (-1)) = (id - 1).toNat := by
    unfold sizeOfInt intAdd
    unfold INT_MAX at h3
    omega
  unfold idCell
  rw [h]

theorem idCell_lt {N : Nat} (id : Int) (h1 : 1 ≤ id) (h2 : id ≤ ((N * N : Nat) : Int))
    (h3 : id ≤ INT_MAX) : (idCell N id).1 < N ∧ (idCell N id).2 < N := by
  rw [idCell_eq id h1 h3]
  have hk : (id - 1).toNat < N * N := by omega
  have hN : 0 < N := by
    rcases Nat.eq_zero_or_pos N with h | h
    · subst h; omega
    · exact h
  exact ⟨Nat.div_lt_of_lt_mul hk, Nat.mod_lt _ hN⟩

theorem sizeOfInt_ediv {N : Nat} (id : Int) (h1 : 1 ≤ id) (h3 : id ≤ INT_MAX) :
    sizeOfInt ((id - 1) / (N : Int)) = (id - 1).toNat / N ∧
    sizeOfInt ((id - 1) % (N : Int)) = (id - 1).toNat % N := by
  obtain ⟨k, hk⟩ : ∃ k : Nat, id - 1 = (k : Int) := ⟨(id - 1).toNat, by omega⟩
  have hk2 : k < 2147483648 := by unfold INT_MAX at h3; omega
  rw [hk, Int.toNat_ofNat]
  have e1 : ((k : Int) / (N : Int)) = ((k / N : Nat) : Int) := by norm_cast
  have e2 : ((k : Int) % (N : Int)) = ((k % N : Nat) : Int) := by norm_cast
  rw [e1, e2]
  have d1 : k / N ≤ k := Nat.div_le_self k N
  have d2 : k % N ≤ k := Nat.mod_le k N
  constructor
  · apply sizeOfInt_natCast; unfold SIZE_MOD; omega
  · apply sizeOfInt_natCast; unfold SIZE_MOD; omega

theorem idCell_surj {N : Nat} (x y : Nat) (hx : x < N) (hy : y < N)
    (h3 : ((x * N + y + 1 : Nat) : Int) ≤ INT_MAX) :
    (1 : Int) ≤ ((x * N + y + 1 : Nat) : Int) ∧
    ((x * N + y + 1 : Nat) : Int) ≤ ((N * N : Nat) : Int) ∧
    idCell N ((x * N + y + 1 : Nat) : Int) = (x, y) := by
  have hle : (x + 1) * N ≤ N * N := Nat.mul_le_mul_right N hx
  have hle2 : x * N + y + 1 ≤ N * N := by
    have : (x + 1) * N = x * N + N := by ring
    omega
  refine ⟨by omega, by exact_mod_cast hle2, ?_⟩
  rw [idCell_eq _ (by omega) h3]
  have hk : (((x * N + y + 1 : Nat) : Int) - 1).toNat = y + x * N := by omega
  rw [hk]
  have hN : 0 < N := by omega
  rw [Nat.add_mul_div_right y x hN, Nat.add_mul_mod_self_right, Nat.div_eq_of_lt hy,
    Nat.mod_eq_of_lt hy, Nat.zero_add]

theorem idCell_inj {N : Nat} (id id' : Int) (h1 : 1 ≤ id) (h3 : id ≤ INT_MAX)
    (h1' : 1 ≤ id') (h3' : id' ≤ INT_MAX) (h : idCell N id = idCell N id') : id = id' := by
  rw [idCell_eq id h1 h3, idCell_eq id' h1' h3'] at h
  have e1 := congrArg Prod.fst h
  have e2 := congrArg Prod.snd h
  simp only [] at e1 e2
  have d1 := Nat.div_add_mod (id - 1).toNat N
  have d2 := Nat.div_add_mod (id' - 1).toNat N
  have e3 : N * ((id - 1).toNat / N) = N * ((id' - 1).toNat / N) := by rw [e1]
  omega

/-- C12, as amended. The two addressing schemes agree on the `int` indices:
for every `N ≥ 1`, every `int` `id` with `1 ≤ id ≤ N * N` and each player,
`setFieldForP1(id)` (resp. `setFieldForP2(id)`) gives the same board, cells
and counter, as `setFieldForP1(x, y)` (resp. `setFieldForP2(x, y)`) with
`x = (id - 1) / N` and `y = (id - 1) % N`, a cell of the array; and when
`N * N` is within `int` the map from `id` to the cell addressed is a
bijection from `1 .. N * N` onto the cells of the array. -/
theorem id_addressing_agrees {N : Nat} (hN1 : 1 ≤ N) :
    (∀ (b : Board N) (id : Int), 1 ≤ id → id ≤ ((N * N : Nat) : Int) → id ≤ INT_MAX →
      b.setFieldForP1Id id =
        b.setFieldForP1 (sizeOfInt ((id - 1) / (N : Int))) (sizeOfInt ((id - 1) % (N : Int))) ∧
      b.setFieldForP2Id id =
        b.setFieldForP2 (sizeOfInt ((id - 1) / (N : Int))) (sizeOfInt ((id - 1) % (N : Int))) ∧
      idCell N id =
        (sizeOfInt ((id - 1) / (N : Int)), sizeOfInt ((id - 1) % (N : Int))) ∧
      (idCell N id).1 < N ∧ (idCell N id).2 < N) ∧
    (N * N < 2147483648 →
      Set.BijOn (idCell N) {id : Int | 1 ≤ id ∧ id ≤ ((N * N : Nat) : Int)}
        {c : Nat × Nat | c.1 < N ∧ c.2 < N}) := by
  have _h := hN1
  constructor
  · intro b id h1 h2 h3
    obtain ⟨e1, e2⟩ := sizeOfInt_ediv (N := N) id h1 h3
    have hc : idCell N id =
        (sizeOfInt ((id - 1) / (N : Int)), sizeOfInt ((id - 1) % (N : Int))) := by
      rw [idCell_eq id h1 h3, e1, e2]
    have hlt := idCell_lt id h1 h2 h3
    refine ⟨?_, ?_, hc, hlt.1, hlt.2⟩
    · unfold Board.setFieldForP1Id Board.setFieldId Board.setFieldForP1 Board.setField
      rw [hc]
    · unfold Board.setFieldForP2Id Board.setFieldId Board.setFieldForP2 Board.setField
      rw [hc]
  · intro hN
    have hmax : ∀ id : Int, id ≤ ((N * N : Nat) : Int) → id ≤ INT_MAX := by
      intro id h
      unfold INT_MAX
      omega
    refine ⟨?_, ?_, ?_⟩
    · intro id hid
      exact idCell_lt id hid.1 hid.2 (hmax id hid.2)
    · intro id hid id' hid' h
      exact idCell_inj id id' hid.1 (hmax id hid.2) hid'.1 (hmax id' hid'.2) h
    · intro c hc
      have hle : (c.1 + 1) * N ≤ N * N := Nat.mul_le_mul_right N hc.1
      have hle2 : c.1 * N + c.2 + 1 ≤ N * N := by
        have : (c.1 + 1) * N = c.1 * N + N := by ring
        have := hc.2
        omega
      obtain ⟨a1, a2, a3⟩ := idCell_surj c.1 c.2 hc.1 hc.2 (by unfold INT_MAX; omega)
      exact ⟨_, ⟨a1, a2⟩, a3⟩

theorem id_addressing_agrees_witness :
    (Board.empty 3).setFieldForP1Id 6 = (Board.empty 3).setFieldForP1 1 2 ∧
      (Board.empty 3).setFieldForP2Id 6 = (Board.empty 3).setFieldForP2 1 2 ∧
      idCell 3 6 = (1, 2) := by
  obtain ⟨h1, h2, h3, _⟩ :=
    (id_addressing_agrees (N := 3) (by decide)).1 (Board.empty 3) 6 (by decide) (by decide)
      (by decide)
  have e1 : sizeOfInt ((6 - 1) / ((3 : Nat) : Int)) = 1 := by decide
  have e2 : sizeOfInt ((6 - 1) % ((3 : Nat) : Int)) = 2 := by decide
  rw [e1, e2] at h1 h2 h3
  exact ⟨h1, h2, h3⟩

/-- C12, the claim as stated fails: for `N = 46341` the cell `(46340, 46340)`
of the array has the linear index `N * N = 2147488281`, above `INT_MAX`; no
`int` value `id` addresses it, and the index `2147488281` converted to `int`
addresses the cell `(398065300091971, 44489)`, outside the array; the map is
not a bijection from `1 .. N * N` onto the cells of the array. -/
theorem id_addressing_agrees_counterexample :
    (1 : Int) ≤ 2147488281 ∧ (2147488281 : Int) ≤ ((46341 * 46341 : Nat) : Int) ∧
      (46340 < 46341 ∧ (2147488281 - 1) / 46341 = 46340 ∧ (2147488281 - 1) % 46341 = 46340) ∧
      (¬ ∃ id : Int, INT_MIN ≤ id ∧ id ≤ INT_MAX ∧ idCell 46341 id = (46340, 46340)) ∧
      idCell 46341 2147488281 = (398065300091971, 44489) ∧
      ¬ Set.BijOn (idCell 46341) {id : Int | 1 ≤ id ∧ id ≤ ((46341 * 46341 : Nat) : Int)}
        {c : Nat × Nat | c.1 < 46341 ∧ c.2 < 46341} := by
  refine ⟨by norm_num, by norm_num, by norm_num, ?_, by decide, ?_⟩
  · rintro ⟨id, h1, h2, h⟩
    have hz : -2147483648 ≤ intAdd id (-1) ∧ intAdd id (-1) ≤ 2147483647 := by
      unfold intAdd
      omega
    unfold idCell at h
    have e1 := congrArg Prod.fst h
    have e2 := congrArg Prod.snd h
    simp only [] at e1 e2
    generalize intAdd id (-1) = z at hz e1 e2
    unfold sizeOfInt at e1 e2
    omega
  · intro hb
    have := hb.1 (show (2147488281 : Int) ∈ {id : Int | 1 ≤ id ∧ id ≤ ((46341 * 46341 : Nat) : Int)}
      from ⟨by norm_num, by norm_num⟩)
    have e : idCell 46341 2147488281 = (398065300091971, 44489) := by decide
    rw [e] at this
    have := this.1
    simp at this

/-! ## The sentinel of `getBestMove` -/

theorem getBestMove_loop_no_empty {N : Nat} (fuel : Nat) (p : Bool)
    (l : List (Nat × Nat)) (st : BestState N)
    (h : ∀ c ∈ l, st.board.isFieldEmpty c.1 c.2 = false) :
    l.foldlM
        (fun (st : BestState N) (c : Nat × Nat) =>
          if st.board.isFieldEmpty c.1 c.2 then
            (minimax fuel 0 (!p)
                (if p then st.board.setFieldForP1 c.1 c.2
                 else st.board.setFieldForP2 c.1 c.2)).bind
              fun r =>
                if r.1 > st.best_score then
                  some ⟨intOfSize c.1, intOfSize c.2, r.1, r.2.clearField c.1 c.2⟩
                else
                  some ⟨st.best_x, st.best_y, st.best_score, r.2.clearField c.1 c.2⟩
          else some st)
        st = some st := by
  induction l with
  | nil => simp
  | cons c cs ihl =>
    simp only [List.foldlM_cons, h c (List.mem_cons_self c cs), Bool.false_eq_true, if_false,
      Option.bind_eq_bind, Option.some_bind]
    exact ihl (fun c' hc' => h c' (List.mem_cons_of_mem c hc'))

/-- On a board without an empty cell `getBestMove` returns the sentinel,
whatever the fuel, the cells and the counter. -/
theorem getBestMove_no_empty {N : Nat} (fuel : Nat) (p : Bool) (b : Board N)
    (h : ∀ x y, x < N → y < N → b.isFieldEmpty x y = false) :
    getBestMove fuel p b = some ((-1, -1), b) := by
  unfold getBestMove
  rw [getBestMove_loop_no_empty fuel p (scanOrder N) ⟨-1, -1, INT_MIN, b⟩
    (fun c hc => h c.1 c.2 ((mem_scanOrder c).1 hc).1 ((mem_scanOrder c).1 hc).2)]
  rfl

/-- C13, as amended. Sentinel of `getBestMove` (board size `N * N` within
`int`, cells in {EMPTY, P1, P2}, consistent counter), for either player: the
sentinel `(-1, -1)` is returned exactly when the board is full, that is when
no cell is empty; on a board that is not full, with or without a completed
line, the pair returned is an empty cell of the array. -/
theorem getBestMove_sentinel_iff_full {N : Nat} (hN : N * N < 2147483648) (fuel : Nat)
    (hf : N * N ≤ fuel) (p : Bool) (b : Board N) (hv : CellsValid b)
    (hcons : Consistent b) :
    (b.isFull = true ↔ ∀ x y, x < N → y < N → b.isFieldEmpty x y = false) ∧
    (getBestMove fuel p b = some ((-1, -1), b) ↔ b.isFull = true) ∧
    (b.isFull = false →
      ∃ x y : Nat, x < N ∧ y < N ∧ b.isFieldEmpty x y = true ∧
        getBestMove fuel p b = some (((x : Int), (y : Int)), b)) := by
  have hlt : N * N < SIZE_MOD := by unfold SIZE_MOD; omega
  have hle := emptyCount_le b
  have hc := consistent_count_lt b hcons hlt
  have hiff := isFull_iff_no_empty hlt b hcons
  have hcell : b.isFull = false →
      ∃ x y : Nat, x < N ∧ y < N ∧ b.isFieldEmpty x y = true ∧
        getBestMove fuel p b = some (((x : Int), (y : Int)), b) := by
    intro hfull
    obtain ⟨x, y, hx, hy, he, hbest, _, _⟩ := bestMove_cell hN fuel p b hcons (by omega)
      (exists_empty_of_not_full b hcons hlt hfull)
    exact ⟨x, y, hx, hy, he, by
      rw [getBestMove_eq_bestMove fuel p b hv hc (by omega), hbest]⟩
  refine ⟨hiff, ⟨?_, ?_⟩, hcell⟩
  · intro hs
    by_contra hnf
    simp only [Bool.not_eq_true] at hnf
    obtain ⟨x, y, _, _, _, hres⟩ := hcell hnf
    rw [hres] at hs
    have := congrArg (fun r => r.map fun q => q.1.1) hs
    simp only [Option.map_some'] at this
    have := Option.some.inj this
    omega
  · intro hfull
    exact getBestMove_no_empty fuel p b (hiff.1 hfull)

theorem cellsValid_sampleDraw : CellsValid sampleDraw := by
  intro x y hx hy
  interval_cases x <;> interval_cases y <;> decide

theorem consistent_sampleDraw : Consistent sampleDraw := by
  unfold Consistent
  decide

theorem cellsValid_sampleWon : CellsValid sampleWon := by
  intro x y hx hy
  interval_cases x <;> interval_cases y <;> decide

theorem consistent_sampleWon : Consistent sampleWon := by
  unfold Consistent
  decide

theorem getBestMove_sentinel_iff_full_witness :
    getBestMove 9 true sampleDraw = some ((-1, -1), sampleDraw) :=
  (getBestMove_sentinel_iff_full (by norm_num) 9 (by norm_num) true sampleDraw
    cellsValid_sampleDraw consistent_sampleDraw).2.1.2 (by decide)

theorem bestMove_sampleWon :
    bestMove 10 true sampleWon = (1, 2) ∧ bestMove 10 false sampleWon = (1, 2) := by
  constructor <;> decide!

/-- C13, the claim as stated fails: the board `sampleWon` (cells valid,
counter consistent) is terminal, player one holds the line `board_[0][0..2]`,
and it is not full; for either player `getBestMove` returns `(1, 2)`, the
first empty cell in scan order, not the sentinel. -/
theorem getBestMove_sentinel_iff_full_counterexample :
    CellsValid sampleWon ∧ Consistent sampleWon ∧ sampleWon.isGameEnd = true ∧
      sampleWon.isFull = false ∧
      getBestMove 10 true sampleWon = some ((1, 2), sampleWon) ∧
      getBestMove 10 false sampleWon = some ((1, 2), sampleWon) := by
  refine ⟨cellsValid_sampleWon, consistent_sampleWon, by decide, by decide, ?_, ?_⟩
  · rw [getBestMove_eq_bestMove 10 true sampleWon cellsValid_sampleWon (by decide)
      (le_trans (emptyCount_le sampleWon) (by norm_num)), bestMove_sampleWon.1]
  · rw [getBestMove_eq_bestMove 10 false sampleWon cellsValid_sampleWon (by decide)
      (le_trans (emptyCount_le sampleWon) (by norm_num)), bestMove_sampleWon.2]

/-! ## The range test of the human move -/

/-- C14, the code at the failing inputs `run(3, 0)` and `run(-1, 0)` on the
fresh 3×3 board: the range error is thrown, and at the throw
`setFieldForP1` has been executed: the counter is 1, not 0, and the write
went to `board_[3][0]` (resp. `board_[2^64 - 1][0]`), outside the array.
For an in-range pair, on every board size, no range error is raised. -/
theorem run_checks_range_after_move :
    (runXY 9 9 3 0 (Board.empty 3) =
        some (RunOutcome.rangeError ((Board.empty 3).setFieldForP1 3 0)) ∧
      ((Board.empty 3).setFieldForP1 3 0).checkedFieldsCount_ = 1 ∧
      (Board.empty 3).checkedFieldsCount_ = 0) ∧
    (runXY 9 9 (-1) 0 (Board.empty 3) =
        some (RunOutcome.rangeError ((Board.empty 3).setFieldForP1 18446744073709551615 0)) ∧
      ((Board.empty 3).setFieldForP1 18446744073709551615 0).checkedFieldsCount_ = 1) ∧
    (∀ (N : Nat) (p1_x p1_y : Int) (b r : Board N) (fuel steps : Nat),
      0 ≤ p1_x → p1_x < (N : Int) → 0 ≤ p1_y → p1_y < (N : Int) →
      runXY fuel steps p1_x p1_y b ≠ some (RunOutcome.rangeError r)) := by
  refine ⟨⟨?_, by decide, by decide⟩, ⟨?_, by decide⟩, ?_⟩
  · unfold runXY
    rw [if_pos (by decide)]
    rfl
  · unfold runXY
    rw [if_pos (by decide)]
    rfl
  · intro N p1_x p1_y b r fuel steps h1 h2 h3 h4
    unfold runXY
    have h : ¬ (p1_x < 0 ∨ N ≤ sizeOfInt p1_x ∨ p1_y < 0 ∨ N ≤ sizeOfInt p1_y) := by
      unfold sizeOfInt
      omega
    rw [if_neg h]
    cases run fuel steps false (b.setFieldForP1 (sizeOfInt p1_x) (sizeOfInt p1_y)) <;> simp

/-! ## Scores within `int` -/

theorem isFull_false_of_empty {N : Nat} (hlt : N * N < SIZE_MOD) (b : Board N)
    (hcons : Consistent b) (x y : Nat) (hx : x < N) (hy : y < N)
    (he : b.isFieldEmpty x y = true) : b.isFull = false := by
  have h1 := emptyCount_add_occupiedCount b
  have hpos : 0 < emptyCount b := by
    unfold emptyCount
    exact List.countP_pos_iff.2 ⟨(x, y), (mem_scanOrder (x, y)).2 ⟨hx, hy⟩, he⟩
  unfold Board.isFull
  rw [getMaxDepth_eq b hlt, hcons, decide_eq_false_iff_not]
  omega

theorem intOfSize_range (n : Nat) : INT_MIN ≤ intOfSize n ∧ intOfSize n ≤ INT_MAX := by
  unfold intOfSize INT_MIN INT_MAX
  split <;> omega

/-- Every score is an `int`. -/
theorem value_int_range {N : Nat} (fuel : Nat) (d : Int) (p : Bool) (b : Board N) :
    INT_MIN ≤ value fuel d p b ∧ value fuel d p b ≤ INT_MAX := by
  induction fuel generalizing d p b with
  | zero =>
    unfold value INT_MIN INT_MAX
    omega
  | succ fuel ih =>
    by_cases hg : b.isGameEnd = true
    · rw [value_succ]
      cases p
      · simp only [hg, if_true, Bool.false_eq_true, if_false]
        exact intOfSize_range _
      · simp only [hg, if_true]
        exact intOfSize_range _
    · simp only [Bool.not_eq_true] at hg
      by_cases hfull : b.isFull = true
      · rw [value_succ]
        simp only [hg, hfull, Bool.false_eq_true, if_false, if_true]
        unfold INT_MIN INT_MAX
        omega
      · simp only [Bool.not_eq_true] at hfull
        cases p
        · rw [value_p2_node fuel d b hg hfull]
          rcases (foldl_max_spec (scanOrder N) (fun c => b.isFieldEmpty c.1 c.2)
            (fun c => value fuel (intAdd d 1) true (place false b c.1 c.2)) INT_MIN).2.2 with
            h | ⟨c, _, _, h⟩
          · rw [h]; unfold INT_MIN INT_MAX; omega
          · rw [h]; exact ih _ _ _
        · rw [value_p1_node fuel d b hg hfull]
          rcases (foldl_min_spec (scanOrder N) (fun c => b.isFieldEmpty c.1 c.2)
            (fun c => value fuel (intAdd d 1) false (place true b c.1 c.2)) INT_MAX).2.2 with
            h | ⟨c, _, _, h⟩
          · rw [h]; unfold INT_MIN INT_MAX; omega
          · rw [h]; exact ih _ _ _

/-- Score of a position one move from a win for the mover. -/
theorem value_one_move_from_win {N : Nat} (hN : N * N < 2147483648) (fuel : Nat)
    (b : Board N) (hcons : Consistent b) (hg : b.isGameEnd = false) (p : Bool)
    (x y : Nat) (hx : x < N) (hy : y < N) (he : b.isFieldEmpty x y = true)
    (hw : completesLine p b x y = true) (d : Int) (h0 : 0 ≤ d)
    (hd : d + (emptyCount b : Int) ≤ ((N * N : Nat) : Int))
    (hf : emptyCount b < fuel + 1 + 1) :
    value (fuel + 1 + 1) d p b =
      if p then -(((N * N : Nat) : Int) - (d + 1)) else ((N * N : Nat) : Int) - (d + 1) := by
  have hlt : N * N < SIZE_MOD := by unfold SIZE_MOD; omega
  have hM : N * N % SIZE_MOD = N * N := Nat.mod_eq_of_lt hlt
  have hfull := isFull_false_of_empty hlt b hcons x y hx hy he
  have hpos : 0 < emptyCount b := by
    unfold emptyCount
    exact List.countP_pos_iff.2 ⟨(x, y), (mem_scanOrder (x, y)).2 ⟨hx, hy⟩, he⟩
  have hd1 : intAdd d 1 = d + 1 := intAdd_one d h0 (by omega)
  have e1 := score_p1_turn (N * N) (d + 1) hN (by omega) (by omega)
  have e2 := score_p2_turn (N * N) (d + 1) hN (by omega) (by omega)
  rw [hM] at e1 e2
  have hch : ∀ (q : Bool) x' y', x' < N → y' < N → b.isFieldEmpty x' y' = true →
      -(((N * N : Nat) : Int) - (d + 1)) ≤ value (fuel + 1) (d + 1) (!q) (place q b x' y') ∧
        value (fuel + 1) (d + 1) (!q) (place q b x' y') ≤ ((N * N : Nat) : Int) - (d + 1) := by
    intro q x' y' hx' hy' he'
    have hE := emptyCount_place q b x' y' hx' hy' he'
    exact value_range hN (fuel + 1) (d + 1) (!q) (place q b x' y')
      (place_consistent q b x' y' hx' hy' he' hcons hlt) (by omega) (by omega) (by omega)
  unfold completesLine at hw
  cases p
  · have hwin : value (fuel + 1) (intAdd d 1) true (place false b x y) =
        ((N * N : Nat) : Int) - (d + 1) := by
      rw [value_succ, getMaxDepth_eq _ hlt, hd1]
      simp only [hw, if_true, e1]
    have hge := value_p2_ge_child (fuel + 1) d b hg hfull x y hx hy he
    have hle := value_p2_le_of_children (fuel + 1) d b (((N * N : Nat) : Int) - (d + 1)) hg
      hfull (by unfold INT_MIN; omega)
      (fun x' y' hx' hy' he' => by rw [hd1]; exact (hch false x' y' hx' hy' he').2)
    rw [hwin] at hge
    simp only [Bool.false_eq_true, if_false]
    omega
  · have hwin : value (fuel + 1) (intAdd d 1) false (place true b x y) =
        -(((N * N : Nat) : Int) - (d + 1)) := by
      rw [value_succ, getMaxDepth_eq _ hlt, hd1]
      simp only [hw, if_true, Bool.false_eq_true, if_false, e2]
    have hle := value_p1_le_child (fuel + 1) d b hg hfull x y hx hy he
    have hge := value_p1_ge_of_children (fuel + 1) d b (-(((N * N : Nat) : Int) - (d + 1))) hg
      hfull (by unfold INT_MAX; omega)
      (fun x' y' hx' hy' he' => by rw [hd1]; exact (hch true x' y' hx' hy' he').1)
    rw [hwin] at hle
    simp only [if_true]
    omega

/-- C15, as amended. Depth-adjusted magnitude one move from a win, for
board sizes `N * N` within `int`: on every board with cells in
{EMPTY, P1, P2}, a consistent counter and no completed line on which the
player to move has an empty cell that completes a line, and for every depth
`d ≥ 0` with `d + (number of empty cells) ≤ N * N`, `minimax(d, true)`
returns `-(N * N - (d + 1))` when player one is the mover and
`minimax(d, false)` returns `N * N - (d + 1)` when player two is the mover. -/
theorem minimax_one_move_from_win {N : Nat} (hN : N * N < 2147483648) (fuel : Nat)
    (hf : N * N < fuel) (b : Board N) (hv : CellsValid b) (hcons : Consistent b)
    (hg : b.isGameEnd = false) (p : Bool) (x y : Nat) (hx : x < N) (hy : y < N)
    (he : b.isFieldEmpty x y = true) (hw : completesLine p b x y = true) (d : Int)
    (h0 : 0 ≤ d) (hd : d + (emptyCount b : Int) ≤ ((N * N : Nat) : Int)) :
    minimax fuel d p b =
      some (if p then -(((N * N : Nat) : Int) - (d + 1)) else ((N * N : Nat) : Int) - (d + 1),
        b) := by
  have hlt : N * N < SIZE_MOD := by unfold SIZE_MOD; omega
  have hle := emptyCount_le b
  have hc := consistent_count_lt b hcons hlt
  have hpos : 0 < emptyCount b := by
    unfold emptyCount
    exact List.countP_pos_iff.2 ⟨(x, y), (mem_scanOrder (x, y)).2 ⟨hx, hy⟩, he⟩
  obtain ⟨k, rfl⟩ : ∃ k, fuel = k + 1 + 1 := ⟨fuel - 2, by omega⟩
  rw [minimax_eq_value (k + 1 + 1) d p b hv hc (by omega),
    value_one_move_from_win hN k b hcons hg p x y hx hy he hw d h0 hd (by omega)]

theorem consistent_sampleP1 : Consistent sampleP1 := by
  unfold Consistent
  decide

theorem minimax_one_move_from_win_witness :
    minimax 10 0 true sampleP1 = some (-(((3 * 3 : Nat) : Int) - (0 + 1)), sampleP1) ∧
      minimax 10 0 false sampleP2 = some (((3 * 3 : Nat) : Int) - (0 + 1), sampleP2) :=
  ⟨minimax_one_move_from_win (by norm_num) 10 (by norm_num) sampleP1 cellsValid_sampleP1
      consistent_sampleP1 (by decide) true 0 2 (by decide) (by decide) (by decide) (by decide)
      0 (by norm_num) (by
        have := emptyCount_le sampleP1
        have h : emptyCount sampleP1 = 3 := by decide
        rw [h]; norm_num),
    minimax_one_move_from_win (by norm_num) 10 (by norm_num) sampleP2 cellsValid_sampleP2
      consistent_sampleP2 (by decide) false 1 2 (by decide) (by decide) (by decide) (by decide)
      0 (by norm_num) (by
        have h : emptyCount sampleP2 = 4 := by decide
        rw [h]; norm_num)⟩

/-- C15, the claim as stated fails: on `bigB` (cells valid, counter
consistent, no completed line, two empty cells, `N * N = 2147488281`) player
two completes a line at `(0, 0)`; the claimed value of `minimax(0, false)`,
`N * N - 1 = 2147488280`, is above `INT_MAX`, and what `minimax` returns is
an `int`. -/
theorem minimax_one_move_from_win_counterexample :
    CellsValid bigB ∧ Consistent bigB ∧ bigB.isGameEnd = false ∧
      bigB.isFieldEmpty 0 0 = true ∧ completesLine false bigB 0 0 = true ∧
      (0 : Int) + (emptyCount bigB : Int) ≤ ((46341 * 46341 : Nat) : Int) ∧
      ∃ s, minimax 3 0 false bigB = some (s, bigB) ∧ s ≤ 2147483647 ∧
        (2147483647 : Int) < ((46341 * 46341 : Nat) : Int) - (0 + 1) := by
  refine ⟨bigB_cellsValid, bigB_consistent, bigB_isGameEnd,
    (bigB_isFieldEmpty 0 0).2 (Or.inl ⟨rfl, rfl⟩), bigB_place00_isGameEnd, ?_,
    value 3 0 false bigB, ?_, (value_int_range 3 0 false bigB).2, by norm_num⟩
  · rw [bigB_emptyCount]; norm_num
  · exact minimax_eq_value 3 0 false bigB bigB_cellsValid (by decide)
      (by rw [bigB_emptyCount]; norm_num)

/-! ## Score range -/

theorem mul_self_le_of_int {N : Nat} (hN : N * N < 2147483648) : N * N ≤ 2147395600 := by
  have h : N ≤ 46340 := by
    by_contra hc
    have h1 : 46341 ≤ N := by omega
    have := Nat.mul_le_mul h1 h1
    omega
  have := Nat.mul_le_mul h h
  omega

/-- C19, as amended. Score range, for board sizes `N * N` within `int`: on
every board with cells in {EMPTY, P1, P2} and a consistent counter, for
every depth `d ≥ 0` with `d + (number of empty cells) ≤ N * N` and either
player, `minimax(d, p)` returns a score `s` with `|s| ≤ N * N - d`, never
`INT_MAX` or `INT_MIN`; and every score `getBestMove` sees on the board, the
result of `minimax(0, !q)` with the mark of the mover `q` on an empty cell,
is above `INT_MIN`. -/
theorem minimax_score_range {N : Nat} (hN : N * N < 2147483648) (fuel : Nat)
    (hf : N * N < fuel) (b : Board N) (hv : CellsValid b) (hcons : Consistent b)
    (d : Int) (h0 : 0 ≤ d) (hd : d + (emptyCount b : Int) ≤ ((N * N : Nat) : Int))
    (p : Bool) :
    (∃ s, minimax fuel d p b = some (s, b) ∧ |s| ≤ ((N * N : Nat) : Int) - d ∧
      s ≠ INT_MAX ∧ s ≠ INT_MIN) ∧
    (∀ (q : Bool) (x y : Nat), x < N → y < N → b.isFieldEmpty x y = true →
      ∃ s, minimax fuel 0 (!q) (place q b x y) = some (s, place q b x y) ∧ INT_MIN < s) := by
  have hlt : N * N < SIZE_MOD := by unfold SIZE_MOD; omega
  have hle := emptyCount_le b
  have hc := consistent_count_lt b hcons hlt
  have hsq := mul_self_le_of_int hN
  constructor
  · have hr := value_range hN fuel d p b hcons h0 hd (by omega)
    refine ⟨value fuel d p b, minimax_eq_value fuel d p b hv hc (by omega),
      abs_le.2 ⟨by omega, hr.2⟩, ?_, ?_⟩
    · unfold INT_MAX; omega
    · unfold INT_MIN; omega
  · intro q x y hx hy he
    have hE := emptyCount_place q b x y hx hy he
    have hr := moveScore_range hN fuel q b hcons (by omega) x y hx hy he
    refine ⟨moveScore fuel q b x y, ?_, ?_⟩
    · exact minimax_eq_value fuel 0 (!q) (place q b x y) (place_cellsValid q b x y hv)
        (by rw [place_count]; exact Nat.mod_lt _ (by unfold SIZE_MOD; omega)) (by omega)
    · unfold INT_MIN; omega

theorem minimax_score_range_witness :
    ∃ s, minimax 10 0 false sampleP2 = some (s, sampleP2) ∧
      |s| ≤ ((3 * 3 : Nat) : Int) - 0 ∧ s ≠ INT_MAX ∧ s ≠ INT_MIN :=
  (minimax_score_range (by norm_num) 10 (by norm_num) sampleP2 cellsValid_sampleP2
    consistent_sampleP2 0 (by norm_num) (by
      have h : emptyCount sampleP2 = 4 := by decide
      rw [h]; norm_num) false).1

theorem bigWon_cellsValid : CellsValid bigWon := by
  intro x y _ _
  exact Or.inl rfl

theorem bigWon_emptyCount : emptyCount bigWon = 0 := by
  unfold emptyCount
  rw [List.countP_eq_zero]
  intro c _
  simp [bigWon, Board.isFieldEmpty, Board.getField, Board.P1]

theorem bigWon_consistent : Consistent bigWon := by
  have h1 := emptyCount_add_occupiedCount bigWon
  rw [bigWon_emptyCount] at h1
  unfold Consistent
  show 2147488281 = occupiedCount bigWon
  omega

/-- C19, the claim as stated fails: on the full board `bigWon` (cells valid,
counter consistent, `N * N = 2147488281`), at depth 4633 with player one to
move `minimax` returns `N * N - 4633 = 2^31` narrowed to `int`, which is
`INT_MIN`; at depth 4632 with player two to move it returns `INT_MAX`. -/
theorem minimax_score_range_counterexample :
    CellsValid bigWon ∧ Consistent bigWon ∧
      (0 : Int) ≤ 4633 ∧ (4633 : Int) + (emptyCount bigWon : Int) ≤ ((46341 * 46341 : Nat) : Int) ∧
      minimax 1 4633 true bigWon = some (INT_MIN, bigWon) ∧
      minimax 1 4632 false bigWon = some (INT_MAX, bigWon) := by
  refine ⟨bigWon_cellsValid, bigWon_consistent, by norm_num, ?_, ?_, ?_⟩
  · rw [bigWon_emptyCount]; norm_num
  · unfold minimax
    simp only [bigWon_isGameEnd, if_true]
    have h : intOfSize (sizeSub bigWon.getMaxDepth (sizeOfInt 4633)) = INT_MIN := by
      decide
    rw [h]
  · unfold minimax
    simp only [bigWon_isGameEnd, if_true, Bool.false_eq_true, if_false]
    have h : intOfSize (sizeNeg (sizeSub bigWon.getMaxDepth (sizeOfInt 4632))) = INT_MAX := by
      decide
    rw [h]

/-! ## The in-place search against the reference score -/

theorem intAdd_one_int (d : Int) (h0 : -2147483648 ≤ d) (h1 : d < 2147483647) :
    intAdd d 1 = d + 1 := by
  unfold intAdd
  omega

/-- Score of a won position with player one to move, when `M - d` is an `int`. -/
theorem score_p1_turn_int (M : Nat) (d : Int) (hM : M < SIZE_MOD)
    (h0 : (M : Int) - 2147483647 ≤ d) (h1 : d ≤ 2147483647) :
    intOfSize (sizeSub (M % SIZE_MOD) (sizeOfInt d)) = (M : Int) - d := by
  unfold intOfSize sizeSub sizeOfInt SIZE_MOD at *
  split <;> omega

/-- Score of a won position with player two to move, when `M - d` is an `int`. -/
theorem score_p2_turn_int (M : Nat) (d : Int) (hM : M < SIZE_MOD)
    (h0 : (M : Int) - 2147483647 ≤ d) (h1 : d ≤ 2147483647) :
    intOfSize (sizeNeg (sizeSub (M % SIZE_MOD) (sizeOfInt d))) = -((M : Int) - d) := by
  unfold intOfSize sizeNeg sizeSub sizeOfInt SIZE_MOD at *
  split <;> omega

theorem foldl_filter_map {α : Type} (l : List α) (e : α → Bool) (v : α → Int)
    (comb : Int → Int → Int) (init : Int) :
    l.foldl (fun best c => if e c then comb best (v c) else best) init =
      ((l.filter e).map v).foldl comb init := by
  induction l generalizing init with
  | nil => rfl
  | cons a as ih =>
    by_cases h : e a = true
    · simp only [List.foldl_cons, h, if_true, List.filter_cons_of_pos, List.map_cons]
      exact ih _
    · simp only [List.foldl_cons, h, Bool.false_eq_true, if_false]
      rw [List.filter_cons_of_neg h]
      exact ih _

theorem foldl_min_eq_listMin (vs : List Int) (hne : vs ≠ []) (h : ∀ v ∈ vs, v ≤ INT_MAX) :
    vs.foldl min INT_MAX = listMin vs := by
  cases vs with
  | nil => exact absurd rfl hne
  | cons a as =>
    simp only [List.foldl_cons, listMin]
    rw [min_eq_right (h a (List.mem_cons_self a as))]

theorem foldl_max_eq_listMax (vs : List Int) (hne : vs ≠ []) (h : ∀ v ∈ vs, INT_MIN ≤ v) :
    vs.foldl max INT_MIN = listMax vs := by
  cases vs with
  | nil => exact absurd rfl hne
  | cons a as =>
    simp only [List.foldl_cons, listMax]
    rw [max_eq_right (h a (List.mem_cons_self a as))]

theorem mem_emptyCells {N : Nat} (b : Board N) (c : Nat × Nat) :
    c ∈ emptyCells b ↔ (c.1 < N ∧ c.2 < N) ∧ b.isFieldEmpty c.1 c.2 = true := by
  unfold emptyCells
  rw [List.mem_filter, mem_scanOrder]

theorem specValueAux_succ {N : Nat} (fuel : Nat) (b : Board N) (depth : Int) (p : Bool) :
    specValueAux (fuel + 1) b depth p =
      if b.isGameEnd then
        if p then ((N * N : Nat) : Int) - depth else -(((N * N : Nat) : Int) - depth)
      else if b.isFull then 0
      else if p then
        listMin ((emptyCells b).map fun c =>
          specValueAux fuel (place p b c.1 c.2) (depth + 1) (!p))
      else
        listMax ((emptyCells b).map fun c =>
          specValueAux fuel (place p b c.1 c.2) (depth + 1) (!p)) := by
  rw [specValueAux]

/-- The reference score satisfies the recursion it is defined by. -/
theorem specValue_eq {N : Nat} (b : Board N) (depth : Int) (p : Bool) :
    specValue b depth p =
      if b.isGameEnd then
        if p then ((N * N : Nat) : Int) - depth else -(((N * N : Nat) : Int) - depth)
      else if b.isFull then 0
      else if p then
        listMin ((emptyCells b).map fun c => specValue (place p b c.1 c.2) (depth + 1) (!p))
      else
        listMax ((emptyCells b).map fun c => specValue (place p b c.1 c.2) (depth + 1) (!p)) := by
  have hmap : (emptyCells b).map (fun c =>
        specValueAux (emptyCount b) (place p b c.1 c.2) (depth + 1) (!p)) =
      (emptyCells b).map (fun c => specValue (place p b c.1 c.2) (depth + 1) (!p)) := by
    apply List.map_congr_left
    intro c hc
    obtain ⟨hin, he⟩ := (mem_emptyCells b c).1 hc
    have hE := emptyCount_place p b c.1 c.2 hin.1 hin.2 he
    unfold specValue
    rw [hE]
  unfold specValue
  rw [specValueAux_succ, hmap]
  rfl

/-- The pure score of the code is the reference score, as long as
`N * N - depth` and `depth + 1` stay within `int` along the search. -/
theorem value_eq_specValueAux {N : Nat} (hlt : N * N < SIZE_MOD) (fuel k : Nat) (d : Int)
    (p : Bool) (b : Board N) (hcons : Consistent b)
    (hlo : ((N * N : Nat) : Int) - 2147483647 ≤ d)
    (hhi : d + (emptyCount b : Int) ≤ 2147483647)
    (hf : emptyCount b < fuel) (hk : emptyCount b < k) :
    value fuel d p b = specValueAux k b d p := by
  induction fuel generalizing k d p b with
  | zero => omega
  | succ fuel ih =>
    obtain ⟨k, rfl⟩ : ∃ k', k = k' + 1 := ⟨k - 1, by omega⟩
    have hM : N * N % SIZE_MOD = N * N := Nat.mod_eq_of_lt hlt
    rw [specValueAux_succ]
    by_cases hg : b.isGameEnd = true
    · rw [value_succ, getMaxDepth_eq b hlt]
      have e1 := score_p1_turn_int (N * N) d hlt hlo (by omega)
      have e2 := score_p2_turn_int (N * N) d hlt hlo (by omega)
      rw [hM] at e1 e2
      cases p
      · simp only [hg, if_true, Bool.false_eq_true, if_false, e2]
      · simp only [hg, if_true, e1]
    · simp only [Bool.not_eq_true] at hg
      by_cases hfull : b.isFull = true
      · rw [value_succ]
        simp only [hg, hfull, Bool.false_eq_true, if_false, if_true]
      · simp only [Bool.not_eq_true] at hfull
        obtain ⟨c0, hc0, he0⟩ := exists_empty_of_not_full b hcons hlt hfull
        have hpos : 0 < emptyCount b := by
          unfold emptyCount
          exact List.countP_pos_iff.2 ⟨c0, hc0, he0⟩
        have hd1 : intAdd d 1 = d + 1 := intAdd_one_int d (by omega) (by omega)
        have hne : ∀ v : Nat × Nat → Int, (emptyCells b).map v ≠ [] := by
          intro v h
          have hmem : c0 ∈ emptyCells b := (mem_emptyCells b c0).2 ⟨(mem_scanOrder c0).1 hc0, he0⟩
          have : v c0 ∈ (emptyCells b).map v := List.mem_map_of_mem v hmem
          rw [h] at this
          exact absurd this (List.not_mem_nil _)
        have hch : ∀ q : Bool, ∀ c ∈ emptyCells b,
            value fuel (intAdd d 1) (!q) (place q b c.1 c.2) =
              specValueAux k (place q b c.1 c.2) (d + 1) (!q) := by
          intro q c hc
          obtain ⟨hin, he⟩ := (mem_emptyCells b c).1 hc
          have hE := emptyCount_place q b c.1 c.2 hin.1 hin.2 he
          rw [hd1]
          apply ih
          · exact place_consistent q b c.1 c.2 hin.1 hin.2 he hcons hlt
          · omega
          · omega
          · omega
          · omega
        cases p
        · rw [value_p2_node fuel d b hg hfull]
          simp only [hg, hfull, Bool.false_eq_true, if_false]
          rw [foldl_filter_map (scanOrder N) (fun c => b.isFieldEmpty c.1 c.2)
            (fun c => value fuel (intAdd d 1) true (place false b c.1 c.2)) max INT_MIN]
          show List.foldl max INT_MIN ((emptyCells b).map _) = _
          rw [foldl_max_eq_listMax _ (hne _)
            (fun v hv => by
              obtain ⟨c, _, rfl⟩ := List.mem_map.1 hv
              exact (value_int_range fuel _ _ _).1)]
          congr 1
          apply List.map_congr_left
          intro c hc
          exact hch false c hc
        · rw [value_p1_node fuel d b hg hfull]
          simp only [hg, hfull, Bool.false_eq_true, if_false, if_true]
          rw [foldl_filter_map (scanOrder N) (fun c => b.isFieldEmpty c.1 c.2)
            (fun c => value fuel (intAdd d 1) false (place true b c.1 c.2)) min INT_MAX]
          show List.foldl min INT_MAX ((emptyCells b).map _) = _
          rw [foldl_min_eq_listMin _ (hne _)
            (fun v hv => by
              obtain ⟨c, _, rfl⟩ := List.mem_map.1 hv
              exact (value_int_range fuel _ _ _).2)]
          congr 1
          apply List.map_congr_left
          intro c hc
          exact hch true c hc

/-- C16, as amended. The in-place mutate/undo `minimax` computes the score
of the copy-based reference definition `specValue` (`N * N - depth` with
player one to move, `-(N * N - depth)` with player two to move, on a board
with a completed line; 0 on a full board; otherwise the minimum, for player
one, or maximum, for player two, over the empty cells of the score of the
board with the mover's mark on the cell, at `depth + 1`, for the other
player): on every board with cells in {EMPTY, P1, P2} and a consistent
counter, for either player and every depth with
`N * N - INT_MAX ≤ depth` and `depth + (number of empty cells) ≤ INT_MAX`,
so that `N * N - depth` and `depth + 1` stay within `int` along the search.
`minimax` leaves the board as it found it. -/
theorem minimax_eq_specValue {N : Nat} (hlt : N * N < SIZE_MOD) (fuel : Nat)
    (hf : N * N < fuel) (b : Board N) (hv : CellsValid b) (hcons : Consistent b)
    (depth : Int) (hlo : ((N * N : Nat) : Int) - INT_MAX ≤ depth)
    (hhi : depth + (emptyCount b : Int) ≤ INT_MAX) (p : Bool) :
    minimax fuel depth p b = some (specValue b depth p, b) ∧
    specValue b depth p =
      if b.isGameEnd then
        if p then ((N * N : Nat) : Int) - depth else -(((N * N : Nat) : Int) - depth)
      else if b.isFull then 0
      else if p then
        listMin ((emptyCells b).map fun c => specValue (place p b c.1 c.2) (depth + 1) (!p))
      else
        listMax ((emptyCells b).map fun c => specValue (place p b c.1 c.2) (depth + 1) (!p)) := by
  have hle := emptyCount_le b
  have hc := consistent_count_lt b hcons hlt
  refine ⟨?_, specValue_eq b depth p⟩
  rw [minimax_eq_value fuel depth p b hv hc (by omega)]
  unfold specValue
  rw [value_eq_specValueAux hlt fuel (emptyCount b + 1) depth p b hcons hlo hhi (by omega)
    (by omega)]

theorem minimax_eq_specValue_witness :
    minimax 10 0 false sampleP2 = some (specValue sampleP2 0 false, sampleP2) ∧
      minimax 10 (-5) true sampleP1 = some (specValue sampleP1 (-5) true, sampleP1) :=
  ⟨(minimax_eq_specValue (by decide) 10 (by norm_num) sampleP2 cellsValid_sampleP2
      consistent_sampleP2 0 (by decide) (by
        have h : emptyCount sampleP2 = 4 := by decide
        rw [h]; decide) false).1,
    (minimax_eq_specValue (by decide) 10 (by norm_num) sampleP1 cellsValid_sampleP1
      consistent_sampleP1 (-5) (by decide) (by
        have h : emptyCount sampleP1 = 3 := by decide
        rw [h]; decide) true).1⟩

/-- C16, the claim as stated fails: on `sampleWon` (3×3, cells valid,
counter consistent, a completed line) at depth `INT_MIN` with player one to
move the reference score is `9 - INT_MIN = 2147483657`, and `minimax`
returns that value narrowed to `int`, `-2147483639`. -/
theorem minimax_eq_specValue_counterexample :
    CellsValid sampleWon ∧ Consistent sampleWon ∧
      specValue sampleWon (-2147483648) true = 2147483657 ∧
      minimax 1 (-2147483648) true sampleWon = some (-2147483639, sampleWon) := by
  refine ⟨cellsValid_sampleWon, consistent_sampleWon, by decide, ?_⟩
  unfold minimax
  have hg : sampleWon.isGameEnd = true := by decide
  simp only [hg, if_true]
  have h : intOfSize (sizeSub sampleWon.getMaxDepth (sizeOfInt (-2147483648))) =
      -2147483639 := by decide
  rw [h]

/-! ## Well-formed balanced boards are reachable -/

theorem countP_add_of_disjoint {α : Type} (l : List α) (p q r : α → Bool)
    (h : ∀ a ∈ l, (r a = true ↔ (p a = true ∨ q a = true)) ∧ ¬ (p a = true ∧ q a = true)) :
    l.countP r = l.countP p + l.countP q := by
  induction l with
  | nil => simp
  | cons a as ih =>
    have ha := h a (List.mem_cons_self a as)
    have ih' := ih (fun c hc => h c (List.mem_cons_of_mem a hc))
    simp only [List.countP_cons]
    rw [ih']
    cases hp : p a <;> cases hq : q a <;> cases hr : r a <;> simp_all <;> omega

theorem occupiedCount_eq_marks {N : Nat} (b : Board N) :
    occupiedCount b = p1Count b + p2Count b := by
  unfold occupiedCount p1Count p2Count
  apply countP_add_of_disjoint
  intro c _
  constructor
  · rw [Bool.not_eq_true', isFieldEmpty_eq_false_iff]
    simp
  · rintro ⟨h1, h2⟩
    rw [beq_iff_eq] at h1 h2
    rw [h1] at h2
    exact absurd h2 (by decide)

/-- Clearing a cell that holds the mark of player `q` removes one mark of
`q` and none of the other player. -/
theorem markCount_clearField {N : Nat} (b : Board N) (x y : Nat) (hx : x < N) (hy : y < N)
    (m : Char) (hm : b.board_ x y = m) (hne : m ≠ Board.EMPTY) :
    ((scanOrder N).countP fun c => (b.clearField x y).board_ c.1 c.2 == m) + 1 =
      (scanOrder N).countP fun c => b.board_ c.1 c.2 == m := by
  apply countP_flip (scanOrder N) (scanOrder_nodup N) (x, y)
  · exact (mem_scanOrder (x, y)).2 ⟨hx, hy⟩
  · simp [hm]
  · simp only [Board.clearField, Board.setField, and_self, if_true]
    rw [beq_eq_false_iff_ne]
    exact fun h => hne h.symm
  · intro c hc
    have : ¬ (c.1 = x ∧ c.2 = y) := fun e => hc (Prod.ext e.1 e.2)
    simp [Board.clearField, Board.setField, this]

theorem markCount_clearField_other {N : Nat} (b : Board N) (x y : Nat)
    (m m' : Char) (hm : b.board_ x y = m) (hne : m' ≠ Board.EMPTY) (hmm : m' ≠ m) :
    ((scanOrder N).countP fun c => (b.clearField x y).board_ c.1 c.2 == m') =
      (scanOrder N).countP fun c => b.board_ c.1 c.2 == m' := by
  apply List.countP_congr
  intro c _
  by_cases h : c.1 = x ∧ c.2 = y
  · have e1 : ((b.clearField x y).board_ c.1 c.2 == m') = false := by
      simp only [Board.clearField, Board.setField, h, and_self, if_true]
      rw [beq_eq_false_iff_ne]
      exact fun e => hne e.symm
    have e2 : (b.board_ c.1 c.2 == m') = false := by
      rw [h.1, h.2, hm, beq_eq_false_iff_ne]
      exact fun e => hmm e.symm
    rw [e1, e2]
  · simp [Board.clearField, Board.setField, h]

/-- Clearing a cell completes no line. -/
theorem isGameEnd_of_clearField {N : Nat} (hN : 1 ≤ N) (b : Board N) (x y : Nat)
    (h : (b.clearField x y).isGameEnd = true) : b.isGameEnd = true := by
  obtain ⟨line, hline, m, hm, hall⟩ := (isGameEnd_iff_line hN _).1 h
  refine (isGameEnd_iff_line hN b).2 ⟨line, hline, m, hm, ?_⟩
  intro c hc
  have hcell := hall c hc
  simp only [Board.clearField, Board.setField] at hcell
  by_cases e : c.1 = x ∧ c.2 = y
  · rw [if_pos e] at hcell
    rcases hm with rfl | rfl <;> exact absurd hcell (by decide)
  · rw [if_neg e] at hcell
    exact hcell

/-- Placing again the mark that was cleared gives back the board. -/
theorem place_clearField {N : Nat} (q : Bool) (b : Board N) (x y : Nat)
    (hm : b.board_ x y = if q then Board.P1 else Board.P2)
    (h1 : 1 ≤ b.checkedFieldsCount_) (hc : b.checkedFieldsCount_ < SIZE_MOD) :
    place q (b.clearField x y) x y = b := by
  apply board_eq
  · funext i j
    rw [place_board]
    by_cases h : i = x ∧ j = y
    · rw [if_pos h, h.1, h.2, hm]
    · rw [if_neg h]
      simp [Board.clearField, Board.setField, h]
  · rw [place_count]
    simp only [Board.clearField, Board.setField]
    unfold SIZE_MOD at *
    omega

/-- Every board with cells in {EMPTY, P1, P2} (EMPTY outside the array), a
consistent counter, no completed line and marks balanced for the player to
move is reachable by legal alternating play: the marks can be taken back one
by one, the last mover's first. -/
theorem reachable_of_balanced {N : Nat} (hlt : N * N < SIZE_MOD) (n : Nat) :
    ∀ (p : Bool) (b : Board N), occupiedCount b = n → CellsValid b →
      (∀ x y, ¬ (x < N ∧ y < N) → b.board_ x y = Board.EMPTY) → Consistent b →
      b.isGameEnd = false →
      (if p then p1Count b = p2Count b ∨ p2Count b = p1Count b + 1
        else p1Count b = p2Count b ∨ p1Count b = p2Count b + 1) →
      Reachable p b := by
  induction n with
  | zero =>
    intro p b hn hv hout hcons _ _
    have hb : b = Board.empty N := by
      apply board_eq
      · funext x y
        by_cases hin : x < N ∧ y < N
        · have he : b.isFieldEmpty x y = true := by
            unfold occupiedCount at hn
            rw [List.countP_eq_zero] at hn
            have := hn (x, y) ((mem_scanOrder (x, y)).2 hin)
            simpa using this
          exact eq_EMPTY_of_isFieldEmpty b hv x y hin.1 hin.2 he
        · exact hout x y hin
      · unfold Consistent at hcons
        rw [hcons, hn]
        rfl
    rw [hb]
    exact Reachable.start p
  | succ n ih =>
    intro p b hn hv hout hcons hg hbal
    have hsum := occupiedCount_eq_marks b
    have hcnt := consistent_count_lt b hcons hlt
    have hcnt1 : 1 ≤ b.checkedFieldsCount_ := by
      unfold Consistent at hcons
      omega
    -- a cell holding the mark of the last mover
    have hpos : 0 < (scanOrder N).countP
        fun c => b.board_ c.1 c.2 == (if !p then Board.P1 else Board.P2) := by
      cases p
      · simp only [Bool.false_eq_true, if_false] at hbal
        simp only [Bool.not_false, if_true]
        unfold p1Count p2Count at hbal hsum
        omega
      · simp only [if_true] at hbal
        simp only [Bool.not_true, Bool.false_eq_true, if_false]
        unfold p1Count p2Count at hbal hsum
        omega
    obtain ⟨c, hc, hcm⟩ := List.countP_pos_iff.1 hpos
    have hin := (mem_scanOrder c).1 hc
    have hN : 1 ≤ N := by omega
    rw [beq_iff_eq] at hcm
    have hocc : b.isFieldEmpty c.1 c.2 = false := by
      rw [isFieldEmpty_eq_false_iff, hcm]
      cases p <;> simp
    have hmne : (if !p then Board.P1 else Board.P2) ≠ Board.EMPTY := by
      cases p <;> decide
    have hrec : Reachable (!p) (b.clearField c.1 c.2) := by
      apply ih (!p) (b.clearField c.1 c.2)
      · have := occupiedCount_clearField b c.1 c.2 hin.1 hin.2 hocc
        omega
      · exact clearField_cellsValid b c.1 c.2 hv
      · intro x y hxy
        have hne : ¬ (x = c.1 ∧ y = c.2) := by
          intro e
          apply hxy
          rw [e.1, e.2]
          exact hin
        simp only [Board.clearField, Board.setField, if_neg hne]
        exact hout x y hxy
      · exact clearField_consistent b c.1 c.2 hin.1 hin.2 hocc hcons hlt
      · rw [Bool.eq_false_iff]
        intro h
        have := isGameEnd_of_clearField hN b c.1 c.2 h
        rw [hg] at this
        exact absurd this (by decide)
      · have e1 := markCount_clearField b c.1 c.2 hin.1 hin.2 _ hcm hmne
        cases p
        · have e2 := markCount_clearField_other b c.1 c.2 Board.P1 Board.P2 hcm
            (by decide) (by decide)
          simp only [Bool.false_eq_true, if_false] at hbal
          simp only [Bool.not_false, if_true] at e1 ⊢
          unfold p1Count p2Count at hbal ⊢
          omega
        · have e2 := markCount_clearField_other b c.1 c.2 Board.P2 Board.P1 hcm
            (by decide) (by decide)
          simp only [if_true] at hbal
          simp only [Bool.not_true, Bool.false_eq_true, if_false] at e1 ⊢
          unfold p1Count p2Count at hbal ⊢
          omega
    have hempty : (b.clearField c.1 c.2).isFieldEmpty c.1 c.2 = true := by
      rw [clearField_isFieldEmpty]
      simp
    have hcons' := clearField_consistent b c.1 c.2 hin.1 hin.2 hocc hcons hlt
    have hmove := Reachable.move (!p) (b.clearField c.1 c.2) c.1 c.2 hrec
      (by
        rw [Bool.eq_false_iff]
        intro h
        have := isGameEnd_of_clearField hN b c.1 c.2 h
        rw [hg] at this
        exact absurd this (by decide))
      (isFull_false_of_empty hlt _ hcons' c.1 c.2 hin.1 hin.2 hempty)
      hin.1 hin.2 hempty
    rw [place_clearField (!p) b c.1 c.2 hcm hcnt1 hcnt, Bool.not_not] at hmove
    exact hmove

/-! ## Counting marks by rows -/

theorem sum_map_product (l1 l2 : List Nat) (w : Nat × Nat → Int) :
    ((List.product l1 l2).map w).sum =
      (l1.map fun a => (l2.map fun y => w (a, y)).sum).sum := by
  induction l1 with
  | nil => rfl
  | cons a as ih =>
    have h : List.product (a :: as) l2 = l2.map (Prod.mk a) ++ List.product as l2 :=
      List.product_cons a as l2
    rw [h, List.map_append, List.sum_append, ih, List.map_map]
    rfl

theorem sum_map_marks {α : Type} (l : List α) (m : α → Char) :
    (l.map fun c => if m c = Board.P1 then (1 : Int)
      else if m c = Board.P2 then -1 else 0).sum =
      ((l.countP fun c => m c == Board.P1 : Nat) : Int) -
        ((l.countP fun c => m c == Board.P2 : Nat) : Int) := by
  induction l with
  | nil => simp
  | cons a as ih =>
    simp only [List.map_cons, List.sum_cons, List.countP_cons, ih]
    by_cases h1 : m a = Board.P1
    · have h2 : ¬ m a = Board.P2 := by rw [h1]; decide
      have e1 : (m a == Board.P1) = true := by rw [beq_iff_eq]; exact h1
      have e2 : (m a == Board.P2) = false := by rw [beq_eq_false_iff_ne]; exact h2
      rw [if_pos h1, e1, e2]
      simp only [if_true, Bool.false_eq_true, if_false]
      push_cast
      omega
    · by_cases h2 : m a = Board.P2
      · have e1 : (m a == Board.P1) = false := by rw [beq_eq_false_iff_ne]; exact h1
        have e2 : (m a == Board.P2) = true := by rw [beq_iff_eq]; exact h2
        rw [if_neg h1, if_pos h2, e1, e2]
        simp only [if_true, Bool.false_eq_true, if_false]
        push_cast
        omega
      · have e1 : (m a == Board.P1) = false := by rw [beq_eq_false_iff_ne]; exact h1
        have e2 : (m a == Board.P2) = false := by rw [beq_eq_false_iff_ne]; exact h2
        rw [if_neg h1, if_neg h2, e1, e2]
        simp only [Bool.false_eq_true, if_false]
        push_cast
        omega

theorem sum_range_first_zero (m : Nat) :
    ((List.range (m + 1)).map fun y => if y = 0 then (0 : Int) else 1).sum = (m : Int) := by
  induction m with
  | zero => rfl
  | succ m ih =>
    rw [List.range_succ, List.map_append, List.sum_append, ih]
    simp only [List.map_cons, List.map_nil, List.sum_cons, List.sum_nil, add_zero]
    have h : ¬ (m + 1 = 0) := by omega
    rw [if_neg h]
    push_cast
    omega

theorem sum_range_first_one (m : Nat) :
    ((List.range (m + 1)).map fun y => if y = 0 then (1 : Int) else -1).sum =
      1 - (m : Int) := by
  induction m with
  | zero => rfl
  | succ m ih =>
    rw [List.range_succ, List.map_append, List.sum_append, ih]
    simp only [List.map_cons, List.map_nil, List.sum_cons, List.sum_nil, add_zero]
    have h : ¬ (m + 1 = 0) := by omega
    rw [if_neg h]
    push_cast
    omega

theorem sum_range_parity (x m : Nat) :
    ((List.range m).map fun y => if (x + y) % 2 = 0 then (-1 : Int) else 1).sum =
      if m % 2 = 0 then 0 else if x % 2 = 0 then -1 else 1 := by
  induction m with
  | zero => rfl
  | succ m ih =>
    rw [List.range_succ, List.map_append, List.sum_append, ih]
    simp only [List.map_cons, List.map_nil, List.sum_cons, List.sum_nil, add_zero]
    split_ifs <;> omega

theorem sum_range_rows (M : Int) (k : Nat) :
    ((List.range (4 + k)).map fun x : Nat =>
        if x ≤ 1 then M - 1 else if x ≤ 3 then 2 - M
        else if x % 2 = 0 then (-1 : Int) else 1).sum =
      if k % 2 = 0 then 2 else 1 := by
  induction k with
  | zero =>
    simp [List.range_succ]
    ring
  | succ k ih =>
    rw [show 4 + (k + 1) = (4 + k) + 1 from rfl, List.range_succ, List.map_append,
      List.sum_append, ih]
    simp only [List.map_cons, List.map_nil, List.sum_cons, List.sum_nil, add_zero]
    have h1 : ¬ (4 + k ≤ 1) := by omega
    have h3 : ¬ (4 + k ≤ 3) := by omega
    rw [if_neg h1, if_neg h3]
    split_ifs <;> omega

/-! ## A reachable board on which every empty cell scores `INT_MIN` -/

theorem hugeB_cell (x y : Nat) (hx : x < 1073741823) (hy : y < 1073741823) :
    hugeB.board_ x y =
      if x ≤ 1 then (if y = 0 then ' ' else 'X')
      else if x ≤ 3 then (if y = 0 then 'X' else 'O')
      else if (x + y) % 2 = 0 then 'O' else 'X' := by
  show (if x < 1073741823 ∧ y < 1073741823 then _ else _) = _
  rw [if_pos ⟨hx, hy⟩]

theorem hugeB_outside (x y : Nat) (h : ¬ (x < 1073741823 ∧ y < 1073741823)) :
    hugeB.board_ x y = Board.EMPTY := by
  show (if x < 1073741823 ∧ y < 1073741823 then _ else _) = _
  rw [if_neg h]
  rfl

theorem hugeB_cellsValid : CellsValid hugeB := by
  intro x y hx hy
  rw [hugeB_cell x y hx hy]
  split_ifs <;> simp [Board.P1, Board.P2, Board.EMPTY]

theorem hugeB_isFieldEmpty (x y : Nat) (hx : x < 1073741823) (hy : y < 1073741823) :
    hugeB.isFieldEmpty x y = true ↔ (x ≤ 1 ∧ y = 0) := by
  unfold Board.isFieldEmpty Board.getField
  rw [hugeB_cell x y hx hy]
  by_cases h1 : x ≤ 1
  · by_cases h2 : y = 0
    · simp [h1, h2, Board.P1, Board.P2]
    · simp [h1, h2, Board.P1, Board.P2]
  · by_cases h3 : x ≤ 3
    · by_cases h2 : y = 0
      · simp [h1, h3, h2, Board.P1, Board.P2]
      · simp [h1, h3, h2, Board.P1, Board.P2]
    · by_cases h4 : (x + y) % 2 = 0
      · simp [h1, h3, h4, Board.P1, Board.P2]
      · simp [h1, h3, h4, Board.P1, Board.P2]

theorem hugeB_place_isFieldEmpty (q : Bool) (x0 : Nat) (x y : Nat)
    (hx : x < 1073741823) (hy : y < 1073741823) :
    (place q hugeB x0 0).isFieldEmpty x y = true ↔ (x ≤ 1 ∧ x ≠ x0 ∧ y = 0) := by
  rw [place_isFieldEmpty]
  by_cases h : x = x0 ∧ y = 0
  · rw [if_pos h]
    simp only [Bool.false_eq_true, false_iff]
    omega
  · rw [if_neg h, hugeB_isFieldEmpty x y hx hy]
    omega

theorem hugeB_emptyCount : emptyCount hugeB = 2 := by
  have e1 := emptyCount_place false hugeB 0 0 (by norm_num) (by norm_num)
    ((hugeB_isFieldEmpty 0 0 (by norm_num) (by norm_num)).2 ⟨by norm_num, rfl⟩)
  have e2 := emptyCount_place true (place false hugeB 0 0) 1 0 (by norm_num) (by norm_num)
    ((hugeB_place_isFieldEmpty false 0 1 0 (by norm_num) (by norm_num)).2
      ⟨by norm_num, by norm_num, rfl⟩)
  have e3 : emptyCount (place true (place false hugeB 0 0) 1 0) = 0 := by
    unfold emptyCount
    rw [List.countP_eq_zero]
    intro c hc
    have hin := (mem_scanOrder c).1 hc
    rw [place_isFieldEmpty]
    by_cases h : c.1 = 1 ∧ c.2 = 0
    · simp [h]
    · rw [if_neg h]
      intro he
      have := (hugeB_place_isFieldEmpty false 0 c.1 c.2 hin.1 hin.2).1 he
      omega
  omega

theorem hugeB_consistent : Consistent hugeB := by
  have h1 := emptyCount_add_occupiedCount hugeB
  rw [hugeB_emptyCount] at h1
  unfold Consistent
  show 1152921502459363327 = occupiedCount hugeB
  omega

/-- On a board that agrees with `hugeB` except at `(0, 0)` and `(1, 0)`, a
completed line can only be `board_[0][0..]` or `board_[1][0..]`. -/
theorem hugeB_lines (b : Board 1073741823)
    (hsame : ∀ x y, x < 1073741823 → y < 1073741823 → ¬ (x ≤ 1 ∧ y = 0) →
      b.board_ x y = hugeB.board_ x y)
    (hg : b.isGameEnd = true) :
    ∃ i, i ≤ 1 ∧ ∃ m, (m = Board.P1 ∨ m = Board.P2) ∧
      ∀ j, j < 1073741823 → b.board_ i j = m := by
  have cell : ∀ x y, x < 1073741823 → y < 1073741823 → ¬ (x ≤ 1 ∧ y = 0) →
      b.board_ x y =
        if x ≤ 1 then 'X'
        else if x ≤ 3 then (if y = 0 then 'X' else 'O')
        else if (x + y) % 2 = 0 then 'O' else 'X' := by
    intro x y hx hy hxy
    rw [hsame x y hx hy hxy, hugeB_cell x y hx hy]
    by_cases h1 : x ≤ 1
    · have h2 : ¬ y = 0 := fun e => hxy ⟨h1, e⟩
      rw [if_pos h1, if_pos h1, if_neg h2]
    · rw [if_neg h1, if_neg h1]
  have hXO : ∀ m : Char, 'X' = m → 'O' = m → False := by
    intro m h1 h2
    rw [← h1] at h2
    exact absurd h2 (by decide)
  unfold Board.isGameEnd at hg
  simp only [Bool.or_eq_true] at hg
  rcases hg with (hg | hg) | hg
  · obtain ⟨i, hi, m, hm, hall⟩ := (isWinInColumn_iff b).1 hg
    by_cases hi1 : i ≤ 1
    · exact ⟨i, hi1, m, hm, hall⟩
    · exfalso
      have e0 := hall 0 (by norm_num)
      have e1 := hall 1 (by norm_num)
      rw [cell i 0 hi (by norm_num) (by omega)] at e0
      rw [cell i 1 hi (by norm_num) (by omega)] at e1
      rw [if_neg hi1] at e0 e1
      by_cases hi3 : i ≤ 3
      · rw [if_pos hi3, if_pos rfl] at e0
        rw [if_pos hi3, if_neg (by norm_num)] at e1
        exact hXO m e0 e1
      · rw [if_neg hi3] at e0 e1
        by_cases hp : (i + 0) % 2 = 0
        · have hq : ¬ (i + 1) % 2 = 0 := by omega
          rw [if_pos hp] at e0
          rw [if_neg hq] at e1
          exact hXO m e1 e0
        · have hq : (i + 1) % 2 = 0 := by omega
          rw [if_neg hp] at e0
          rw [if_pos hq] at e1
          exact hXO m e0 e1
  · obtain ⟨i, hi, m, hm, hall⟩ := (isWinInRow_iff b).1 hg
    exfalso
    by_cases hi0 : i = 0
    · subst hi0
      have e2 := hall 2 (by norm_num)
      have e4 := hall 4 (by norm_num)
      rw [cell 2 0 (by norm_num) (by norm_num) (by norm_num)] at e2
      rw [cell 4 0 (by norm_num) (by norm_num) (by norm_num)] at e4
      norm_num at e2 e4
      exact hXO m e2 e4
    · have e0 := hall 0 (by norm_num)
      have e2 := hall 2 (by norm_num)
      rw [cell 0 i (by norm_num) hi (by omega)] at e0
      rw [cell 2 i (by norm_num) hi (by norm_num)] at e2
      rw [if_pos (by norm_num)] at e0
      rw [if_neg (by norm_num), if_pos (by norm_num), if_neg hi0] at e2
      exact hXO m e0 e2
  · exfalso
    rcases (isWinInDiagonal_iff (by norm_num) b).1 hg with ⟨m, hm, hall⟩ | ⟨m, hm, hall⟩
    · have e1 := hall 1 (by norm_num)
      have e2 := hall 2 (by norm_num)
      rw [cell 1 1 (by norm_num) (by norm_num) (by norm_num)] at e1
      rw [cell 2 2 (by norm_num) (by norm_num) (by norm_num)] at e2
      norm_num at e1 e2
      exact hXO m e1 e2
    · have e0 := hall 0 (by norm_num)
      have e2 := hall 2 (by norm_num)
      rw [cell 0 _ (by norm_num) (by norm_num) (by norm_num)] at e0
      rw [cell 2 _ (by norm_num) (by norm_num) (by norm_num)] at e2
      norm_num at e0 e2
      exact hXO m e0 e2

theorem hugeB_isGameEnd : hugeB.isGameEnd = false := by
  rw [Bool.eq_false_iff]
  intro hg
  obtain ⟨i, hi, m, hm, hall⟩ := hugeB_lines hugeB (fun _ _ _ _ _ => rfl) hg
  have e := hall 0 (by norm_num)
  rw [hugeB_cell i 0 (by omega) (by norm_num), if_pos hi, if_pos rfl] at e
  rcases hm with rfl | rfl <;> exact absurd e (by decide)

/-- Player two's mark on one of the two empty cells completes no line. -/
theorem hugeB_place_p2_isGameEnd (x0 : Nat) (hx0 : x0 ≤ 1) :
    (place false hugeB x0 0).isGameEnd = false := by
  rw [Bool.eq_false_iff]
  intro hg
  have hsame : ∀ x y, x < 1073741823 → y < 1073741823 → ¬ (x ≤ 1 ∧ y = 0) →
      (place false hugeB x0 0).board_ x y = hugeB.board_ x y := by
    intro x y _ _ hxy
    rw [place_board, if_neg (by omega)]
  obtain ⟨i, hi, m, hm, hall⟩ := hugeB_lines _ hsame hg
  have e0 := hall 0 (by norm_num)
  have e1 := hall 1 (by norm_num)
  rw [place_board] at e0 e1
  rw [if_neg (by omega), hugeB_cell i 1 (by omega) (by norm_num), if_pos hi,
    if_neg (by norm_num)] at e1
  by_cases h : i = x0
  · rw [if_pos ⟨h, rfl⟩] at e0
    simp only [Bool.false_eq_true, if_false] at e0
    rw [← e1] at e0
    exact absurd e0 (by decide)
  · rw [if_neg (by omega), hugeB_cell i 0 (by omega) (by norm_num), if_pos hi, if_pos rfl] at e0
    rw [← e1] at e0
    exact absurd e0 (by decide)

/-- Player one's mark on the other empty cell then completes a line. -/
theorem hugeB_place_p1_isGameEnd (x0 x1 : Nat) (hx1 : x1 ≤ 1) :
    (place true (place false hugeB x0 0) x1 0).isGameEnd = true := by
  have h : (place true (place false hugeB x0 0) x1 0).isWinInColumn = true := by
    refine (isWinInColumn_iff _).2 ⟨x1, by omega, 'X', Or.inl rfl, ?_⟩
    intro j hj
    rw [place_board]
    by_cases hj0 : j = 0
    · rw [if_pos ⟨rfl, hj0⟩]
      rfl
    · rw [if_neg (by omega), place_board, if_neg (by omega),
        hugeB_cell x1 j (by omega) hj, if_pos hx1, if_neg hj0]
  unfold Board.isGameEnd
  rw [h]
  rfl

/-- Both empty cells of `hugeB` score `INT_MIN` for player two: player one
then completes a line, a terminal node at depth 1, whose score
`-(N * N - 1)` narrowed to `int` is `INT_MIN`. -/
theorem hugeB_moveScore (k x0 x1 : Nat) (hx0 : x0 ≤ 1) (hx1 : x1 ≤ 1) (hne : x0 ≠ x1) :
    moveScore (k + 2) false hugeB x0 0 ≤ INT_MIN := by
  unfold moveScore
  simp only [Bool.not_false]
  have hg := hugeB_place_p2_isGameEnd x0 hx0
  have hfull : (place false hugeB x0 0).isFull = false := by
    unfold Board.isFull
    rw [place_count, decide_eq_false_iff_not]
    show ¬ (1073741823 * 1073741823 % SIZE_MOD ≤ (1152921502459363327 + 1) % SIZE_MOD)
    decide
  have he : (place false hugeB x0 0).isFieldEmpty x1 0 = true :=
    (hugeB_place_isFieldEmpty false x0 x1 0 (by omega) (by norm_num)).2
      ⟨hx1, fun e => hne e.symm, rfl⟩
  have hle := value_p1_le_child (k + 1) 0 _ hg hfull x1 0 (by omega) (by norm_num) he
  have hchild : value (k + 1) (intAdd 0 1) false (place true (place false hugeB x0 0) x1 0) =
      INT_MIN := by
    rw [value_succ]
    simp only [hugeB_place_p1_isGameEnd x0 x1 hx1, if_true, Bool.false_eq_true, if_false]
    show intOfSize (sizeNeg (sizeSub (1073741823 * 1073741823 % SIZE_MOD)
      (sizeOfInt (intAdd 0 1)))) = INT_MIN
    decide
  rw [hchild] at hle
  exact hle

/-- Marks of `board_[x]` counted with sign: `+1` for P1, `-1` for P2. -/
theorem hugeB_row_sum (x : Nat) (hx : x < 1073741823) :
    ((List.range 1073741823).map fun y =>
        if hugeB.board_ x y = Board.P1 then (1 : Int)
        else if hugeB.board_ x y = Board.P2 then -1 else 0).sum =
      if x ≤ 1 then (1073741823 : Int) - 1 else if x ≤ 3 then 2 - (1073741823 : Int)
        else if x % 2 = 0 then (-1 : Int) else 1 := by
  by_cases h1 : x ≤ 1
  · have hmap : ∀ y ∈ List.range 1073741823,
        (if hugeB.board_ x y = Board.P1 then (1 : Int)
          else if hugeB.board_ x y = Board.P2 then -1 else 0) =
        if y = 0 then (0 : Int) else 1 := by
      intro y hym
      rw [hugeB_cell x y hx (List.mem_range.1 hym), if_pos h1]
      by_cases hy0 : y = 0
      · rw [if_pos hy0, if_pos hy0]; rfl
      · rw [if_neg hy0, if_neg hy0]; rfl
    have hs : ((List.range 1073741823).map fun y => if y = 0 then (0 : Int) else 1).sum =
        ((1073741822 : Nat) : Int) := sum_range_first_zero 1073741822
    rw [if_pos h1]
    refine (congrArg List.sum (List.map_congr_left hmap)).trans (hs.trans ?_)
    norm_num
  · by_cases h3 : x ≤ 3
    · have hmap : ∀ y ∈ List.range 1073741823,
          (if hugeB.board_ x y = Board.P1 then (1 : Int)
            else if hugeB.board_ x y = Board.P2 then -1 else 0) =
          if y = 0 then (1 : Int) else -1 := by
        intro y hym
        rw [hugeB_cell x y hx (List.mem_range.1 hym), if_neg h1, if_pos h3]
        by_cases hy0 : y = 0
        · rw [if_pos hy0, if_pos hy0]; rfl
        · rw [if_neg hy0, if_neg hy0]; rfl
      have hs : ((List.range 1073741823).map fun y => if y = 0 then (1 : Int) else -1).sum =
          1 - ((1073741822 : Nat) : Int) := sum_range_first_one 1073741822
      rw [if_neg h1, if_pos h3]
      refine (congrArg List.sum (List.map_congr_left hmap)).trans (hs.trans ?_)
      norm_num
    · have hmap : ∀ y ∈ List.range 1073741823,
          (if hugeB.board_ x y = Board.P1 then (1 : Int)
            else if hugeB.board_ x y = Board.P2 then -1 else 0) =
          if (x + y) % 2 = 0 then (-1 : Int) else 1 := by
        intro y hym
        rw [hugeB_cell x y hx (List.mem_range.1 hym), if_neg h1, if_neg h3]
        by_cases hp : (x + y) % 2 = 0
        · rw [if_pos hp, if_pos hp]; rfl
        · rw [if_neg hp, if_neg hp]; rfl
      have hs := sum_range_parity x 1073741823
      rw [if_neg (by norm_num)] at hs
      rw [if_neg h1, if_neg h3]
      exact (congrArg List.sum (List.map_congr_left hmap)).trans hs

theorem hugeB_balance : p1Count hugeB = p2Count hugeB + 1 := by
  have hsum := sum_map_marks (scanOrder 1073741823) (fun c => hugeB.board_ c.1 c.2)
  have hprod := sum_map_product (List.range 1073741823) (List.range 1073741823)
    (fun c => if hugeB.board_ c.1 c.2 = Board.P1 then (1 : Int)
      else if hugeB.board_ c.1 c.2 = Board.P2 then -1 else 0)
  have hrows : ((List.range 1073741823).map fun x : Nat =>
        if x ≤ 1 then (1073741823 : Int) - 1 else if x ≤ 3 then 2 - (1073741823 : Int)
        else if x % 2 = 0 then (-1 : Int) else 1).sum =
      if 1073741819 % 2 = 0 then 2 else 1 := sum_range_rows 1073741823 1073741819
  rw [if_neg (by norm_num)] at hrows
  have hmid : ((List.range 1073741823).map fun x =>
        ((List.range 1073741823).map fun y =>
          if hugeB.board_ x y = Board.P1 then (1 : Int)
          else if hugeB.board_ x y = Board.P2 then -1 else 0).sum) =
      (List.range 1073741823).map fun x : Nat =>
        if x ≤ 1 then (1073741823 : Int) - 1 else if x ≤ 3 then 2 - (1073741823 : Int)
        else if x % 2 = 0 then (-1 : Int) else 1 :=
    List.map_congr_left fun x hx => hugeB_row_sum x (List.mem_range.1 hx)
  have htotal : ((scanOrder 1073741823).map fun c =>
      if hugeB.board_ c.1 c.2 = Board.P1 then (1 : Int)
      else if hugeB.board_ c.1 c.2 = Board.P2 then -1 else 0).sum = 1 :=
    hprod.trans ((congrArg List.sum hmid).trans hrows)
  have hfin : (1 : Int) = ((p1Count hugeB : Nat) : Int) - ((p2Count hugeB : Nat) : Int) :=
    htotal.symm.trans hsum
  omega

theorem hugeB_reachable : Reachable false hugeB :=
  reachable_of_balanced (by decide) (occupiedCount hugeB) false hugeB rfl hugeB_cellsValid
    hugeB_outside hugeB_consistent hugeB_isGameEnd (Or.inr hugeB_balance)

/-- C3, the claim as stated fails: the board `hugeB` of side
`N = 2^30 - 1` is reachable from the empty board by legal alternating play
with player two to move, has no completed line and is not full, its cells
`(0, 0)` and `(1, 0)` are empty, and `getBestMove(false)` returns the
sentinel `(-1, -1)`: whichever of the two cells player two takes, player one
completes a line on the other, and that terminal node at depth 1 scores
`-(N * N - 1)` narrowed to `int`, which is `INT_MIN`, not above the initial
`best_score`. -/
theorem getBestMove_returns_empty_cell_counterexample :
    Reachable false hugeB ∧ hugeB.isGameEnd = false ∧ hugeB.isFull = false ∧
      hugeB.isFieldEmpty 0 0 = true ∧ hugeB.isFieldEmpty 1 0 = true ∧
      moveScore 2 false hugeB 0 0 = INT_MIN ∧ moveScore 2 false hugeB 1 0 = INT_MIN ∧
      ∀ k, getBestMove (k + 2) false hugeB = some ((-1, -1), hugeB) := by
  have h0 : ∀ k, moveScore (k + 2) false hugeB 0 0 ≤ INT_MIN :=
    fun k => hugeB_moveScore k 0 1 (by norm_num) (by norm_num) (by norm_num)
  have h1 : ∀ k, moveScore (k + 2) false hugeB 1 0 ≤ INT_MIN :=
    fun k => hugeB_moveScore k 1 0 (by norm_num) (by norm_num) (by norm_num)
  refine ⟨hugeB_reachable, hugeB_isGameEnd, by decide,
    (hugeB_isFieldEmpty 0 0 (by norm_num) (by norm_num)).2 ⟨by norm_num, rfl⟩,
    (hugeB_isFieldEmpty 1 0 (by norm_num) (by norm_num)).2 ⟨by norm_num, rfl⟩,
    le_antisymm (h0 0) (value_int_range _ _ _ _).1,
    le_antisymm (h1 0) (value_int_range _ _ _ _).1, ?_⟩
  intro k
  rw [getBestMove_eq_bestMove (k + 2) false hugeB hugeB_cellsValid (by decide)
    (by rw [hugeB_emptyCount]; omega)]
  rw [bestMove_sentinel (k + 2) false hugeB]
  intro c hc he
  have hin := (mem_scanOrder c).1 hc
  obtain ⟨hc1, hc2⟩ := (hugeB_isFieldEmpty c.1 c.2 hin.1 hin.2).1 he
  rw [hc2]
  have hcases : c.1 = 0 ∨ c.1 = 1 := by omega
  rcases hcases with e | e
  · rw [e]; exact h0 k
  · rw [e]; exact h1 k

end gtsa
